import Mathlib

/-!
# computorv1: the equation parser and the degree-dispatched solver

A shallow embedding of `src/utils.cpp` (class `PolynomialSolver`).

* `std::string` is `List Char`.
* `double` is embedded in `ℚ`.  Every floating-point operation of the source is written
  `rnd (exact result)`, where `rnd : ℚ → ℚ` is the rounding of the floating-point format:
  `id` gives exact arithmetic, `binary64` gives IEEE-754 double precision, round to nearest,
  ties to even, with gradual underflow and no bound on the exponent above.  Overflow to
  infinity and NaN are not represented there; `sqrt` and the `solveDegree` functions, where
  they arise, are embedded a second time over `Dbl`, the doubles with both infinities and NaN
  (`sqrtD`, `solveDegree2D`).  The sign of zero is represented in neither.
* `std::stod` and `std::stoi` raise the exceptions of libstdc++ over glibc, the range errors
  of `strtod` included (`strtodRange`).
* `int` is `Int`, reduced with `wrapInt32` where the source increments or multiplies.
* `std::map<int, double>` is a key-sorted association list.
* `std::cout << ...` appends `Out` items to an output list; a `double` is recorded by value,
  and `shown` gives the number its six-significant-digit rendering stands for.
* exceptions are `Except Err`; the two unbounded loops of the source (`for (int i = 0;
  i <= maxDegree; i++)` and `while (true)` in `sqrt`) take fuel and return `none` when
  it runs out.
-/

namespace PolynomialSolver

/-! ## Strings, errors, output -/

abbrev Str := List Char

/-- The exceptions the program can raise, all derived from `std::exception`. -/
inductive Err where
  | runtimeError (what : String)
  | invalidArgument (what : String)
  | outOfRange (what : String)
  deriving DecidableEq, Repr

/-- One `<<` on `std::cout`. -/
inductive Out where
  | str (s : String)
  | dbl (x : ℚ)
  | int (n : Int)
  | endl
  deriving DecidableEq, Repr

/-- The characters of `" \t"`, the set `trim` strips. -/
def isBlank (c : Char) : Bool := c == ' ' || c == '\t'

/-- The function `std::isspace` in the "C" locale: space, `\t`, `\n`, `\v`, `\f`, `\r`. -/
def isspace (c : Char) : Bool :=
  c == ' ' || c == '\t' || c == '\n' || c == Char.ofNat 11 || c == Char.ofNat 12 || c == '\r'

/-- The function `std::isdigit`, the class `\d`. -/
def isdigit (c : Char) : Bool := decide ('0' ≤ c ∧ c ≤ '9')

/-- The class `[+-]`. -/
def isSign (c : Char) : Bool := c == '+' || c == '-'

/-- One call `std::getline(ss, token, delimiter)` on the unread part of the stream: it fails
(`none`) when nothing is left, otherwise it yields the characters before the first delimiter and
consumes that delimiter. -/
def getline (delimiter : Char) (ss : Str) : Option (Str × Str) :=
  match ss with
  | [] => none
  | _ => some (ss.takeWhile (· != delimiter), (ss.dropWhile (· != delimiter)).drop 1)

/-- The loop `while (std::getline(ss, token, delimiter)) tokens.push_back(token);`.  Every
successful `getline` consumes a character, so `ss.length + 1` rounds always suffice. -/
def splitLoop (delimiter : Char) : Nat → Str → List Str → List Str
  | 0, _, tokens => tokens
  | fuel + 1, ss, tokens =>
    match getline delimiter ss with
    | none => tokens
    | some (token, rest) => splitLoop delimiter fuel rest (tokens ++ [token])

/-- The method `PolynomialSolver::split`. -/
def split (str : Str) (delimiter : Char) : List Str :=
  splitLoop delimiter (str.length + 1) str []

/-- The method `PolynomialSolver::trim`: the text between the first and the last character that
is not in `" \t"`, empty when there is none. -/
def trim (str : Str) : Str :=
  ((str.dropWhile isBlank).reverse.dropWhile isBlank).reverse

/-! ## Numbers -/

/-- Value of a string of decimal digits. -/
def digitsVal (ds : Str) : Nat :=
  ds.foldl (fun acc c => 10 * acc + (c.toNat - 48)) 0

/-- Halving `n` until it is below 2, at most `fuel` times. -/
def log2Aux : Nat → Nat → Nat
  | 0, _ => 0
  | fuel + 1, n => if n < 2 then 0 else log2Aux fuel (n / 2) + 1

/-- The position of the leading bit of `n`: the floor of its binary logarithm, 0 for 0. -/
def floorLog2 (n : Nat) : Nat := log2Aux n n

/-- Round `n / d` to the nearest integer, ties to even. -/
def roundHalfEven (n d : Nat) : Nat :=
  let q := n / d
  let r := n % d
  if 2 * r < d then q
  else if d < 2 * r then q + 1
  else if q % 2 = 0 then q else q + 1

/-- The binary exponent of `n / d`: the `e` with `2 ^ e ≤ n / d < 2 ^ (e + 1)`. -/
def exponentOf (n d : Nat) : Int :=
  let e0 : Int := (floorLog2 n : Int) - (floorLog2 d : Int)
  let below : Bool :=
    if 0 ≤ e0 then decide (n < d * 2 ^ e0.toNat) else decide (n * 2 ^ (-e0).toNat < d)
  if below then e0 - 1 else e0

/-- The exponent of the unit in the last place of the doubles around `n / d`; the subnormals
share `2 ^ (-1074)`. -/
def ulpExponent (n d : Nat) : Int := max (exponentOf n d - 52) (-1074)

/-- The integer nearest to `(n / d) / 2 ^ s`, ties to even. -/
def mantissa (n d : Nat) (s : Int) : Nat :=
  if 0 ≤ s then roundHalfEven n (d * 2 ^ s.toNat) else roundHalfEven (n * 2 ^ (-s).toNat) d

/-- The rational `m * 2 ^ s`. -/
def scale (m : Nat) (s : Int) : ℚ :=
  if 0 ≤ s then ((m * 2 ^ s.toNat : Nat) : ℚ) else mkRat m (2 ^ (-s).toNat)

/-- The double nearest to `n / d`, for positive `n` and `d`. -/
def roundMag (n d : Nat) : ℚ :=
  scale (mantissa n d (ulpExponent n d)) (ulpExponent n d)

/-- IEEE-754 binary64 rounding (round to nearest, ties to even, gradual underflow) of a rational
to the nearest double.  Overflow to infinity is not represented. -/
def binary64 (q : ℚ) : ℚ :=
  if q.num = 0 then 0
  else if q.num < 0 then -roundMag q.num.natAbs q.den
  else roundMag q.num.natAbs q.den

/-- The maximum value of `int`. -/
def INT_MAX : Int := 2147483647

/-- Two's-complement reduction of an integer to the range of a 32-bit `int`. -/
def wrapInt32 (n : Int) : Int := (n + 2147483648) % 4294967296 - 2147483648

/-- Rounding of a non-negative rational to 53 significant bits, with no bound on the exponent:
the value the tininess test of `strtod` looks at. -/
def round53 (q : ℚ) : ℚ :=
  if q.num = 0 then 0
  else scale (mantissa q.num.natAbs q.den (exponentOf q.num.natAbs q.den - 52))
    (exponentOf q.num.natAbs q.den - 52)

/-- The range error of `strtod` (glibc, round to nearest) on the magnitude `v` of a decimal
numeral, which `std::stod` turns into `std::out_of_range`: `v` rounds to `2 ^ 1024` or above
(overflow), or `v` is not zero, is not a double and is still below `2 ^ (-1022)` after rounding
to 53 bits (underflow: the result is tiny and inexact). -/
def strtodRange (v : ℚ) : Bool :=
  decide (v ≠ 0) &&
    (decide (((2 ^ 1024 : Nat) : ℚ) ≤ binary64 v) ||
      (decide (binary64 v ≠ v) && decide (round53 v < 1 / ((2 ^ 1022 : Nat) : ℚ))))

/-- The numeral part of `strtod`, after the sign: the longest run `digits [. digits]`, with
`std::invalid_argument` when it holds no digit and `std::out_of_range` when `strtod` reports a
range error.  The decimal value, negated when `neg`, is rounded once. -/
def stodDigits (rnd : ℚ → ℚ) (neg : Bool) (s : Str) : Except Err ℚ :=
  let ip := s.takeWhile isdigit
  let rest := s.dropWhile isdigit
  let fp := if rest.head? == some '.' then rest.tail.takeWhile isdigit else []
  if ip.isEmpty && fp.isEmpty then .error (.invalidArgument "stod")
  else
    let v : ℚ := (digitsVal ip : ℚ) + mkRat (digitsVal fp) (10 ^ fp.length)
    if strtodRange v then .error (.outOfRange "stod")
    else .ok (rnd (if neg then -v else v))

/-- The function `std::stod` on the texts the two regular expressions let through (optional
sign, blanks, digits, at most one dot): leading whitespace is skipped, then an optional sign and
the longest decimal numeral are read; the exceptions are those of libstdc++ over the `strtod`
of glibc. -/
def stod (rnd : ℚ → ℚ) (str : Str) : Except Err ℚ :=
  let s := str.dropWhile isspace
  let neg : Bool := s.head? == some '-'
  stodDigits rnd neg (if neg || s.head? == some '+' then s.tail else s)

/-- The function `std::stoi` on a string of digits (what capture group 2 holds):
`std::invalid_argument` when there is no digit, `std::out_of_range` above `INT_MAX`. -/
def stoi (str : Str) : Except Err Int :=
  let ds := str.takeWhile isdigit
  if ds.isEmpty then .error (.invalidArgument "stoi")
  else if INT_MAX < (digitsVal ds : Int) then .error (.outOfRange "stoi")
  else .ok (digitsVal ds : Int)

instance instDecidableEqExcept {ε α : Type} [DecidableEq ε] [DecidableEq α] :
    DecidableEq (Except ε α)
  | .ok a, .ok b => if h : a = b then isTrue (by rw [h]) else isFalse (by intro h'; cases h'; exact h rfl)
  | .error a, .error b =>
    if h : a = b then isTrue (by rw [h]) else isFalse (by intro h'; cases h'; exact h rfl)
  | .ok _, .error _ => isFalse (by intro h; cases h)
  | .error _, .ok _ => isFalse (by intro h; cases h)

/-! ## The coefficient map -/

/-- The member `std::map<int, double> coefficients`: entries in ascending key order. -/
abbrev CoeffMap := List (Int × ℚ)

/-- The value stored under `k`, `none` when the key is absent (`find`). -/
def find? (m : CoeffMap) (k : Int) : Option ℚ :=
  match m with
  | [] => none
  | (k', v) :: rest => if k' = k then some v else find? rest k

/-- The coefficient at exponent `k`, an absent key read as `0`. -/
def get (m : CoeffMap) (k : Int) : ℚ := (find? m k).getD 0

/-- Store `v` under `k`, keeping the keys in ascending order. -/
def insert (k : Int) (v : ℚ) : CoeffMap → CoeffMap
  | [] => [(k, v)]
  | (k', v') :: rest =>
    if k < k' then (k, v) :: (k', v') :: rest
    else if k = k' then (k, v) :: rest
    else (k', v') :: insert k v rest

/-- The effect of `coefficients[k]` on the map: an absent key is inserted with value `0.0`. -/
def touch (m : CoeffMap) (k : Int) : CoeffMap :=
  match find? m k with
  | some _ => m
  | none => insert k 0 m

/-! ## Regular expressions

The two patterns of `parseTerm` are sequences of single-character classes, each taken once,
optionally (`?`), any number of times (`*`) or at least once (`+`).  `matchAtoms` is the
backtracking matcher of ECMAScript for such sequences: quantifiers are greedy, alternatives are
tried in priority order, and `std::regex_match` requires the whole text to be consumed. -/

/-- A quantified character class. -/
inductive Atom where
  | one (p : Char → Bool)
  | opt (p : Char → Bool)
  | star (p : Char → Bool)
  | plus (p : Char → Bool)

/-- The ways `p*` can consume a prefix of the text, longest first. -/
def starSplits (p : Char → Bool) : Str → List (Str × Str)
  | [] => [([], [])]
  | c :: cs =>
    if p c then (starSplits p cs).map (fun x => (c :: x.1, x.2)) ++ [([], c :: cs)]
    else [([], c :: cs)]

/-- The ways one atom can consume a prefix of the text, in priority order. -/
def Atom.splits : Atom → Str → List (Str × Str)
  | .one _, [] => []
  | .one p, c :: cs => if p c then [([c], cs)] else []
  | .opt _, [] => [([], [])]
  | .opt p, c :: cs => if p c then [([c], cs), ([], c :: cs)] else [([], c :: cs)]
  | .star p, s => starSplits p s
  | .plus _, [] => []
  | .plus p, c :: cs => if p c then (starSplits p cs).map (fun x => (c :: x.1, x.2)) else []

/-- Match the whole text against a sequence of atoms; on success, the text each atom consumed. -/
def matchAtoms : List Atom → Str → Option (List Str)
  | [], s => if s.isEmpty then some [] else none
  | a :: as, s => (a.splits s).findSome? (fun x => (matchAtoms as x.2).map (fun l => x.1 :: l))

/-- The pattern `([+-]?\s*\d*\.?\d*)\s*\*?\s*X\^?(\d+)`: group 1 is the first five atoms, group 2
the last one. -/
def termRegex : List Atom :=
  [.opt isSign, .star isspace, .star isdigit, .opt (· == '.'), .star isdigit,
   .star isspace, .opt (· == '*'), .star isspace, .one (· == 'X'), .opt (· == '^'),
   .plus isdigit]

/-- The pattern `[+-]?\s*\d+\.?\d*`. -/
def constantRegex : List Atom :=
  [.opt isSign, .star isspace, .plus isdigit, .opt (· == '.'), .star isdigit]

/-- The call `std::regex_match(cleanTerm, match, termRegex)`: on success `match[1]` and
`match[2]`. -/
def matchTerm (cleanTerm : Str) : Option (Str × Str) :=
  (matchAtoms termRegex cleanTerm).map (fun l => ((l.take 5).flatten, (l.drop 10).flatten))

/-! ## Parsing -/

/-- Lines 86-115 of `parseTerm`: the coefficient and the power recognised in a non-empty term,
or the exception raised. -/
def termValue (rnd : ℚ → ℚ) (cleanTerm : Str) : Except Err (ℚ × Int) :=
  match matchTerm cleanTerm with
  | some (m1, m2) =>
    let coeffStr := trim m1
    let coefficient : Except Err ℚ :=
      if coeffStr = [] ∨ coeffStr = ['+'] then .ok 1
      else if coeffStr = ['-'] then .ok (-1)
      else stod rnd coeffStr
    match coefficient with
    | .error e => .error e
    | .ok c =>
      match stoi m2 with
      | .error e => .error e
      | .ok power => .ok (c, power)
  | none =>
    if (matchAtoms constantRegex cleanTerm).isSome then
      match stod rnd cleanTerm with
      | .error e => .error e
      | .ok c => .ok (c, 0)
    else .error (.runtimeError ("Invalid term format: " ++ String.mk cleanTerm))

/-- The method `PolynomialSolver::parseTerm`. -/
def parseTerm (rnd : ℚ → ℚ) (term : Str) (isRight : Bool) (coefficients : CoeffMap) :
    Except Err CoeffMap :=
  let cleanTerm := trim term
  if cleanTerm.isEmpty then .ok coefficients
  else
    match termValue rnd cleanTerm with
    | .error e => .error e
    | .ok (coefficient, power) =>
      let coefficient := if isRight then -coefficient else coefficient
      .ok (insert power (rnd (get coefficients power + coefficient)) coefficients)

/-- Lines 46-56 of `parseSide`: a blank after every `+` and `-`, and one before it except at
index 0. -/
def spaceSigns : Nat → Str → Str
  | _, [] => []
  | i, c :: cs =>
    (if c = '+' ∨ c = '-' then (if 0 < i then [' '] else []) ++ [c, ' '] else [c])
      ++ spaceSigns (i + 1) cs

/-- One extraction `iss >> term`: leading whitespace is skipped and the characters up to the
next whitespace are read; it fails when only whitespace is left. -/
def extractWord (iss : Str) : Option (Str × Str) :=
  match iss.dropWhile isspace with
  | [] => none
  | c :: cs => some ((c :: cs).takeWhile (fun x => !isspace x), (c :: cs).dropWhile (fun x => !isspace x))

/-- The body of the loop of `parseSide` for one extracted token: the new `currentTerm` and map. -/
def sideStep (rnd : ℚ → ℚ) (isRight : Bool) (term : Str) (currentTerm : Str)
    (coefficients : CoeffMap) : Except Err (Str × CoeffMap) :=
  if term == ['+'] || term == ['-'] then
    let flushed : Except Err (Str × CoeffMap) :=
      if !currentTerm.isEmpty then
        match parseTerm rnd currentTerm isRight coefficients with
        | .error e => .error e
        | .ok m => .ok ([], m)
      else .ok (currentTerm, coefficients)
    match flushed with
    | .error e => .error e
    | .ok (cur, m) => if term == ['-'] then .ok (['-'], m) else .ok (cur, m)
  else .ok (currentTerm ++ term, coefficients)

/-- The loop `while (iss >> term) { ... }` of `parseSide`.  Every extraction consumes a
character, so `iss.length + 1` rounds always suffice. -/
def parseSideLoop (rnd : ℚ → ℚ) (isRight : Bool) :
    Nat → Str → Str → CoeffMap → Except Err (Str × CoeffMap)
  | 0, _, currentTerm, coefficients => .ok (currentTerm, coefficients)
  | fuel + 1, iss, currentTerm, coefficients =>
    match extractWord iss with
    | none => .ok (currentTerm, coefficients)
    | some (term, rest) =>
      match sideStep rnd isRight term currentTerm coefficients with
      | .error e => .error e
      | .ok (cur, m) => parseSideLoop rnd isRight fuel rest cur m

/-- The method `PolynomialSolver::parseSide`. -/
def parseSide (rnd : ℚ → ℚ) (side : Str) (isRight : Bool) (coefficients : CoeffMap) :
    Except Err CoeffMap :=
  let cleanSide := trim side
  let processed := spaceSigns 0 cleanSide
  match parseSideLoop rnd isRight (processed.length + 1) processed [] coefficients with
  | .error e => .error e
  | .ok (currentTerm, m) =>
    if !currentTerm.isEmpty then parseTerm rnd currentTerm isRight m else .ok m

/-- The method `PolynomialSolver::parseEquation`; the map held before the call is cleared. -/
def parseEquation (rnd : ℚ → ℚ) (equation : Str) (_coefficients : CoeffMap) :
    Except Err CoeffMap :=
  let coefficients : CoeffMap := []
  let sides := split equation '='
  if sides.length ≠ 2 then .error (.runtimeError "Invalid equation format")
  else
    match parseSide rnd (sides.getD 0 []) false coefficients with
    | .error e => .error e
    | .ok m => parseSide rnd (sides.getD 1 []) true m

/-! ## Display and degree -/

/-- Lines 132-137 of `displayReducedForm`: the greatest key with a non-zero value, `0` when
there is none. -/
def maxDegree (coefficients : CoeffMap) : Int :=
  coefficients.foldl (fun maxDegree pair =>
    if pair.2 ≠ 0 ∧ pair.1 > maxDegree then pair.1 else maxDegree) 0

/-- The method `PolynomialSolver::getDegree`. -/
def getDegree (coefficients : CoeffMap) : Int :=
  coefficients.foldl (fun degree pair =>
    if pair.2 ≠ 0 ∧ pair.1 > degree then pair.1 else degree) 0

/-- The variables the display loop of `displayReducedForm` updates. -/
structure DisplayState where
  out : List Out
  first : Bool
  hasNonZero : Bool
  coefficients : CoeffMap
  deriving DecidableEq, Repr

/-- Lines 141-162 of `displayReducedForm`: the body of the display loop at index `i`. -/
def displayBody (i : Int) (st : DisplayState) : DisplayState :=
  let coeff := get st.coefficients i
  let coefficients := touch st.coefficients i
  if coeff ≠ 0 then
    let sign : List Out :=
      if !st.first then (if coeff > 0 then [.str " + "] else [.str " - "])
      else (if coeff < 0 then [.str "-"] else [])
    let coeff := if coeff < 0 then -coeff else coeff
    { out := st.out ++ sign ++ [.dbl coeff, .str " * X^", .int i]
      first := false
      hasNonZero := true
      coefficients := coefficients }
  else { st with coefficients := coefficients }

/-- The loop `for (int i = 0; i <= maxDegree; i++)` of `displayReducedForm`; `i++` is reduced to
32 bits. -/
def displayLoop (maxDegree : Int) : Nat → Int → DisplayState → Option DisplayState
  | 0, _, _ => none
  | fuel + 1, i, st =>
    if i ≤ maxDegree then displayLoop maxDegree fuel (wrapInt32 (i + 1)) (displayBody i st)
    else some st

/-- The method `PolynomialSolver::displayReducedForm`: what it prints and the map it leaves. -/
def displayReducedForm (fuel : Nat) (coefficients : CoeffMap) : Option (List Out × CoeffMap) :=
  let st0 : DisplayState :=
    { out := [.str "Reduced form: "], first := true, hasNonZero := false,
      coefficients := coefficients }
  match displayLoop (maxDegree coefficients) fuel 0 st0 with
  | none => none
  | some st =>
    let out := if !st.hasNonZero then st.out ++ [.str "0 * X^0"] else st.out
    some (out ++ [.str " = 0", .endl], st.coefficients)

/-! ## Solving -/

/-- The loop `while (true)` of `sqrt`, entered with the current `result`. -/
def sqrtLoop (rnd : ℚ → ℚ) (x : ℚ) : Nat → ℚ → Option ℚ
  | 0, _ => none
  | fuel + 1, result =>
    let newResult := rnd (1 / 2 * rnd (result + rnd (x / result)))
    if |rnd (newResult - result)| < rnd (1 / 10 ^ 10) then some result
    else sqrtLoop rnd x fuel newResult

/-- The method `PolynomialSolver::sqrt`. -/
def sqrt (rnd : ℚ → ℚ) (fuel : Nat) (x : ℚ) : Option ℚ :=
  if x < 0 then some (-1)
  else if x = 0 then some 0
  else sqrtLoop rnd x fuel x

/-- The method `PolynomialSolver::solveDegree0`. -/
def solveDegree0 (coefficients : CoeffMap) : List Out × CoeffMap :=
  let a := get coefficients 0
  let coefficients := touch coefficients 0
  if a = 0 then ([.str "Any real number is a solution.", .endl], coefficients)
  else ([.str "No solution.", .endl], coefficients)

/-- The method `PolynomialSolver::solveDegree1`. -/
def solveDegree1 (rnd : ℚ → ℚ) (coefficients : CoeffMap) : List Out × CoeffMap :=
  let a := get coefficients 1
  let coefficients := touch coefficients 1
  let b := get coefficients 0
  let coefficients := touch coefficients 0
  if a = 0 then solveDegree0 coefficients
  else
    let solution := rnd (-b / a)
    ([.str "The solution is:", .endl, .dbl solution, .endl], coefficients)

/-- The conversion `static_cast<int>(x)`: truncation toward zero.  Outside the range of `int` the
conversion is undefined in C++; the embedding takes `INT_MIN`, the x86 result. -/
def toInt (x : ℚ) : Int :=
  let t := Int.tdiv x.num x.den
  if -2147483648 ≤ t ∧ t ≤ INT_MAX then t else -2147483648

/-- The method `PolynomialSolver::solveDegree2`. -/
def solveDegree2 (rnd : ℚ → ℚ) (fuel : Nat) (coefficients : CoeffMap) :
    Option (List Out × CoeffMap) :=
  let a := get coefficients 2
  let coefficients := touch coefficients 2
  let b := get coefficients 1
  let coefficients := touch coefficients 1
  let c := get coefficients 0
  let coefficients := touch coefficients 0
  if a = 0 then some (solveDegree1 rnd coefficients)
  else
    let discriminant := rnd (rnd (b * b) - rnd (rnd (4 * a) * c))
    if discriminant > 0 then
      match sqrt rnd fuel discriminant with
      | none => none
      | some sqrtD =>
        let sol1 := rnd (rnd (-b + sqrtD) / rnd (2 * a))
        let sol2 := rnd (rnd (-b - sqrtD) / rnd (2 * a))
        some ([.str "Discriminant is strictly positive, the two solutions are:", .endl,
               .dbl sol1, .endl, .dbl sol2, .endl], coefficients)
    else if discriminant = 0 then
      let sol := rnd (-b / rnd (2 * a))
      some ([.str "Discriminant is zero, the solution is:", .endl, .dbl sol, .endl],
            coefficients)
    else
      let header : List Out :=
        [.str "Discriminant is strictly negative, the two complex solutions are:", .endl]
      let realPart := rnd (-b / rnd (2 * a))
      match sqrt rnd fuel (-discriminant) with
      | none => none
      | some sqrtDiscAbs =>
        let imaginaryPart := rnd (sqrtDiscAbs / rnd (2 * a))
        let decimal : List Out :=
          [.dbl realPart, .str " + ", .dbl imaginaryPart, .str "i", .endl,
           .dbl realPart, .str " - ", .dbl imaginaryPart, .str "i", .endl]
        if a = 1 then some (header ++ decimal, coefficients)
        else
          let bInt := toInt b
          let aInt := toInt a
          let sqrtDiscInt := toInt sqrtDiscAbs
          if (bInt : ℚ) = b ∧ (aInt : ℚ) = a ∧ (sqrtDiscInt : ℚ) = sqrtDiscAbs then
            some (header ++
              [.str "-", .int bInt, .str "/", .int (wrapInt32 (2 * aInt)), .str " + ",
               .int sqrtDiscInt, .str "i/", .int (wrapInt32 (2 * aInt)), .endl,
               .str "-", .int bInt, .str "/", .int (wrapInt32 (2 * aInt)), .str " - ",
               .int sqrtDiscInt, .str "i/", .int (wrapInt32 (2 * aInt)), .endl], coefficients)
          else some (header ++ decimal, coefficients)

/-- Lines 279-299 of `solve`: the degree line and the dispatch, on the map `displayReducedForm`
left. -/
def dispatch (rnd : ℚ → ℚ) (fuel : Nat) (coefficients : CoeffMap) :
    Option (Except Err (List Out × CoeffMap)) :=
  let degree := getDegree coefficients
  let out : List Out := [.str "Polynomial degree: ", .int degree, .endl]
  if degree > 2 then
    some (.ok (out ++ [.str "The polynomial degree is strictly greater than 2, I can't solve.",
                      .endl], coefficients))
  else if degree = 0 then
    let r := solveDegree0 coefficients
    some (.ok (out ++ r.1, r.2))
  else if degree = 1 then
    let r := solveDegree1 rnd coefficients
    some (.ok (out ++ r.1, r.2))
  else if degree = 2 then
    match solveDegree2 rnd fuel coefficients with
    | none => none
    | some r => some (.ok (out ++ r.1, r.2))
  else some (.error (.runtimeError "Unexpected degree"))

/-- The method `PolynomialSolver::solve`: `none` when a loop does not end within `fuel` rounds,
otherwise the exception raised or everything printed, with the map left behind. -/
def solve (rnd : ℚ → ℚ) (fuel : Nat) (equation : Str) (coefficients : CoeffMap) :
    Option (Except Err (List Out × CoeffMap)) :=
  match parseEquation rnd equation coefficients with
  | .error e => some (.error e)
  | .ok m =>
    match displayReducedForm fuel m with
    | none => none
    | some (out, m1) =>
      match dispatch rnd fuel m1 with
      | none => none
      | some (.error e) => some (.error e)
      | some (.ok (out2, m2)) => some (.ok (out ++ out2, m2))


/-! ## The term sequence of a side

`parseSide` interleaves the cutting of a side into terms with the calls of `parseTerm`.  The
definitions below replay the same loop and only record the `currentTerm` texts handed to
`parseTerm`, in the order of the calls; `parseSide_eq_parseTerms` shows that `parseSide` is
`parseTerm` run over that sequence. -/

/-- The loop body of `parseSide` with the `parseTerm` call recorded: the term dispatched (if any)
and the new `currentTerm`. -/
def termsStep (term currentTerm : Str) : List Str × Str :=
  if term == ['+'] || term == ['-'] then
    (if !currentTerm.isEmpty then [currentTerm] else [], if term == ['-'] then ['-'] else [])
  else ([], currentTerm ++ term)

/-- The loop of `parseSide` and the final flush, with the `parseTerm` calls recorded. -/
def termsLoop : Nat → Str → Str → List Str
  | 0, _, currentTerm => if !currentTerm.isEmpty then [currentTerm] else []
  | fuel + 1, iss, currentTerm =>
    match extractWord iss with
    | none => if !currentTerm.isEmpty then [currentTerm] else []
    | some (term, rest) =>
      (termsStep term currentTerm).1 ++ termsLoop fuel rest (termsStep term currentTerm).2

/-- The texts `parseSide` hands to `parseTerm` for a side, in order. -/
def sideTerms (side : Str) : List Str :=
  termsLoop ((spaceSigns 0 (trim side)).length + 1) (spaceSigns 0 (trim side)) []

/-- The method `parseTerm` called on each text in turn, stopping at the first exception. -/
def parseTerms (rnd : ℚ → ℚ) (isRight : Bool) : List Str → CoeffMap → Except Err CoeffMap
  | [], m => .ok m
  | t :: ts, m =>
    match parseTerm rnd t isRight m with
    | .error e => .error e
    | .ok m1 => parseTerms rnd isRight ts m1

/-- The (coefficient, power) pairs `parseTerm` recognises in each text, or the first exception. -/
def termValues (rnd : ℚ → ℚ) : List Str → Except Err (List (ℚ × Int))
  | [] => .ok []
  | t :: ts =>
    match termValue rnd t with
    | .error e => .error e
    | .ok v =>
      match termValues rnd ts with
      | .error e => .error e
      | .ok vs => .ok (v :: vs)

/-- Lines 117-122 of `parseTerm` run over recognised pairs: `coefficients[power] += ±coefficient`. -/
def accumulate (rnd : ℚ → ℚ) (isRight : Bool) : List (ℚ × Int) → CoeffMap → CoeffMap
  | [], m => m
  | t :: ts, m =>
    accumulate rnd isRight ts
      (insert t.2 (rnd (get m t.2 + (if isRight then -t.1 else t.1))) m)

/-- The exact sum of the coefficients of the pairs whose power is `k`. -/
def coeffSum (ts : List (ℚ × Int)) (k : Int) : ℚ :=
  ((ts.filter (fun t => t.2 = k)).map (fun t => t.1)).sum

/-- What one term text adds at exponent `k`: its coefficient when `parseTerm` recognises it with
power `k`, and nothing otherwise. -/
def contribution (rnd : ℚ → ℚ) (k : Int) (t : Str) : ℚ :=
  match termValue rnd t with
  | .ok v => if v.2 = k then v.1 else 0
  | .error _ => 0

/-- Every stored coefficient is a value of the floating-point format: rounding leaves it
unchanged. -/
def Rounded (rnd : ℚ → ℚ) (m : CoeffMap) : Prop := ∀ k, rnd (get m k) = get m k

/-- A text with at least one character and no whitespace character. -/
def Clean (t : Str) : Prop := t ≠ [] ∧ ∀ c ∈ t, isspace c = false

/-! ## Tokens of a side

A whitespace-insensitive description of the token stream of `parseSide`, used to reason about
sides built by concatenation. -/

/-- The whitespace-separated words of a text, scanned left to right with the word in progress. -/
def wordsFrom : Str → Str → List Str
  | [], w => if w.isEmpty then [] else [w]
  | c :: cs, w =>
    if isspace c then (if w.isEmpty then wordsFrom cs [] else w :: wordsFrom cs [])
    else wordsFrom cs (w ++ [c])

/-- The words a stream of `iss >> term` extractions yields. -/
def words (s : Str) : List Str := wordsFrom s []

/-- A blank on both sides of every `+` and `-`. -/
def spaced : Str → Str
  | [] => []
  | c :: cs => (if c = '+' ∨ c = '-' then [' ', c, ' '] else [c]) ++ spaced cs

/-- The loop of `parseSide` over a list of tokens, with the `parseTerm` calls recorded. -/
def termsOf : List Str → Str → List Str
  | [], currentTerm => if !currentTerm.isEmpty then [currentTerm] else []
  | term :: rest, currentTerm =>
    (termsStep term currentTerm).1 ++ termsOf rest (termsStep term currentTerm).2

/-- The invariant of `std::map`: keys strictly ascending, hence distinct. -/
def Sorted (m : CoeffMap) : Prop := m.Pairwise (fun a b => a.1 < b.1)

/-- Every key is a non-negative exponent. -/
def NonNegKeys (m : CoeffMap) : Prop := ∀ p ∈ m, 0 ≤ p.1

/-! ## The iterates of the square root -/

/-- The value of `result` in `sqrt` after `n` passes through the loop that did not break. -/
def sqrtIter (rnd : ℚ → ℚ) (x : ℚ) : Nat → ℚ
  | 0 => x
  | n + 1 => rnd (1 / 2 * rnd (sqrtIter rnd x n + rnd (x / sqrtIter rnd x n)))

/-- The test `std::abs(newResult - result) < epsilon` of `sqrt` in pass `n + 1` of the loop. -/
def sqrtStop (rnd : ℚ → ℚ) (x : ℚ) (n : Nat) : Prop :=
  |rnd (sqrtIter rnd x (n + 1) - sqrtIter rnd x n)| < rnd (1 / 10 ^ 10)

instance instDecidableSqrtStop (rnd : ℚ → ℚ) (x : ℚ) (n : Nat) :
    Decidable (sqrtStop rnd x n) :=
  inferInstanceAs (Decidable (|rnd (sqrtIter rnd x (n + 1) - sqrtIter rnd x n)|
    < rnd (1 / 10 ^ 10)))

/-! ## What the output stream shows of a double -/

/-- Dividing `n` by 10 until it is below 10, at most `fuel` times. -/
def log10Aux : Nat → Nat → Nat
  | 0, _ => 0
  | fuel + 1, n => if n < 10 then 0 else log10Aux fuel (n / 10) + 1

/-- The number of decimal digits of `n`, less one; 0 for 0. -/
def floorLog10 (n : Nat) : Nat := log10Aux n n

/-- The decimal exponent of `n / d`: the `e` with `10 ^ e ≤ n / d < 10 ^ (e + 1)`. -/
def decimalExponent (n d : Nat) : Int :=
  let e0 : Int := (floorLog10 n : Int) - (floorLog10 d : Int)
  let below : Bool :=
    if 0 ≤ e0 then decide (n < d * 10 ^ e0.toNat) else decide (n * 10 ^ (-e0).toNat < d)
  if below then e0 - 1 else e0

/-- The numeral with six significant decimal digits nearest to `n / d` (ties to even), as a
rational. -/
def shownMag (n d : Nat) : ℚ :=
  let s : Int := decimalExponent n d - 5
  if 0 ≤ s then ((roundHalfEven n (d * 10 ^ s.toNat) * 10 ^ s.toNat : Nat) : ℚ)
  else mkRat (roundHalfEven (n * 10 ^ (-s).toNat) d) (10 ^ (-s).toNat)

/-- The number a reader sees when `std::cout << x` prints a `double` with the default
precision: the stream formats like `%g` with six significant digits, so the text is the decimal
numeral of six significant digits nearest to `x`.  The function gives the value of that
numeral. -/
def shown (x : ℚ) : ℚ :=
  if x.num = 0 then 0
  else if x.num < 0 then -shownMag x.num.natAbs x.den
  else shownMag x.num.natAbs x.den

/-! ## The integer test of `solveDegree2` -/

/-- An integer in the range of `int`, as a value of type `double`. -/
def isInt32 (x : ℚ) : Bool :=
  decide (x.den = 1 ∧ -2147483648 ≤ x.num ∧ x.num ≤ 2147483647)

/-! ## The reduced form, as the specification words it -/

/-- The exponents `i`, `i + 1`, ..., `n` of them. -/
def exponentsFrom (i : Int) : Nat → List Int
  | 0 => []
  | n + 1 => i :: exponentsFrom (i + 1) n

/-- The exponents of `0..maxDegree` whose coefficient is not zero, in ascending order. -/
def shownExponents (m : CoeffMap) : List Int :=
  (exponentsFrom 0 ((maxDegree m).toNat + 1)).filter (fun k => get m k ≠ 0)

/-- One term of the reduced form: the first term has the prefix `-` when its coefficient is
negative and none otherwise, a later term is joined by ` + ` or ` - ` after the sign of its
coefficient; then the magnitude of the coefficient and the exponent. -/
def termText (m : CoeffMap) (isFirst : Bool) (k : Int) : List Out :=
  (if isFirst then (if get m k < 0 then [.str "-"] else [])
   else (if get m k < 0 then [.str " - "] else [.str " + "]))
    ++ [.dbl |get m k|, .str " * X^", .int k]

/-- The terms of the listed exponents, one after the other. -/
def renderTerms (m : CoeffMap) : Bool → List Int → List Out
  | _, [] => []
  | isFirst, k :: ks => termText m isFirst k ++ renderTerms m false ks

/-- The line of the reduced form as the specification describes it: the terms of the exponents
with a non-zero coefficient, the placeholder `0 * X^0` when there is none, and ` = 0`. -/
def reducedFormSpec (m : CoeffMap) : List Out :=
  [.str "Reduced form: "] ++
    (if (shownExponents m).isEmpty then [.str "0 * X^0"] else renderTerms m true (shownExponents m))
    ++ [.str " = 0", .endl]

/-! ## The terms of a side, character by character -/

/-- The terms of a side read off its characters, as the specification words it: whitespace is
skipped wherever it stands, a `+` or `-` ends the term in progress, a `-` starts the next term,
and every other character joins the term in progress. -/
def termsOfChars : Str → Str → List Str
  | [], currentTerm => if !currentTerm.isEmpty then [currentTerm] else []
  | c :: cs, currentTerm =>
    if isspace c then termsOfChars cs currentTerm
    else if c = '+' ∨ c = '-' then
      (if !currentTerm.isEmpty then [currentTerm] else [])
        ++ termsOfChars cs (if c = '-' then ['-'] else [])
    else termsOfChars cs (currentTerm ++ [c])

/-! ## The languages of the two patterns -/

/-- A value of type `double`: a finite double, an infinity or NaN. -/
inductive Dbl where
  | fin (x : ℚ)
  | inf (negative : Bool)
  | nan
  deriving DecidableEq, Repr

/-- The double an operation delivers when its exact result is `q`: `q` rounded to nearest,
ties to even, and the infinity of the sign of `q` when the rounded magnitude reaches
`2 ^ 1024`. -/
def Dbl.ofExact (q : ℚ) : Dbl :=
  if ((2 ^ 1024 : Nat) : ℚ) ≤ |binary64 q| then .inf (decide (q < 0)) else .fin (binary64 q)

/-- Unary minus. -/
def Dbl.neg : Dbl → Dbl
  | .fin x => .fin (-x)
  | .inf s => .inf (!s)
  | .nan => .nan

/-- The function `std::abs`. -/
def Dbl.abs : Dbl → Dbl
  | .fin x => .fin |x|
  | .inf _ => .inf false
  | .nan => .nan

/-- Addition: infinities of opposite signs give NaN. -/
def Dbl.add : Dbl → Dbl → Dbl
  | .fin x, .fin y => Dbl.ofExact (x + y)
  | .fin _, .inf t => .inf t
  | .inf s, .fin _ => .inf s
  | .inf s, .inf t => if s = t then .inf s else .nan
  | .nan, _ => .nan
  | _, .nan => .nan

/-- Subtraction. -/
def Dbl.sub (a b : Dbl) : Dbl := Dbl.add a (Dbl.neg b)

/-- Multiplication: zero times an infinity gives NaN. -/
def Dbl.mul : Dbl → Dbl → Dbl
  | .fin x, .fin y => Dbl.ofExact (x * y)
  | .fin x, .inf t => if x = 0 then .nan else .inf (xor (decide (x < 0)) t)
  | .inf s, .fin y => if y = 0 then .nan else .inf (xor s (decide (y < 0)))
  | .inf s, .inf t => .inf (xor s t)
  | .nan, _ => .nan
  | _, .nan => .nan

/-- Division: zero by zero and infinity by infinity give NaN, a non-zero number by zero an
infinity. -/
def Dbl.div : Dbl → Dbl → Dbl
  | .fin x, .fin y =>
    if y = 0 then (if x = 0 then .nan else .inf (decide (x < 0))) else Dbl.ofExact (x / y)
  | .fin _, .inf _ => .fin 0
  | .inf s, .fin y => .inf (xor s (decide (y < 0)))
  | .inf _, .inf _ => .nan
  | .nan, _ => .nan
  | _, .nan => .nan

/-- The comparison `<`: false whenever an operand is NaN. -/
def Dbl.lt : Dbl → Dbl → Bool
  | .fin x, .fin y => decide (x < y)
  | .fin _, .inf t => !t
  | .inf s, .fin _ => s
  | .inf s, .inf t => s && !t
  | .nan, _ => false
  | _, .nan => false

/-- The comparison `==`: false whenever an operand is NaN. -/
def Dbl.eq : Dbl → Dbl → Bool
  | .fin x, .fin y => decide (x = y)
  | .inf s, .inf t => s == t
  | _, _ => false

/-- The conversion `static_cast<int>(x)`; outside the range of `int`, for an infinity and for
NaN the conversion is undefined in C++ and the embedding takes `INT_MIN`, the x86 result. -/
def toIntD : Dbl → Int
  | .fin x => toInt x
  | _ => -2147483648

/-- What the solver prints, with a `double` recorded by value. -/
inductive OutD where
  | str (s : String)
  | dbl (x : Dbl)
  | int (n : Int)
  | endl
  deriving DecidableEq, Repr

/-- The loop `while (true)` of `sqrt` over the doubles. -/
def sqrtLoopD (x : Dbl) : Nat → Dbl → Option Dbl
  | 0, _ => none
  | fuel + 1, result =>
    let newResult := Dbl.mul (.fin (1 / 2)) (Dbl.add result (Dbl.div x result))
    if Dbl.lt (Dbl.abs (Dbl.sub newResult result)) (Dbl.ofExact (1 / 10 ^ 10)) then some result
    else sqrtLoopD x fuel newResult

/-- The method `PolynomialSolver::sqrt` over the doubles. -/
def sqrtD (fuel : Nat) (x : Dbl) : Option Dbl :=
  if Dbl.lt x (.fin 0) then some (.fin (-1))
  else if Dbl.eq x (.fin 0) then some (.fin 0)
  else sqrtLoopD x fuel x

/-- The method `PolynomialSolver::solveDegree0` over the doubles, on `coefficients[0]`. -/
def solveDegree0D (c0 : Dbl) : List OutD :=
  if Dbl.eq c0 (.fin 0) then [.str "Any real number is a solution.", .endl]
  else [.str "No solution.", .endl]

/-- The method `PolynomialSolver::solveDegree1` over the doubles, on `coefficients[1]` and
`coefficients[0]`. -/
def solveDegree1D (c1 c0 : Dbl) : List OutD :=
  let a := c1
  let b := c0
  if Dbl.eq a (.fin 0) then solveDegree0D c0
  else
    let solution := Dbl.div (Dbl.neg b) a
    [.str "The solution is:", .endl, .dbl solution, .endl]

/-- The value `b * b - 4 * a * c` of `solveDegree2` over the doubles. -/
def discriminantD (a b c : Dbl) : Dbl :=
  Dbl.sub (Dbl.mul b b) (Dbl.mul (Dbl.mul (.fin 4) a) c)

/-- The method `PolynomialSolver::solveDegree2` over the doubles, on `coefficients[2]`,
`coefficients[1]` and `coefficients[0]`, with its calls of `sqrt` handed to `sqrtFn`; `none`
when a call does not return. -/
def solveDegree2D (sqrtFn : Dbl → Option Dbl) (c2 c1 c0 : Dbl) : Option (List OutD) :=
  let a := c2
  let b := c1
  let c := c0
  if Dbl.eq a (.fin 0) then some (solveDegree1D c1 c0)
  else
    let discriminant := discriminantD a b c
    if Dbl.lt (.fin 0) discriminant then
      match sqrtFn discriminant with
      | none => none
      | some sqrtD =>
        let sol1 := Dbl.div (Dbl.add (Dbl.neg b) sqrtD) (Dbl.mul (.fin 2) a)
        let sol2 := Dbl.div (Dbl.sub (Dbl.neg b) sqrtD) (Dbl.mul (.fin 2) a)
        some [.str "Discriminant is strictly positive, the two solutions are:", .endl,
              .dbl sol1, .endl, .dbl sol2, .endl]
    else if Dbl.eq discriminant (.fin 0) then
      let sol := Dbl.div (Dbl.neg b) (Dbl.mul (.fin 2) a)
      some [.str "Discriminant is zero, the solution is:", .endl, .dbl sol, .endl]
    else
      let header : List OutD :=
        [.str "Discriminant is strictly negative, the two complex solutions are:", .endl]
      let realPart := Dbl.div (Dbl.neg b) (Dbl.mul (.fin 2) a)
      match sqrtFn (Dbl.neg discriminant) with
      | none => none
      | some root =>
        let imaginaryPart := Dbl.div root (Dbl.mul (.fin 2) a)
        let decimal : List OutD :=
          [.dbl realPart, .str " + ", .dbl imaginaryPart, .str "i", .endl,
           .dbl realPart, .str " - ", .dbl imaginaryPart, .str "i", .endl]
        if Dbl.eq a (.fin 1) then some (header ++ decimal)
        else
          let bInt := toIntD b
          let aInt := toIntD a
          match sqrtFn (Dbl.neg discriminant) with
          | none => none
          | some sqrtDiscAbs =>
            let sqrtDiscInt := toIntD sqrtDiscAbs
            if Dbl.eq (.fin bInt) b && Dbl.eq (.fin aInt) a
                && Dbl.eq (.fin sqrtDiscInt) sqrtDiscAbs then
              some (header ++
                [.str "-", .int bInt, .str "/", .int (wrapInt32 (2 * aInt)), .str " + ",
                 .int sqrtDiscInt, .str "i/", .int (wrapInt32 (2 * aInt)), .endl,
                 .str "-", .int bInt, .str "/", .int (wrapInt32 (2 * aInt)), .str " - ",
                 .int sqrtDiscInt, .str "i/", .int (wrapInt32 (2 * aInt)), .endl])
            else some (header ++ decimal)

/-! # Properties -/

/-! ## The rounding to binary64 -/

theorem binary64_odd (x : ℚ) : binary64 (-x) = -binary64 x := by
  unfold binary64
  simp only [Rat.neg_num, Rat.neg_den, Int.natAbs_neg, neg_eq_zero, Left.neg_neg_iff]
  by_cases h0 : x.num = 0
  · simp [h0]
  · simp only [h0, if_false]
    by_cases h1 : x.num < 0
    · have : ¬ 0 < x.num := by omega
      simp [h1, this]
    · have : 0 < x.num := by omega
      simp [h1, this]

theorem log2Aux_spec : ∀ (fuel n : Nat), 0 < n → n ≤ fuel →
    2 ^ log2Aux fuel n ≤ n ∧ n < 2 ^ (log2Aux fuel n + 1) := by
  intro fuel
  induction fuel with
  | zero => intro n h1 h2; omega
  | succ f ih =>
    intro n h1 h2
    simp only [log2Aux]
    by_cases h : n < 2
    · simp only [h, if_true]
      omega
    · simp only [h, if_false]
      have := ih (n / 2) (by omega) (by omega)
      rw [Nat.pow_succ, Nat.pow_succ]
      rw [Nat.pow_succ] at this
      omega

theorem floorLog2_spec (n : Nat) (h : 0 < n) :
    2 ^ floorLog2 n ≤ n ∧ n < 2 ^ (floorLog2 n + 1) :=
  log2Aux_spec n n h (le_refl n)



theorem below_iff (n d : Nat) (hd : 0 < d) (e0 : Int) :
    ((if 0 ≤ e0 then decide (n < d * 2 ^ e0.toNat) else decide (n * 2 ^ (-e0).toNat < d)) = true)
      ↔ (n : ℚ) / d < (2 : ℚ) ^ e0 := by
  have hdq : (0 : ℚ) < d := by exact_mod_cast hd
  by_cases h : 0 ≤ e0
  · simp only [h, if_true, decide_eq_true_eq]
    obtain ⟨k, rfl⟩ := Int.eq_ofNat_of_zero_le h
    simp only [Int.toNat_ofNat, zpow_natCast]
    rw [div_lt_iff₀ hdq]
    constructor
    · intro hlt
      have : ((n : ℕ) : ℚ) < ((d * 2 ^ k : ℕ) : ℚ) := by exact_mod_cast hlt
      push_cast at this
      linarith
    · intro hlt
      have : ((n : ℕ) : ℚ) < ((d * 2 ^ k : ℕ) : ℚ) := by push_cast; linarith
      exact_mod_cast this
  · simp only [h, if_false, decide_eq_true_eq]
    obtain ⟨k, hk⟩ := Int.eq_ofNat_of_zero_le (by omega : 0 ≤ -e0)
    have he : e0 = -(k : Int) := by omega
    rw [hk, he]
    simp only [Int.toNat_ofNat, zpow_neg, zpow_natCast]
    have hp : (0 : ℚ) < 2 ^ k := by positivity
    rw [div_lt_iff₀ hdq, inv_mul_eq_div, lt_div_iff₀ hp]
    constructor
    · intro hlt
      have : ((n * 2 ^ k : ℕ) : ℚ) < ((d : ℕ) : ℚ) := by exact_mod_cast hlt
      push_cast at this
      linarith
    · intro hlt
      have : ((n * 2 ^ k : ℕ) : ℚ) < ((d : ℕ) : ℚ) := by push_cast; linarith
      exact_mod_cast this

theorem exponentOf_spec (n d : Nat) (hn : 0 < n) (hd : 0 < d) :
    (2 : ℚ) ^ exponentOf n d ≤ (n : ℚ) / d ∧ (n : ℚ) / d < (2 : ℚ) ^ (exponentOf n d + 1) := by
  have hdq : (0 : ℚ) < d := by exact_mod_cast hd
  obtain ⟨a1, a2⟩ := floorLog2_spec n hn
  obtain ⟨b1, b2⟩ := floorLog2_spec d hd
  have a1q : (2 : ℚ) ^ floorLog2 n ≤ n := by exact_mod_cast a1
  have a2q : (n : ℚ) < 2 ^ (floorLog2 n + 1) := by exact_mod_cast a2
  have b1q : (2 : ℚ) ^ floorLog2 d ≤ d := by exact_mod_cast b1
  have b2q : (d : ℚ) < 2 ^ (floorLog2 d + 1) := by exact_mod_cast b2
  have hpa : (0 : ℚ) < 2 ^ floorLog2 n := by positivity
  have hpb : (0 : ℚ) < 2 ^ floorLog2 d := by positivity
  have e0eq : (2 : ℚ) ^ ((floorLog2 n : Int) - (floorLog2 d : Int)) =
      2 ^ floorLog2 n / 2 ^ floorLog2 d := by
    rw [zpow_sub₀ (by norm_num : (2 : ℚ) ≠ 0), zpow_natCast, zpow_natCast]
  have hup : (n : ℚ) / d < (2 : ℚ) ^ ((floorLog2 n : Int) - (floorLog2 d : Int) + 1) := by
    rw [zpow_add_one₀ (by norm_num : (2 : ℚ) ≠ 0), e0eq, div_lt_iff₀ hdq]
    have : 2 ^ floorLog2 n / 2 ^ floorLog2 d * 2 * (d : ℚ) =
        2 ^ (floorLog2 n + 1) * ((d : ℚ) / 2 ^ floorLog2 d) := by
      rw [pow_succ]; field_simp
    rw [this]
    have h1 : (1 : ℚ) ≤ (d : ℚ) / 2 ^ floorLog2 d := by
      rw [le_div_iff₀ hpb]; linarith
    nlinarith
  have hlo : (2 : ℚ) ^ ((floorLog2 n : Int) - (floorLog2 d : Int) - 1) ≤ (n : ℚ) / d := by
    rw [zpow_sub_one₀ (by norm_num : (2 : ℚ) ≠ 0), e0eq, le_div_iff₀ hdq]
    have : 2 ^ floorLog2 n / 2 ^ floorLog2 d * 2⁻¹ * (d : ℚ) =
        2 ^ floorLog2 n * ((d : ℚ) / 2 ^ (floorLog2 d + 1)) := by
      rw [pow_succ]; field_simp
    rw [this]
    have h1 : (d : ℚ) / 2 ^ (floorLog2 d + 1) ≤ 1 := by
      rw [div_le_iff₀ (by positivity)]; linarith
    nlinarith
  unfold exponentOf
  simp only
  by_cases hb : (if 0 ≤ (floorLog2 n : Int) - (floorLog2 d : Int)
      then decide (n < d * 2 ^ ((floorLog2 n : Int) - (floorLog2 d : Int)).toNat)
      else decide (n * 2 ^ (-((floorLog2 n : Int) - (floorLog2 d : Int))).toNat < d)) = true
  · rw [if_pos hb]
    have := (below_iff n d hd _).mp hb
    refine ⟨hlo, ?_⟩
    rw [sub_add_cancel]
    exact this
  · rw [if_neg hb]
    have := (below_iff n d hd _).not.mp hb
    exact ⟨not_lt.mp this, hup⟩


theorem roundHalfEven_exact (k D : Nat) (hD : 0 < D) : roundHalfEven (k * D) D = k := by
  unfold roundHalfEven
  simp only [Nat.mul_div_cancel k hD, Nat.mul_mod_left, Nat.mul_zero, hD, if_true]

theorem roundHalfEven_le (N D B : Nat) (hD : 0 < D) (h : N ≤ B * D) :
    roundHalfEven N D ≤ B := by
  have hq : N / D ≤ B := by
    calc N / D ≤ B * D / D := Nat.div_le_div_right h
      _ = B := Nat.mul_div_cancel B hD
  have hdm := Nat.div_add_mod N D
  unfold roundHalfEven
  simp only
  have hlt : 0 < N % D → N / D < B := by
    intro hr
    by_contra hge
    have hBq : B ≤ N / D := not_lt.mp hge
    have : B * D ≤ D * (N / D) := by
      rw [Nat.mul_comm D]
      exact Nat.mul_le_mul_right D hBq
    omega
  split_ifs with h1 h2 h3
  · exact hq
  · have := hlt (by omega); omega
  · exact hq
  · have := hlt (by omega); omega

theorem scale_eq (m : Nat) (s : Int) : scale m s = (m : ℚ) * (2 : ℚ) ^ s := by
  unfold scale
  by_cases h : 0 ≤ s
  · obtain ⟨k, rfl⟩ := Int.eq_ofNat_of_zero_le h
    simp only [h, if_true, Int.toNat_ofNat, zpow_natCast]
    push_cast
    rfl
  · obtain ⟨k, hk⟩ := Int.eq_ofNat_of_zero_le (by omega : 0 ≤ -s)
    have he : s = -(k : Int) := by omega
    simp only [h, if_false, hk, Int.toNat_ofNat]
    rw [he, zpow_neg, zpow_natCast, Rat.mkRat_eq_div]
    push_cast
    rfl

theorem mantissa_exact (n d : Nat) (hd : 0 < d) (s : Int) (M : Nat)
    (h : (n : ℚ) / d = (M : ℚ) * (2 : ℚ) ^ s) : mantissa n d s = M := by
  have hdq : (0 : ℚ) < d := by exact_mod_cast hd
  unfold mantissa
  by_cases hs : 0 ≤ s
  · obtain ⟨k, rfl⟩ := Int.eq_ofNat_of_zero_le hs
    simp only [hs, if_true, Int.toNat_ofNat]
    rw [zpow_natCast, div_eq_iff (ne_of_gt hdq)] at h
    have hn : n = M * (d * 2 ^ k) := by
      have : ((n : ℕ) : ℚ) = ((M * (d * 2 ^ k) : ℕ) : ℚ) := by push_cast; rw [h]; ring
      exact_mod_cast this
    rw [hn]
    exact roundHalfEven_exact M _ (by positivity)
  · obtain ⟨k, hk⟩ := Int.eq_ofNat_of_zero_le (by omega : 0 ≤ -s)
    have he : s = -(k : Int) := by omega
    simp only [hs, if_false, hk, Int.toNat_ofNat]
    rw [he, zpow_neg, zpow_natCast, div_eq_iff (ne_of_gt hdq)] at h
    have hp : (0 : ℚ) < 2 ^ k := by positivity
    have hn : n * 2 ^ k = M * d := by
      have : ((n * 2 ^ k : ℕ) : ℚ) = ((M * d : ℕ) : ℚ) := by
        push_cast; rw [h]; field_simp
      exact_mod_cast this
    rw [hn]
    exact roundHalfEven_exact M d hd

theorem mantissa_le (n d : Nat) (hd : 0 < d) (s : Int) (B : Nat)
    (h : (n : ℚ) / d ≤ (B : ℚ) * (2 : ℚ) ^ s) : mantissa n d s ≤ B := by
  have hdq : (0 : ℚ) < d := by exact_mod_cast hd
  unfold mantissa
  by_cases hs : 0 ≤ s
  · obtain ⟨k, rfl⟩ := Int.eq_ofNat_of_zero_le hs
    simp only [hs, if_true, Int.toNat_ofNat]
    rw [zpow_natCast, div_le_iff₀ hdq] at h
    apply roundHalfEven_le _ _ _ (by positivity)
    have : ((n : ℕ) : ℚ) ≤ ((B * (d * 2 ^ k) : ℕ) : ℚ) := by push_cast; linarith
    exact_mod_cast this
  · obtain ⟨k, hk⟩ := Int.eq_ofNat_of_zero_le (by omega : 0 ≤ -s)
    have he : s = -(k : Int) := by omega
    simp only [hs, if_false, hk, Int.toNat_ofNat]
    rw [he, zpow_neg, zpow_natCast, div_le_iff₀ hdq] at h
    have hp : (0 : ℚ) < 2 ^ k := by positivity
    apply roundHalfEven_le _ _ _ hd
    have : ((n * 2 ^ k : ℕ) : ℚ) ≤ ((B * d : ℕ) : ℚ) := by
      push_cast
      have h2 : (n : ℚ) * 2 ^ k ≤ (B : ℚ) * (2 ^ k)⁻¹ * d * 2 ^ k :=
        mul_le_mul_of_nonneg_right h (le_of_lt hp)
      have h3 : (B : ℚ) * (2 ^ k)⁻¹ * d * 2 ^ k = B * d := by field_simp
      linarith
    exact_mod_cast this


/-- A rounded magnitude is zero or is left unchanged by rounding. -/
theorem roundMag_fixed (n d : Nat) (hn : 0 < n) (hd : 0 < d) :
    roundMag n d = 0 ∨
      (0 < roundMag n d ∧
        roundMag (roundMag n d).num.natAbs (roundMag n d).den = roundMag n d) := by
  have h2 : (1 : ℚ) < 2 := by norm_num
  have h20 : (2 : ℚ) ≠ 0 := by norm_num
  obtain ⟨_, eup⟩ := exponentOf_spec n d hn hd
  have hy : roundMag n d =
      (mantissa n d (ulpExponent n d) : ℚ) * (2 : ℚ) ^ ulpExponent n d := scale_eq _ _
  have hs1 : exponentOf n d - 52 ≤ ulpExponent n d := le_max_left _ _
  have hs2 : -1074 ≤ ulpExponent n d := le_max_right _ _
  generalize ulpExponent n d = s at hy hs1 hs2
  have hmle : mantissa n d s ≤ 2 ^ 53 := by
    apply mantissa_le n d hd
    have : (2 : ℚ) ^ (exponentOf n d + 1) ≤ (2 : ℚ) ^ (s + 53) :=
      zpow_le_zpow_right₀ (le_of_lt h2) (by omega)
    have e1 : (2 : ℚ) ^ (s + 53) = ((2 ^ 53 : ℕ) : ℚ) * 2 ^ s := by
      rw [zpow_add₀ h20]
      push_cast
      ring
    rw [← e1]
    linarith
  generalize mantissa n d s = m at hy hmle
  by_cases hm : m = 0
  · left
    rw [hy, hm]
    simp
  · right
    have hmpos : (0 : ℚ) < m := by exact_mod_cast Nat.pos_of_ne_zero hm
    have hspos : (0 : ℚ) < (2 : ℚ) ^ s := by positivity
    have hypos : 0 < roundMag n d := by rw [hy]; positivity
    refine ⟨hypos, ?_⟩
    generalize roundMag n d = y at hy hypos
    have hnum : 0 < y.num := Rat.num_pos.mpr hypos
    have hd' : 0 < y.den := y.den_pos
    have hn' : 0 < y.num.natAbs := Int.natAbs_pos.mpr (ne_of_gt hnum)
    have hcast : ((y.num.natAbs : ℕ) : ℚ) / (y.den : ℚ) = y := by
      have h3 : ((y.num.natAbs : ℕ) : ℚ) = ((y.num : ℤ) : ℚ) := by
        rw [Nat.cast_natAbs, abs_of_pos hnum]
      rw [h3]
      exact Rat.num_div_den y
    obtain ⟨elo', _⟩ := exponentOf_spec y.num.natAbs y.den hn' hd'
    rw [hcast] at elo'
    have hyle : y ≤ (2 : ℚ) ^ (s + 53) := by
      rw [hy, zpow_add₀ h20]
      have : (m : ℚ) ≤ 2 ^ 53 := by exact_mod_cast hmle
      have e : (2 : ℚ) ^ (53 : ℤ) = 2 ^ 53 := by norm_cast
      rw [e]
      nlinarith
    have hele : exponentOf y.num.natAbs y.den ≤ s + 53 :=
      (zpow_le_zpow_iff_right₀ h2).mp (le_trans elo' hyle)
    have key : ∃ M : ℕ, y = (M : ℚ) * (2 : ℚ) ^ ulpExponent y.num.natAbs y.den := by
      by_cases hcase : exponentOf y.num.natAbs y.den ≤ s + 52
      · have hle : ulpExponent y.num.natAbs y.den ≤ s := max_le (by omega) hs2
        obtain ⟨k, hk⟩ := Int.eq_ofNat_of_zero_le (by omega : 0 ≤ s - ulpExponent y.num.natAbs y.den)
        refine ⟨m * 2 ^ k, ?_⟩
        have e : s = (k : ℤ) + ulpExponent y.num.natAbs y.den := by omega
        calc y = (m : ℚ) * (2 : ℚ) ^ s := hy
          _ = (m : ℚ) * (2 : ℚ) ^ ((k : ℤ) + ulpExponent y.num.natAbs y.den) := by rw [← e]
          _ = ((m * 2 ^ k : ℕ) : ℚ) * (2 : ℚ) ^ ulpExponent y.num.natAbs y.den := by
            rw [zpow_add₀ h20, zpow_natCast]
            push_cast
            ring
      · have heq : exponentOf y.num.natAbs y.den = s + 53 := by omega
        have hu : ulpExponent y.num.natAbs y.den = s + 1 := by
          unfold ulpExponent
          rw [heq, max_eq_left (by omega)]
          omega
        rw [heq] at elo'
        have hyeq : y = (2 : ℚ) ^ (s + 53) := le_antisymm hyle elo'
        refine ⟨2 ^ 52, ?_⟩
        rw [hu, hyeq, show s + 53 = (52 : ℤ) + (s + 1) by ring, zpow_add₀ h20]
        push_cast
        norm_cast
    obtain ⟨M, hM⟩ := key
    have hmant := mantissa_exact y.num.natAbs y.den hd' _ M (by rw [hcast]; exact hM)
    unfold roundMag
    rw [hmant, scale_eq]
    exact hM.symm

theorem binary64_of_pos (y : ℚ) (h : 0 < y) : binary64 y = roundMag y.num.natAbs y.den := by
  have hnum : 0 < y.num := Rat.num_pos.mpr h
  unfold binary64
  rw [if_neg (ne_of_gt hnum), if_neg (not_lt.mpr (le_of_lt hnum))]

theorem binary64_zero : binary64 0 = 0 := by
  unfold binary64
  simp

/-- Rounding a double gives it back: `binary64` is idempotent. -/
theorem binary64_idem (x : ℚ) : binary64 (binary64 x) = binary64 x := by
  have hfix : ∀ n d : Nat, 0 < n → 0 < d → binary64 (roundMag n d) = roundMag n d := by
    intro n d hn hd
    rcases roundMag_fixed n d hn hd with h | ⟨hpos, h⟩
    · rw [h]; exact binary64_zero
    · rw [binary64_of_pos _ hpos]; exact h
  by_cases h0 : x.num = 0
  · have : binary64 x = 0 := by unfold binary64; rw [if_pos h0]
    rw [this]
    exact binary64_zero
  · have hn : 0 < x.num.natAbs := Int.natAbs_pos.mpr h0
    by_cases h1 : x.num < 0
    · have : binary64 x = -roundMag x.num.natAbs x.den := by
        unfold binary64; rw [if_neg h0, if_pos h1]
      rw [this, binary64_odd, hfix _ _ hn x.den_pos]
    · have : binary64 x = roundMag x.num.natAbs x.den := by
        unfold binary64; rw [if_neg h0, if_neg h1]
      rw [this, hfix _ _ hn x.den_pos]

/-! ## Fuel -/

theorem displayLoop_mono (maxDegree : Int) (k : Nat) :
    ∀ (fuel : Nat) (i : Int) (st r : DisplayState),
      displayLoop maxDegree fuel i st = some r →
      displayLoop maxDegree (fuel + k) i st = some r := by
  intro fuel
  induction fuel with
  | zero => intro i st r h; simp [displayLoop] at h
  | succ n ih =>
    intro i st r h
    rw [Nat.add_right_comm]
    simp only [displayLoop] at h ⊢
    split
    · rename_i hi
      rw [if_pos hi] at h
      exact ih _ _ _ h
    · rename_i hi
      rw [if_neg hi] at h
      exact h

theorem sqrtLoop_mono (rnd : ℚ → ℚ) (x : ℚ) (k : Nat) :
    ∀ (fuel : Nat) (result r : ℚ),
      sqrtLoop rnd x fuel result = some r → sqrtLoop rnd x (fuel + k) result = some r := by
  intro fuel
  induction fuel with
  | zero => intro result r h; simp [sqrtLoop] at h
  | succ n ih =>
    intro result r h
    rw [Nat.add_right_comm]
    simp only [sqrtLoop] at h ⊢
    split
    · rename_i hi
      rw [if_pos hi] at h
      exact h
    · rename_i hi
      rw [if_neg hi] at h
      exact ih _ _ h

theorem sqrt_mono (rnd : ℚ → ℚ) (k fuel : Nat) (x r : ℚ)
    (h : sqrt rnd fuel x = some r) : sqrt rnd (fuel + k) x = some r := by
  unfold sqrt at h ⊢
  split
  · rename_i h1; rw [if_pos h1] at h; exact h
  · rename_i h1
    rw [if_neg h1] at h
    split
    · rename_i h2; rw [if_pos h2] at h; exact h
    · rename_i h2; rw [if_neg h2] at h; exact sqrtLoop_mono rnd x k fuel x r h

theorem displayReducedForm_mono (k fuel : Nat) (m : CoeffMap) (r : List Out × CoeffMap)
    (h : displayReducedForm fuel m = some r) : displayReducedForm (fuel + k) m = some r := by
  unfold displayReducedForm at h ⊢
  simp only at h ⊢
  cases hl : displayLoop (maxDegree m) fuel 0
      { out := [.str "Reduced form: "], first := true, hasNonZero := false, coefficients := m } with
  | none => rw [hl] at h; simp at h
  | some st =>
    rw [hl] at h
    rw [displayLoop_mono _ k _ _ _ _ hl]
    exact h

theorem solveDegree2_mono (rnd : ℚ → ℚ) (k fuel : Nat) (m : CoeffMap) (r : List Out × CoeffMap)
    (h : solveDegree2 rnd fuel m = some r) : solveDegree2 rnd (fuel + k) m = some r := by
  unfold solveDegree2 at h ⊢
  simp only at h ⊢
  split
  · rename_i h1; rw [if_pos h1] at h; exact h
  · rename_i h1
    rw [if_neg h1] at h
    split
    · rename_i h2
      rw [if_pos h2] at h
      cases hs : sqrt rnd fuel (rnd (rnd (get (touch m 2) 1 * get (touch m 2) 1) -
          rnd (rnd (4 * get m 2) * get (touch (touch m 2) 1) 0))) with
      | none => rw [hs] at h; simp at h
      | some s => rw [hs] at h; rw [sqrt_mono rnd k fuel _ _ hs]; exact h
    · rename_i h2
      rw [if_neg h2] at h
      split
      · rename_i h3; rw [if_pos h3] at h; exact h
      · rename_i h3
        rw [if_neg h3] at h
        cases hs : sqrt rnd fuel (-rnd (rnd (get (touch m 2) 1 * get (touch m 2) 1) -
            rnd (rnd (4 * get m 2) * get (touch (touch m 2) 1) 0))) with
        | none => rw [hs] at h; simp at h
        | some s => rw [hs] at h; rw [sqrt_mono rnd k fuel _ _ hs]; exact h

theorem dispatch_mono (rnd : ℚ → ℚ) (k fuel : Nat) (m : CoeffMap)
    (r : Except Err (List Out × CoeffMap))
    (h : dispatch rnd fuel m = some r) : dispatch rnd (fuel + k) m = some r := by
  unfold dispatch at h ⊢
  simp only at h ⊢
  split
  · rename_i h1; rw [if_pos h1] at h; exact h
  · rename_i h1
    rw [if_neg h1] at h
    split
    · rename_i h2; rw [if_pos h2] at h; exact h
    · rename_i h2
      rw [if_neg h2] at h
      split
      · rename_i h3; rw [if_pos h3] at h; exact h
      · rename_i h3
        rw [if_neg h3] at h
        split
        · rename_i h4
          rw [if_pos h4] at h
          cases hs : solveDegree2 rnd fuel m with
          | none => rw [hs] at h; simp at h
          | some s => rw [hs] at h; rw [solveDegree2_mono rnd k fuel _ _ hs]; exact h
        · rename_i h4; rw [if_neg h4] at h; exact h

/-- More fuel does not change a result of `solve`. -/
theorem solve_mono (rnd : ℚ → ℚ) (k fuel : Nat) (equation : Str) (m0 : CoeffMap)
    (r : Except Err (List Out × CoeffMap))
    (h : solve rnd fuel equation m0 = some r) : solve rnd (fuel + k) equation m0 = some r := by
  unfold solve at h ⊢
  cases hp : parseEquation rnd equation m0 with
  | error e => rw [hp] at h; exact h
  | ok m =>
    rw [hp] at h
    simp only at h ⊢
    cases hd : displayReducedForm fuel m with
    | none => rw [hd] at h; simp at h
    | some p =>
      obtain ⟨out, m1⟩ := p
      rw [hd] at h
      rw [displayReducedForm_mono k fuel m _ hd]
      simp only at h ⊢
      cases hx : dispatch rnd fuel m1 with
      | none => rw [hx] at h; simp at h
      | some x => rw [hx] at h; rw [dispatch_mono rnd k fuel m1 _ hx]; exact h


/-! ## The coefficient map -/

theorem find?_insert (k : Int) (v : ℚ) (k' : Int) :
    ∀ m : CoeffMap, find? (insert k v m) k' = if k = k' then some v else find? m k' := by
  intro m
  induction m with
  | nil => simp [insert, find?]
  | cons p rest ih =>
    obtain ⟨k1, v1⟩ := p
    simp only [insert]
    by_cases h1 : k < k1
    · simp [h1, find?]
    · by_cases h2 : k = k1
      · subst h2
        simp only [lt_self_iff_false, if_false, if_true, find?]
        by_cases h3 : k = k' <;> simp [h3]
      · simp only [h1, h2, if_false, find?]
        rw [ih]
        by_cases h3 : k1 = k'
        · have : ¬ k = k' := by rw [← h3]; exact h2
          simp [h3, this]
        · simp [h3]

theorem get_insert (k : Int) (v : ℚ) (k' : Int) (m : CoeffMap) :
    get (insert k v m) k' = if k = k' then v else get m k' := by
  unfold get
  rw [find?_insert]
  by_cases h : k = k' <;> simp [h]

/-! ## `parseSide` is `parseTerm` over the term sequence -/

theorem parseTerms_append (rnd : ℚ → ℚ) (isRight : Bool) (b : List Str) :
    ∀ (a : List Str) (m : CoeffMap),
      parseTerms rnd isRight (a ++ b) m =
        match parseTerms rnd isRight a m with
        | .error e => .error e
        | .ok m1 => parseTerms rnd isRight b m1 := by
  intro a
  induction a with
  | nil => intro m; simp [parseTerms]
  | cons t ts ih =>
    intro m
    simp only [List.cons_append, parseTerms]
    cases parseTerm rnd t isRight m with
    | error e => rfl
    | ok m1 => exact ih m1

theorem parseSideLoop_eq (rnd : ℚ → ℚ) (isRight : Bool) :
    ∀ (fuel : Nat) (iss cur : Str) (m : CoeffMap),
      (match parseSideLoop rnd isRight fuel iss cur m with
        | .error e => .error e
        | .ok (c, m1) => if !c.isEmpty then parseTerm rnd c isRight m1 else .ok m1) =
      parseTerms rnd isRight (termsLoop fuel iss cur) m := by
  intro fuel
  induction fuel with
  | zero =>
    intro iss cur m
    simp only [parseSideLoop, termsLoop]
    by_cases hc : cur.isEmpty = true
    · simp [hc, parseTerms]
    · simp only [hc, Bool.not_false, if_true, Bool.not_eq_true] at *
      simp only [parseTerms]
      cases parseTerm rnd cur isRight m <;> rfl
  | succ n ih =>
    intro iss cur m
    simp only [parseSideLoop, termsLoop]
    cases hw : extractWord iss with
    | none =>
      simp only
      by_cases hc : cur.isEmpty = true
      · simp [hc, parseTerms]
      · simp only [hc, Bool.not_false, if_true, Bool.not_eq_true] at *
        simp only [parseTerms]
        cases parseTerm rnd cur isRight m <;> rfl
    | some p =>
      obtain ⟨term, rest⟩ := p
      simp only
      rw [parseTerms_append]
      by_cases hs : (term == ['+'] || term == ['-']) = true
      · by_cases hc : cur.isEmpty = true
        · simp only [sideStep, termsStep, hs, hc, if_true, Bool.not_true, parseTerms]
          by_cases hm : (term == ['-']) = true
          · simp only [hm, if_true]
            exact ih rest ['-'] m
          · simp only [hm]
            have hcur : cur = [] := List.isEmpty_iff.mp hc
            subst hcur
            exact ih rest [] m
        · simp only [sideStep, termsStep, hs, hc, if_true, Bool.not_false, parseTerms]
          cases parseTerm rnd cur isRight m with
          | error e => rfl
          | ok m1 =>
            simp only
            by_cases hm : (term == ['-']) = true
            · simp only [hm, if_true]
              exact ih rest ['-'] m1
            · simp only [hm]
              exact ih rest [] m1
      · simp only [sideStep, termsStep, hs, parseTerms]
        exact ih rest (cur ++ term) m

/-- The method `parseSide` is `parseTerm` run over `sideTerms`. -/
theorem parseSide_eq_parseTerms (rnd : ℚ → ℚ) (side : Str) (isRight : Bool) (m : CoeffMap) :
    parseSide rnd side isRight m = parseTerms rnd isRight (sideTerms side) m := by
  unfold parseSide sideTerms
  exact parseSideLoop_eq rnd isRight _ _ [] m

/-! ## The terms of a side are clean -/

theorem dropWhile_eq_self_of_head {p : Char → Bool} :
    ∀ l : Str, (∀ c ∈ l, p c = false) → l.dropWhile p = l := by
  intro l h
  cases l with
  | nil => rfl
  | cons c cs => simp [List.dropWhile, h c (List.mem_cons_self c cs)]

theorem isBlank_imp_isspace (c : Char) (h : isspace c = false) : isBlank c = false := by
  unfold isspace at h
  unfold isBlank
  simp only [Bool.or_eq_false_iff] at h ⊢
  exact ⟨h.1.1.1.1.1, h.1.1.1.1.2⟩

theorem trim_clean (t : Str) (h : Clean t) : trim t = t := by
  have hb : ∀ c ∈ t, isBlank c = false := fun c hc => isBlank_imp_isspace c (h.2 c hc)
  unfold trim
  rw [dropWhile_eq_self_of_head t hb, dropWhile_eq_self_of_head t.reverse, List.reverse_reverse]
  intro c hc
  exact hb c (List.mem_reverse.mp hc)

theorem extractWord_clean (iss term rest : Str) (h : extractWord iss = some (term, rest)) :
    Clean term := by
  unfold extractWord at h
  split at h
  · simp at h
  · rename_i c cs hd
    simp only [Option.some.injEq, Prod.mk.injEq] at h
    have hc : isspace c = false := by
      cases hcs : isspace c with
      | false => rfl
      | true =>
        have := List.dropWhile_eq_nil_iff.not.mp (by rw [hd]; simp : List.dropWhile isspace iss ≠ [])
        have h0 : (iss.dropWhile isspace).head? = some c := by rw [hd]; rfl
        have h1 := List.head?_dropWhile_not isspace iss
        rw [h0] at h1
        simp [hcs] at h1
    constructor
    · rw [← h.1]
      simp [List.takeWhile, hc]
    · intro x hx
      rw [← h.1] at hx
      have := List.mem_takeWhile_imp hx
      simpa using this

theorem termsLoop_clean :
    ∀ (fuel : Nat) (iss cur : Str), (∀ c ∈ cur, isspace c = false) →
      ∀ t ∈ termsLoop fuel iss cur, Clean t := by
  intro fuel
  induction fuel with
  | zero =>
    intro iss cur hcur t ht
    simp only [termsLoop] at ht
    by_cases hc : cur.isEmpty = true
    · simp [hc] at ht
    · simp only [hc, Bool.not_false, if_true, List.mem_singleton] at ht
      subst ht
      exact ⟨fun h => hc (by rw [h]; rfl), hcur⟩
  | succ n ih =>
    intro iss cur hcur t ht
    simp only [termsLoop] at ht
    cases hw : extractWord iss with
    | none =>
      rw [hw] at ht
      simp only at ht
      by_cases hc : cur.isEmpty = true
      · simp [hc] at ht
      · simp only [hc, Bool.not_false, if_true, List.mem_singleton] at ht
        subst ht
        exact ⟨fun h => hc (by rw [h]; rfl), hcur⟩
    | some p =>
      obtain ⟨term, rest⟩ := p
      rw [hw] at ht
      simp only [List.mem_append] at ht
      have hterm := extractWord_clean iss term rest hw
      by_cases hs : (term == ['+'] || term == ['-']) = true
      · simp only [termsStep, hs, if_true] at ht
        rcases ht with ht | ht
        · by_cases hc : cur.isEmpty = true
          · simp [hc] at ht
          · simp only [hc, Bool.not_false, if_true, List.mem_singleton] at ht
            subst ht
            exact ⟨fun h => hc (by rw [h]; rfl), hcur⟩
        · refine ih rest _ ?_ t ht
          by_cases hm : (term == ['-']) = true
          · simp only [hm, if_true]
            intro c hc
            simp only [List.mem_singleton] at hc
            subst hc
            decide
          · simp [hm]
      · simp only [termsStep, hs, List.nil_append] at ht
        refine ih rest _ ?_ t (by simpa using ht)
        intro c hc
        rcases List.mem_append.mp hc with hc | hc
        · exact hcur c hc
        · exact hterm.2 c hc

/-- Every text `parseSide` hands to `parseTerm` is non-empty and free of whitespace. -/
theorem sideTerms_clean (side : Str) : ∀ t ∈ sideTerms side, Clean t := by
  unfold sideTerms
  exact termsLoop_clean _ _ [] (by simp)

/-! ## The token stream of a side -/

theorem wordsFrom_cons_space (c : Char) (cs w : Str) (hc : isspace c = true) :
    wordsFrom (c :: cs) w = if w.isEmpty then wordsFrom cs [] else w :: wordsFrom cs [] := by
  rw [wordsFrom]
  simp [hc]

theorem wordsFrom_cons_nonspace (c : Char) (cs w : Str) (hc : isspace c = false) :
    wordsFrom (c :: cs) w = wordsFrom cs (w ++ [c]) := by
  rw [wordsFrom]
  simp [hc]

theorem wordsFrom_takeWhile :
    ∀ (s w : Str),
      wordsFrom s w =
        if (w ++ s.takeWhile (fun x => !isspace x)).isEmpty
        then words (s.dropWhile (fun x => !isspace x))
        else (w ++ s.takeWhile (fun x => !isspace x)) ::
          words (s.dropWhile (fun x => !isspace x)) := by
  intro s
  induction s with
  | nil =>
    intro w
    cases w <;> simp [wordsFrom, words]
  | cons c cs ih =>
    intro w
    cases hc : isspace c with
    | true =>
      simp only [wordsFrom, hc, if_true, List.takeWhile, List.dropWhile, Bool.not_true,
        List.append_nil, words]
      cases w <;> simp
    | false =>
      simp only [wordsFrom, hc, List.takeWhile, List.dropWhile, Bool.not_false]
      rw [ih (w ++ [c])]
      simp

theorem words_dropWhile : ∀ s : Str, words (s.dropWhile isspace) = words s := by
  intro s
  induction s with
  | nil => rfl
  | cons c cs ih =>
    cases hc : isspace c with
    | true =>
      simp only [List.dropWhile, hc]
      rw [ih]
      simp [words, wordsFrom, hc]
    | false => simp only [List.dropWhile, hc]

theorem words_eq_extractWord (iss : Str) :
    words iss =
      match extractWord iss with
      | none => []
      | some (term, rest) => term :: words rest := by
  cases he : extractWord iss with
  | none =>
    unfold extractWord at he
    split at he
    · rename_i hd
      rw [← words_dropWhile, hd]
      rfl
    · cases he
  | some p =>
    obtain ⟨term, rest⟩ := p
    have hcl := extractWord_clean iss term rest he
    unfold extractWord at he
    split at he
    · cases he
    · rename_i c cs hd
      simp only [Option.some.injEq, Prod.mk.injEq] at he
      rw [← words_dropWhile, hd]
      show wordsFrom (c :: cs) [] = term :: words rest
      rw [wordsFrom_takeWhile, List.nil_append, he.1, he.2]
      have : term.isEmpty = false := by
        cases term with
        | nil => exact absurd rfl hcl.1
        | cons _ _ => rfl
      simp [this]

theorem extractWord_length (iss term rest : Str) (h : extractWord iss = some (term, rest)) :
    rest.length < iss.length := by
  have hcl := extractWord_clean iss term rest h
  unfold extractWord at h
  split at h
  · cases h
  · rename_i c cs hd
    simp only [Option.some.injEq, Prod.mk.injEq] at h
    have h1 : (iss.dropWhile isspace).length ≤ iss.length :=
      (List.dropWhile_sublist isspace).length_le
    have h2 : term.length + rest.length = (c :: cs).length := by
      rw [← h.1, ← h.2, ← List.length_append, List.takeWhile_append_dropWhile]
    have h3 : 0 < term.length := List.length_pos.mpr hcl.1
    rw [hd] at h1
    omega

theorem termsLoop_eq_termsOf :
    ∀ (fuel : Nat) (iss cur : Str), iss.length < fuel →
      termsLoop fuel iss cur = termsOf (words iss) cur := by
  intro fuel
  induction fuel with
  | zero => intro iss cur h; omega
  | succ n ih =>
    intro iss cur h
    rw [words_eq_extractWord]
    simp only [termsLoop]
    cases he : extractWord iss with
    | none => rfl
    | some p =>
      obtain ⟨term, rest⟩ := p
      simp only [termsOf]
      rw [ih rest _ (by have := extractWord_length iss term rest he; omega)]

theorem wordsFrom_append_space (b : Str) (c : Char) (hc : isspace c = true) :
    ∀ (a w : Str), wordsFrom (a ++ c :: b) w = wordsFrom a w ++ words b := by
  intro a
  induction a with
  | nil =>
    intro w
    cases w <;> simp [wordsFrom, hc, words]
  | cons x xs ih =>
    intro w
    rw [List.cons_append]
    cases hx : isspace x with
    | true =>
      rw [wordsFrom_cons_space x _ w hx, wordsFrom_cons_space x _ w hx, ih]
      cases w <;> simp
    | false =>
      rw [wordsFrom_cons_nonspace x _ w hx, wordsFrom_cons_nonspace x _ w hx, ih]

theorem words_cons_space (c : Char) (b : Str) (hc : isspace c = true) :
    words (c :: b) = words b := by
  have := wordsFrom_append_space b c hc [] []
  simpa [words, wordsFrom] using this

theorem wordsFrom_snoc_space (c : Char) (hc : isspace c = true) (a w : Str) :
    wordsFrom (a ++ [c]) w = wordsFrom a w := by
  have := wordsFrom_append_space [] c hc a w
  simpa [words, wordsFrom] using this

theorem words_blank_append :
    ∀ (l b : Str), (∀ c ∈ l, isspace c = true) → words (l ++ b) = words b := by
  intro l
  induction l with
  | nil => intro b _; rfl
  | cons x xs ih =>
    intro b h
    rw [List.cons_append, words_cons_space x _ (h x (List.mem_cons_self x xs))]
    exact ih b (fun c hc => h c (List.mem_cons_of_mem x hc))

theorem wordsFrom_append_blank (a w : Str) :
    ∀ (l : Str), (∀ c ∈ l, isspace c = true) → wordsFrom (a ++ l) w = wordsFrom a w := by
  intro l
  induction l using List.reverseRecOn with
  | nil => intro _; simp
  | append_singleton xs x ih =>
    intro h
    rw [← List.append_assoc, wordsFrom_snoc_space x (h x (by simp))]
    exact ih (fun c hc => h c (by simp [hc]))

theorem spaced_append : ∀ (a b : Str), spaced (a ++ b) = spaced a ++ spaced b := by
  intro a
  induction a with
  | nil => intro b; rfl
  | cons x xs ih => intro b; simp [spaced, ih]

theorem spaced_of_unsigned : ∀ (l : Str), (∀ c ∈ l, c ≠ '+' ∧ c ≠ '-') → spaced l = l := by
  intro l
  induction l with
  | nil => intro _; rfl
  | cons x xs ih =>
    intro h
    have hx := h x (List.mem_cons_self x xs)
    simp only [spaced, hx.1, hx.2, or_self, if_false, List.singleton_append]
    rw [ih (fun c hc => h c (List.mem_cons_of_mem x hc))]

theorem isBlank_isspace (c : Char) (h : isBlank c = true) : isspace c = true := by
  cases hs : isspace c with
  | true => rfl
  | false => rw [isBlank_imp_isspace c hs] at h; cases h

theorem isBlank_unsigned (c : Char) (h : isBlank c = true) : c ≠ '+' ∧ c ≠ '-' := by
  unfold isBlank at h
  simp only [Bool.or_eq_true, beq_iff_eq] at h
  rcases h with h | h <;> subst h <;> decide

theorem wordsFrom_spaceSigns :
    ∀ (s : Str) (i : Nat) (w : Str), (i = 0 → w = []) →
      wordsFrom (spaceSigns i s) w = wordsFrom (spaced s) w := by
  intro s
  induction s with
  | nil => intro i w _; rfl
  | cons c cs ih =>
    intro i w hw
    have hsp : isspace ' ' = true := by decide
    by_cases hc : c = '+' ∨ c = '-'
    · have hcs : isspace c = false := by rcases hc with h | h <;> subst h <;> decide
      have step : ∀ X : Str, wordsFrom (c :: ' ' :: X) [] = [c] :: wordsFrom X [] := by
        intro X
        rw [wordsFrom_cons_nonspace c _ _ hcs, wordsFrom_cons_space ' ' _ _ hsp]
        rfl
      simp only [spaceSigns, spaced, hc, if_true]
      by_cases hi : 0 < i
      · simp only [hi, if_true, List.cons_append, List.nil_append]
        rw [wordsFrom_cons_space ' ' _ w hsp, wordsFrom_cons_space ' ' _ w hsp, step, step,
          ih (i + 1) [] (by omega)]
      · have h0 : i = 0 := by omega
        rw [hw h0]
        simp only [hi, if_false, List.cons_append, List.nil_append]
        rw [wordsFrom_cons_space ' ' _ [] hsp]
        simp only [List.isEmpty_nil, if_true]
        rw [step, step, ih (i + 1) [] (by omega)]
    · simp only [spaceSigns, spaced, hc, if_false, List.singleton_append]
      cases hs : isspace c with
      | true =>
        rw [wordsFrom_cons_space c _ w hs, wordsFrom_cons_space c _ w hs,
          ih (i + 1) [] (by omega)]
      | false =>
        rw [wordsFrom_cons_nonspace c _ w hs, wordsFrom_cons_nonspace c _ w hs,
          ih (i + 1) _ (by omega)]

theorem trim_decompose (s : Str) :
    ∃ a b : Str, s = a ++ trim s ++ b ∧ (∀ c ∈ a, isBlank c = true) ∧
      (∀ c ∈ b, isBlank c = true) := by
  refine ⟨s.takeWhile isBlank, ((s.dropWhile isBlank).reverse.takeWhile isBlank).reverse,
    ?_, ?_, ?_⟩
  · unfold trim
    rw [List.append_assoc, ← List.reverse_append, List.takeWhile_append_dropWhile,
      List.reverse_reverse, List.takeWhile_append_dropWhile]
  · intro c hc
    exact List.mem_takeWhile_imp hc
  · intro c hc
    exact List.mem_takeWhile_imp (List.mem_reverse.mp hc)

/-- The terms of a side, read off the words of the side with every sign set apart: neither
`trim` nor the index test of `parseSide` matters. -/
theorem sideTerms_eq (side : Str) : sideTerms side = termsOf (words (spaced side)) [] := by
  unfold sideTerms
  rw [termsLoop_eq_termsOf _ _ _ (Nat.lt_succ_self _)]
  have hw : words (spaceSigns 0 (trim side)) = words (spaced side) := by
    show wordsFrom (spaceSigns 0 (trim side)) [] = words (spaced side)
    rw [wordsFrom_spaceSigns _ 0 [] (fun _ => rfl)]
    obtain ⟨a, b, hs, ha, hb⟩ := trim_decompose side
    conv_rhs => rw [hs]
    rw [spaced_append, spaced_append,
      spaced_of_unsigned a (fun c hc => isBlank_unsigned c (ha c hc)),
      spaced_of_unsigned b (fun c hc => isBlank_unsigned c (hb c hc)),
      List.append_assoc, words_blank_append a _ (fun c hc => isBlank_isspace c (ha c hc))]
    exact (wordsFrom_append_blank _ [] b (fun c hc => isBlank_isspace c (hb c hc))).symm
  rw [hw]

theorem sideTerms_cons_space (S : Str) : sideTerms (' ' :: S) = sideTerms S := by
  have h : words (spaced (' ' :: S)) = words (spaced S) :=
    words_cons_space ' ' (spaced S) (by decide)
  rw [sideTerms_eq (' ' :: S), h, ← sideTerms_eq]

theorem sideTerms_snoc_space (S : Str) : sideTerms (S ++ [' ']) = sideTerms S := by
  have h : words (spaced (S ++ [' '])) = words (spaced S) := by
    rw [spaced_append]
    exact wordsFrom_snoc_space ' ' (by decide) (spaced S) []
  rw [sideTerms_eq (S ++ [' ']), h, ← sideTerms_eq]

/-! ## The split of a well-formed equation -/

theorem getline_length (d : Char) (ss token rest : Str)
    (h : getline d ss = some (token, rest)) : rest.length < ss.length := by
  unfold getline at h
  cases ss with
  | nil => cases h
  | cons c cs =>
    simp only [Option.some.injEq, Prod.mk.injEq] at h
    have h1 : ((c :: cs).dropWhile (· != d)).length ≤ (c :: cs).length :=
      (List.dropWhile_sublist _).length_le
    rw [← h.2, List.length_drop]
    simp only [List.length_cons] at h1 ⊢
    omega

/-- The fuel of `split` is enough: once it exceeds the length of the unread text, more fuel
changes nothing, so the loop has run until `getline` failed. -/
theorem splitLoop_fuel (d : Char) (k : Nat) :
    ∀ (fuel : Nat) (ss : Str) (tokens : List Str), ss.length < fuel →
      splitLoop d (fuel + k) ss tokens = splitLoop d fuel ss tokens := by
  intro fuel
  induction fuel with
  | zero => intro ss tokens h; omega
  | succ n ih =>
    intro ss tokens h
    rw [Nat.add_right_comm]
    simp only [splitLoop]
    cases hg : getline d ss with
    | none => rfl
    | some p =>
      obtain ⟨token, rest⟩ := p
      simp only
      have := getline_length d ss token rest hg
      exact ih rest _ (by omega)

theorem takeWhile_ne_append (d : Char) :
    ∀ (a b : Str), d ∉ a → (a ++ d :: b).takeWhile (· != d) = a ∧
      (a ++ d :: b).dropWhile (· != d) = d :: b := by
  intro a
  induction a with
  | nil => intro b _; simp [List.takeWhile, List.dropWhile]
  | cons x xs ih =>
    intro b h
    have hx : (x != d) = true := by
      simp only [bne_iff_ne, ne_eq]
      exact fun e => h (by rw [e]; exact List.mem_cons_self d xs)
    have hxs : d ∉ xs := fun e => h (List.mem_cons_of_mem x e)
    have := ih b hxs
    rw [List.cons_append, List.takeWhile_cons, List.dropWhile_cons]
    simp only [hx, if_true, this.1, this.2, and_self]

theorem takeWhile_ne_self (d : Char) :
    ∀ (a : Str), d ∉ a → a.takeWhile (· != d) = a ∧ a.dropWhile (· != d) = [] := by
  intro a
  induction a with
  | nil => intro _; simp
  | cons x xs ih =>
    intro h
    have hx : (x != d) = true := by
      simp only [bne_iff_ne, ne_eq]
      exact fun e => h (by rw [e]; exact List.mem_cons_self d xs)
    have hxs : d ∉ xs := fun e => h (List.mem_cons_of_mem x e)
    have := ih hxs
    rw [List.takeWhile_cons, List.dropWhile_cons]
    simp only [hx, if_true, this.1, this.2, and_self]

/-- A text with one `=`, and something after it, splits into its two sides. -/
theorem split_two_sides (a b : Str) (ha : '=' ∉ a) (hb : '=' ∉ b) (hne : b ≠ []) :
    split (a ++ '=' :: b) '=' = [a, b] := by
  obtain ⟨y, ys, rfl⟩ : ∃ y ys, b = y :: ys := by
    cases b with
    | nil => exact absurd rfl hne
    | cons y ys => exact ⟨y, ys, rfl⟩
  have h1 := takeWhile_ne_append '=' a (y :: ys) ha
  have h2 := takeWhile_ne_self '=' (y :: ys) hb
  have hlen : (a ++ '=' :: y :: ys).length + 1 = (a.length + ys.length) + 3 := by
    simp only [List.length_append, List.length_cons]
    omega
  unfold split
  rw [hlen]
  have g1 : getline '=' (a ++ '=' :: y :: ys) = some (a, y :: ys) := by
    unfold getline
    cases a with
    | nil => simp [List.takeWhile, List.dropWhile]
    | cons x xs => simp only [h1.1, h1.2]; rfl
  have g2 : getline '=' (y :: ys) = some (y :: ys, []) := by
    unfold getline
    simp only [h2.1, h2.2]
    rfl
  have g3 : getline '=' [] = none := rfl
  rw [splitLoop, g1]
  simp only
  rw [splitLoop, g2]
  simp only
  rw [splitLoop, g3]
  rfl

/-! ## Accumulation -/

theorem parseTerm_clean (rnd : ℚ → ℚ) (t : Str) (isRight : Bool) (m : CoeffMap)
    (h : Clean t) :
    parseTerm rnd t isRight m =
      match termValue rnd t with
      | .error e => .error e
      | .ok v => .ok (insert v.2 (rnd (get m v.2 + (if isRight then -v.1 else v.1))) m) := by
  unfold parseTerm
  rw [trim_clean t h]
  have : t.isEmpty = false := by
    cases t with
    | nil => exact absurd rfl h.1
    | cons c cs => rfl
  simp only [this, Bool.false_eq_true, if_false]
  cases termValue rnd t with
  | error e => rfl
  | ok v => rfl

theorem parseTerms_eq_accumulate (rnd : ℚ → ℚ) (isRight : Bool) :
    ∀ (ts : List Str) (m : CoeffMap), (∀ t ∈ ts, Clean t) →
      parseTerms rnd isRight ts m =
        match termValues rnd ts with
        | .error e => .error e
        | .ok vs => .ok (accumulate rnd isRight vs m) := by
  intro ts
  induction ts with
  | nil => intro m _; rfl
  | cons t ts ih =>
    intro m h
    simp only [parseTerms, termValues]
    rw [parseTerm_clean rnd t isRight m (h t (List.mem_cons_self t ts))]
    cases termValue rnd t with
    | error e => rfl
    | ok v =>
      simp only
      rw [ih _ (fun t' ht' => h t' (List.mem_cons_of_mem t ht'))]
      cases termValues rnd ts with
      | error e => rfl
      | ok vs => rfl

theorem coeffSum_cons (t : ℚ × Int) (ts : List (ℚ × Int)) (k : Int) :
    coeffSum (t :: ts) k = (if t.2 = k then t.1 else 0) + coeffSum ts k := by
  unfold coeffSum
  by_cases h : t.2 = k <;> simp [List.filter, h]

theorem get_accumulate_exact (isRight : Bool) (k : Int) :
    ∀ (vs : List (ℚ × Int)) (m : CoeffMap),
      get (accumulate id isRight vs m) k =
        get m k + (if isRight then -coeffSum vs k else coeffSum vs k) := by
  intro vs
  induction vs with
  | nil => intro m; simp [accumulate, coeffSum]
  | cons t ts ih =>
    intro m
    simp only [accumulate]
    rw [ih, get_insert, coeffSum_cons]
    by_cases h : t.2 = k
    · subst h
      cases isRight <;> simp <;> ring
    · cases isRight <;> simp [h]

theorem get_touch (m : CoeffMap) (k k' : Int) : get (touch m k) k' = get m k' := by
  unfold touch
  cases hf : find? m k with
  | some v => rfl
  | none =>
    simp only
    rw [get_insert]
    by_cases h : k = k'
    · subst h
      simp [get, hf]
    · simp [h]

/-! ## Invariants of the parsed map -/

theorem mem_insert (k : Int) (v : ℚ) (p : Int × ℚ) :
    ∀ m : CoeffMap, p ∈ insert k v m → p = (k, v) ∨ p ∈ m := by
  intro m
  induction m with
  | nil => intro h; simpa [insert] using h
  | cons q rest ih =>
    obtain ⟨k1, v1⟩ := q
    intro h
    simp only [insert] at h
    by_cases h1 : k < k1
    · simp only [h1, if_true, List.mem_cons] at h
      rcases h with h | h | h
      · exact Or.inl h
      · exact Or.inr (by simp [h])
      · exact Or.inr (by simp [h])
    · by_cases h2 : k = k1
      · subst h2
        simp only [lt_self_iff_false, if_false, if_true, List.mem_cons] at h
        rcases h with h | h
        · exact Or.inl h
        · exact Or.inr (by simp [h])
      · simp only [h1, h2, if_false, List.mem_cons] at h
        rcases h with h | h
        · exact Or.inr (by simp [h])
        · rcases ih h with h | h
          · exact Or.inl h
          · exact Or.inr (by simp [h])

theorem insert_sorted (k : Int) (v : ℚ) : ∀ m : CoeffMap, Sorted m → Sorted (insert k v m) := by
  intro m
  induction m with
  | nil => intro _; simp [insert, Sorted]
  | cons q rest ih =>
    obtain ⟨k1, v1⟩ := q
    intro h
    unfold Sorted at h ⊢
    rw [List.pairwise_cons] at h
    simp only [insert]
    by_cases h1 : k < k1
    · simp only [h1, if_true]
      refine List.pairwise_cons.mpr ⟨?_, List.pairwise_cons.mpr h⟩
      intro p hp
      rcases List.mem_cons.mp hp with hp | hp
      · rw [hp]; exact h1
      · exact lt_trans h1 (h.1 p hp)
    · by_cases h2 : k = k1
      · subst h2
        simp only [lt_self_iff_false, if_false, if_true]
        exact List.pairwise_cons.mpr ⟨fun p hp => h.1 p hp, h.2⟩
      · simp only [h1, h2, if_false]
        refine List.pairwise_cons.mpr ⟨?_, ih h.2⟩
        intro p hp
        rcases mem_insert k v p rest hp with hp | hp
        · rw [hp]
          exact lt_of_le_of_ne (not_lt.mp h1) (fun e => h2 e.symm)
        · exact h.1 p hp

theorem insert_nonNegKeys (k : Int) (v : ℚ) (m : CoeffMap) (hk : 0 ≤ k) (h : NonNegKeys m) :
    NonNegKeys (insert k v m) := by
  intro p hp
  rcases mem_insert k v p m hp with hp | hp
  · rw [hp]; exact hk
  · exact h p hp

theorem stoi_nonneg (s : Str) (p : Int) (h : stoi s = .ok p) : 0 ≤ p := by
  unfold stoi at h
  simp only at h
  split at h
  · cases h
  · split at h
    · cases h
    · cases h
      exact Int.natCast_nonneg _

theorem termValue_nonneg (rnd : ℚ → ℚ) (t : Str) (v : ℚ × Int) (h : termValue rnd t = .ok v) :
    0 ≤ v.2 := by
  unfold termValue at h
  split at h
  · rename_i m1 m2 _
    simp only at h
    split at h
    · cases h
    · split at h
      · cases h
      · rename_i power hp
        cases h
        exact stoi_nonneg _ _ hp
  · split at h
    · split at h
      · cases h
      · cases h; exact le_refl 0
    · cases h

theorem parseTerm_invariant (rnd : ℚ → ℚ) (t : Str) (isRight : Bool) (m m1 : CoeffMap)
    (h : parseTerm rnd t isRight m = .ok m1) (hs : Sorted m) (hn : NonNegKeys m) :
    Sorted m1 ∧ NonNegKeys m1 := by
  unfold parseTerm at h
  simp only at h
  split at h
  · cases h; exact ⟨hs, hn⟩
  · split at h
    · cases h
    · rename_i c p hv
      cases h
      exact ⟨insert_sorted _ _ _ hs, insert_nonNegKeys _ _ _ (termValue_nonneg rnd _ _ hv) hn⟩

theorem parseTerms_invariant (rnd : ℚ → ℚ) (isRight : Bool) :
    ∀ (ts : List Str) (m m1 : CoeffMap), parseTerms rnd isRight ts m = .ok m1 →
      Sorted m → NonNegKeys m → Sorted m1 ∧ NonNegKeys m1 := by
  intro ts
  induction ts with
  | nil => intro m m1 h hs hn; cases h; exact ⟨hs, hn⟩
  | cons t ts ih =>
    intro m m1 h hs hn
    simp only [parseTerms] at h
    cases hp : parseTerm rnd t isRight m with
    | error e => rw [hp] at h; cases h
    | ok m2 =>
      rw [hp] at h
      have := parseTerm_invariant rnd t isRight m m2 hp hs hn
      exact ih m2 m1 h this.1 this.2

/-- A map produced by `parseEquation` has strictly ascending, non-negative keys. -/
theorem parseEquation_invariant (rnd : ℚ → ℚ) (equation : Str) (m0 m : CoeffMap)
    (h : parseEquation rnd equation m0 = .ok m) : Sorted m ∧ NonNegKeys m := by
  unfold parseEquation at h
  simp only at h
  split at h
  · cases h
  · cases hl : parseSide rnd ((split equation '=').getD 0 []) false [] with
    | error e => rw [hl] at h; cases h
    | ok m1 =>
      rw [hl] at h
      simp only at h
      rw [parseSide_eq_parseTerms] at hl h
      have h1 := parseTerms_invariant rnd false _ _ _ hl (by simp [Sorted]) (by simp [NonNegKeys])
      exact parseTerms_invariant rnd true _ _ _ h h1.1 h1.2

theorem find?_eq_some_iff_mem (k : Int) (v : ℚ) :
    ∀ m : CoeffMap, Sorted m → (find? m k = some v ↔ (k, v) ∈ m) := by
  intro m
  induction m with
  | nil => intro _; simp [find?]
  | cons q rest ih =>
    obtain ⟨k1, v1⟩ := q
    intro h
    unfold Sorted at h
    rw [List.pairwise_cons] at h
    simp only [find?, List.mem_cons, Prod.mk.injEq]
    by_cases h1 : k1 = k
    · subst h1
      simp only [if_true, Option.some.injEq, true_and]
      constructor
      · intro e; exact Or.inl e.symm
      · rintro (e | e)
        · exact e.symm
        · exact absurd (h.1 _ e) (lt_irrefl _)
    · simp only [h1, if_false]
      rw [ih h.2]
      constructor
      · intro e; exact Or.inr e
      · rintro (e | e)
        · exact absurd e.1.symm h1
        · exact e

theorem get_ne_zero_iff (k : Int) (m : CoeffMap) (h : Sorted m) :
    get m k ≠ 0 ↔ ∃ v, v ≠ 0 ∧ (k, v) ∈ m := by
  unfold get
  constructor
  · intro hg
    cases hf : find? m k with
    | none => rw [hf] at hg; simp at hg
    | some v =>
      rw [hf] at hg
      exact ⟨v, by simpa using hg, (find?_eq_some_iff_mem k v m h).mp hf⟩
  · rintro ⟨v, hv, hm⟩
    rw [(find?_eq_some_iff_mem k v m h).mpr hm]
    simpa using hv

/-! ## The degree -/

theorem degree_fold (m : CoeffMap) :
    ∀ d0 : Int,
      let r := m.foldl (fun degree pair =>
        if pair.2 ≠ 0 ∧ pair.1 > degree then pair.1 else degree) d0
      (r = d0 ∨ ∃ p ∈ m, p.2 ≠ 0 ∧ p.1 = r) ∧ d0 ≤ r ∧ ∀ p ∈ m, p.2 ≠ 0 → p.1 ≤ r := by
  induction m with
  | nil => intro d0; simp
  | cons q rest ih =>
    intro d0
    simp only [List.foldl_cons]
    by_cases hq : q.2 ≠ 0 ∧ q.1 > d0
    · rw [if_pos hq]
      have := ih q.1
      simp only at this
      obtain ⟨h1, h2, h3⟩ := this
      refine ⟨?_, le_trans (le_of_lt hq.2) h2, ?_⟩
      · rcases h1 with h1 | ⟨p, hp, hp2, hp3⟩
        · exact Or.inr ⟨q, List.mem_cons_self _ _, hq.1, h1.symm⟩
        · exact Or.inr ⟨p, List.mem_cons_of_mem _ hp, hp2, hp3⟩
      · intro p hp hp2
        rcases List.mem_cons.mp hp with hp | hp
        · rw [hp]; exact h2
        · exact h3 p hp hp2
    · rw [if_neg hq]
      have := ih d0
      simp only at this
      obtain ⟨h1, h2, h3⟩ := this
      refine ⟨?_, h2, ?_⟩
      · rcases h1 with h1 | ⟨p, hp, hp2, hp3⟩
        · exact Or.inl h1
        · exact Or.inr ⟨p, List.mem_cons_of_mem _ hp, hp2, hp3⟩
      · intro p hp hp2
        rcases List.mem_cons.mp hp with hp | hp
        · rw [hp]
          by_cases hgt : q.1 > d0
          · exact absurd ⟨hp ▸ hp2, hgt⟩ hq
          · exact le_trans (not_lt.mp hgt) h2
        · exact h3 p hp hp2

/-- On a sorted map with non-negative keys, `getDegree` is the greatest exponent with a non-zero
coefficient, and `0` when there is none. -/
theorem getDegree_spec (m : CoeffMap) (hs : Sorted m) (hn : NonNegKeys m) :
    ((∃ k, get m k ≠ 0) →
      get m (getDegree m) ≠ 0 ∧ ∀ k, get m k ≠ 0 → k ≤ getDegree m) ∧
    ((∀ k, get m k = 0) → getDegree m = 0) := by
  have hf := degree_fold m 0
  simp only at hf
  obtain ⟨h1, h2, h3⟩ := hf
  have hub : ∀ k, get m k ≠ 0 → k ≤ getDegree m := by
    intro k hk
    obtain ⟨v, hv, hm⟩ := (get_ne_zero_iff k m hs).mp hk
    exact h3 (k, v) hm hv
  refine ⟨?_, ?_⟩
  · rintro ⟨k, hk⟩
    refine ⟨?_, hub⟩
    rcases h1 with h1 | ⟨p, hp, hp2, hp3⟩
    · have hk0 : k = 0 := by
        obtain ⟨v, hv, hm⟩ := (get_ne_zero_iff k m hs).mp hk
        have hle : k ≤ 0 := by
          have := hub k hk
          unfold getDegree at this
          rw [h1] at this
          exact this
        exact le_antisymm hle (hn (k, v) hm)
      have hd : getDegree m = 0 := h1
      rw [hd, ← hk0]
      exact hk
    · have hd : getDegree m = p.1 := hp3.symm
      rw [hd]
      exact (get_ne_zero_iff p.1 m hs).mpr ⟨p.2, hp2, hp⟩
  · intro hall
    rcases h1 with h1 | ⟨p, hp, hp2, _⟩
    · exact h1
    · exact absurd (hall p.1) ((get_ne_zero_iff p.1 m hs).mpr ⟨p.2, hp2, hp⟩)

theorem getDegree_nonneg (m : CoeffMap) : 0 ≤ getDegree m := (degree_fold m 0).2.1

/-- On sorted maps with non-negative keys the degree depends on the coefficients only, not on
which zero entries are stored. -/
theorem getDegree_congr (m m1 : CoeffMap) (hs : Sorted m) (hn : NonNegKeys m)
    (hs1 : Sorted m1) (hn1 : NonNegKeys m1) (h : ∀ k, get m1 k = get m k) :
    getDegree m1 = getDegree m := by
  have a := getDegree_spec m hs hn
  have b := getDegree_spec m1 hs1 hn1
  by_cases hz : ∃ k, get m k ≠ 0
  · obtain ⟨k, hk⟩ := hz
    have a1 := a.1 ⟨k, hk⟩
    have b1 := b.1 ⟨k, by rw [h]; exact hk⟩
    apply le_antisymm
    · exact a1.2 _ (by rw [← h]; exact b1.1)
    · exact b1.2 _ (by rw [h]; exact a1.1)
  · have hall : ∀ k, get m k = 0 := fun k => by
      by_contra hne
      exact hz ⟨k, hne⟩
    rw [a.2 hall, b.2 (fun k => by rw [h]; exact hall k)]

/-! ## The display loop -/

theorem touch_sorted (m : CoeffMap) (k : Int) (h : Sorted m) : Sorted (touch m k) := by
  unfold touch
  cases find? m k with
  | some v => exact h
  | none => exact insert_sorted k 0 m h

theorem touch_nonNegKeys (m : CoeffMap) (k : Int) (hk : 0 ≤ k) (h : NonNegKeys m) :
    NonNegKeys (touch m k) := by
  unfold touch
  cases find? m k with
  | some v => exact h
  | none => exact insert_nonNegKeys k 0 m hk h

theorem displayBody_coefficients (i : Int) (st : DisplayState) :
    (displayBody i st).coefficients = touch st.coefficients i := by
  unfold displayBody
  simp only
  split <;> rfl

theorem wrapInt32_le (n : Int) : wrapInt32 n ≤ 2147483647 := by
  unfold wrapInt32
  omega

theorem wrapInt32_succ (i : Int) (h0 : 0 ≤ i) (h1 : i < 2147483647) :
    wrapInt32 (i + 1) = i + 1 := by
  unfold wrapInt32
  omega

/-- With `maxDegree = INT_MAX` the test `i <= maxDegree` holds for every `int`: the display loop
has no exit. -/
theorem displayLoop_int_max :
    ∀ (fuel : Nat) (i : Int) (st : DisplayState), i ≤ 2147483647 →
      displayLoop 2147483647 fuel i st = none := by
  intro fuel
  induction fuel with
  | zero => intro i st _; rfl
  | succ n ih =>
    intro i st hi
    simp only [displayLoop, if_pos hi]
    exact ih _ _ (wrapInt32_le _)

/-- Below `INT_MAX` the display loop ends within `maxDegree + 2` rounds; it changes no coefficient
and keeps the map sorted with non-negative keys. -/
theorem displayLoop_terminates (md : Int) (hmd : md < 2147483647) :
    ∀ (n fuel : Nat) (i : Int) (st : DisplayState), 0 ≤ i → md + 1 - i ≤ n → n < fuel →
      ∃ st1, displayLoop md fuel i st = some st1 ∧
        (∀ k, get st1.coefficients k = get st.coefficients k) ∧
        (Sorted st.coefficients → Sorted st1.coefficients) ∧
        (NonNegKeys st.coefficients → NonNegKeys st1.coefficients) := by
  intro n
  induction n with
  | zero =>
    intro fuel i st _ h1 h2
    obtain ⟨f, rfl⟩ : ∃ f, fuel = f + 1 := ⟨fuel - 1, by omega⟩
    have : ¬ i ≤ md := by omega
    exact ⟨st, by simp only [displayLoop, if_neg this], fun _ => rfl, id, id⟩
  | succ n ih =>
    intro fuel i st h0 h1 h2
    obtain ⟨f, rfl⟩ : ∃ f, fuel = f + 1 := ⟨fuel - 1, by omega⟩
    by_cases hi : i ≤ md
    · simp only [displayLoop, if_pos hi]
      rw [wrapInt32_succ i h0 (by omega)]
      obtain ⟨st1, e, hg, hs, hn⟩ :=
        ih f (i + 1) (displayBody i st) (by omega) (by omega) (by omega)
      refine ⟨st1, e, ?_, ?_, ?_⟩
      · intro k
        rw [hg, displayBody_coefficients, get_touch]
      · intro h
        exact hs (by rw [displayBody_coefficients]; exact touch_sorted _ _ h)
      · intro h
        exact hn (by rw [displayBody_coefficients]; exact touch_nonNegKeys _ _ h0 h)
    · exact ⟨st, by simp only [displayLoop, if_neg hi], fun _ => rfl, id, id⟩

theorem displayReducedForm_terminates (m : CoeffMap) (hmd : getDegree m < 2147483647)
    (hs : Sorted m) (hn : NonNegKeys m) :
    ∃ out m1, displayReducedForm ((getDegree m).toNat + 2) m = some (out, m1) ∧
      (∀ k, get m1 k = get m k) ∧ Sorted m1 ∧ NonNegKeys m1 := by
  have h0 := getDegree_nonneg m
  obtain ⟨st1, e, hg, hs1, hn1⟩ :=
    displayLoop_terminates (getDegree m) hmd ((getDegree m).toNat + 1)
      ((getDegree m).toNat + 2) 0
      { out := [.str "Reduced form: "], first := true, hasNonZero := false, coefficients := m }
      (le_refl 0) (by push_cast; omega) (by omega)
  unfold displayReducedForm
  simp only
  have hmx : maxDegree m = getDegree m := rfl
  rw [hmx, e]
  exact ⟨_, _, rfl, hg, hs1 hs, hn1 hn⟩

/-- Degree above 2 and below `INT_MAX`: `solve` ends, printing the reduced form, the degree and
the refusal, and nothing else. -/
theorem solve_degree_gt_two (rnd : ℚ → ℚ) (equation : Str) (m0 m : CoeffMap)
    (h : parseEquation rnd equation m0 = .ok m) (h2 : 2 < getDegree m)
    (hmax : getDegree m < 2147483647) :
    ∃ out m1, displayReducedForm ((getDegree m).toNat + 2) m = some (out, m1) ∧
      solve rnd ((getDegree m).toNat + 2) equation m0 =
        some (.ok (out ++ [.str "Polynomial degree: ", .int (getDegree m), .endl,
          .str "The polynomial degree is strictly greater than 2, I can't solve.", .endl],
          m1)) := by
  have hi := parseEquation_invariant rnd equation m0 m h
  obtain ⟨out, m1, e, hg, hs1, hn1⟩ := displayReducedForm_terminates m hmax hi.1 hi.2
  have hd : getDegree m1 = getDegree m := getDegree_congr m m1 hi.1 hi.2 hs1 hn1 hg
  refine ⟨out, m1, e, ?_⟩
  unfold solve
  rw [h]
  simp only
  rw [e]
  simp only [dispatch, hd, if_pos h2]
  rfl

/-! ## Sums over term texts -/

theorem termValues_ok (rnd : ℚ → ℚ) :
    ∀ (ts : List Str) (vs : List (ℚ × Int)), termValues rnd ts = .ok vs →
      (∀ t ∈ ts, ∃ v, termValue rnd t = .ok v) ∧
      ∀ k, coeffSum vs k = (ts.map (contribution rnd k)).sum := by
  intro ts
  induction ts with
  | nil =>
    intro vs h
    cases h
    exact ⟨by simp, fun k => by simp [coeffSum]⟩
  | cons t ts ih =>
    intro vs h
    simp only [termValues] at h
    cases hv : termValue rnd t with
    | error e => rw [hv] at h; cases h
    | ok v =>
      rw [hv] at h
      simp only at h
      cases hvs : termValues rnd ts with
      | error e => rw [hvs] at h; cases h
      | ok vs1 =>
        rw [hvs] at h
        cases h
        obtain ⟨h1, h2⟩ := ih vs1 hvs
        refine ⟨?_, ?_⟩
        · intro t1 ht1
          rcases List.mem_cons.mp ht1 with e | e
          · exact ⟨v, by rw [e]; exact hv⟩
          · exact h1 t1 e
        · intro k
          rw [coeffSum_cons, h2 k, List.map_cons, List.sum_cons]
          simp only [contribution, hv]

theorem termValues_of_all_ok (rnd : ℚ → ℚ) :
    ∀ (ts : List Str), (∀ t ∈ ts, ∃ v, termValue rnd t = .ok v) →
      ∃ vs, termValues rnd ts = .ok vs := by
  intro ts
  induction ts with
  | nil => intro _; exact ⟨[], rfl⟩
  | cons t ts ih =>
    intro h
    obtain ⟨v, hv⟩ := h t (List.mem_cons_self t ts)
    obtain ⟨vs, hvs⟩ := ih (fun t1 ht1 => h t1 (List.mem_cons_of_mem t ht1))
    exact ⟨v :: vs, by simp only [termValues, hv, hvs]⟩

/-- Recognition of a permuted term sequence: it succeeds too, with the same sum at every
exponent. -/
theorem termValues_perm (rnd : ℚ → ℚ) (ts1 ts2 : List Str) (vs1 : List (ℚ × Int))
    (hp : ts2.Perm ts1) (h : termValues rnd ts1 = .ok vs1) :
    ∃ vs2, termValues rnd ts2 = .ok vs2 ∧ ∀ k, coeffSum vs2 k = coeffSum vs1 k := by
  obtain ⟨hall, hsum⟩ := termValues_ok rnd ts1 vs1 h
  obtain ⟨vs2, h2⟩ := termValues_of_all_ok rnd ts2 (fun t ht => hall t (hp.mem_iff.mp ht))
  refine ⟨vs2, h2, fun k => ?_⟩
  rw [(termValues_ok rnd ts2 vs2 h2).2 k, hsum k]
  exact (hp.map (contribution rnd k)).sum_eq

/-- A successful `parseEquation` has split the text in two sides, recognised the terms of both,
and accumulated the left pairs and then the negated right pairs from the empty map. -/
theorem parseEquation_ok (rnd : ℚ → ℚ) (equation : Str) (m0 m : CoeffMap)
    (h : parseEquation rnd equation m0 = .ok m) :
    (split equation '=').length = 2 ∧
    ∃ lhs rhs : List (ℚ × Int),
      termValues rnd (sideTerms ((split equation '=').getD 0 [])) = .ok lhs ∧
      termValues rnd (sideTerms ((split equation '=').getD 1 [])) = .ok rhs ∧
      m = accumulate rnd true rhs (accumulate rnd false lhs []) := by
  unfold parseEquation at h
  simp only at h
  split at h
  · cases h
  · rename_i hlen
    refine ⟨not_not.mp hlen, ?_⟩
    cases hl : parseSide rnd ((split equation '=').getD 0 []) false [] with
    | error e => rw [hl] at h; cases h
    | ok m1 =>
      rw [hl] at h
      simp only at h
      rw [parseSide_eq_parseTerms, parseTerms_eq_accumulate _ _ _ _ (sideTerms_clean _)] at hl h
      cases hlv : termValues rnd (sideTerms ((split equation '=').getD 0 [])) with
      | error e => rw [hlv] at hl; cases hl
      | ok lhs =>
        cases hrv : termValues rnd (sideTerms ((split equation '=').getD 1 [])) with
        | error e => rw [hrv] at h; cases h
        | ok rhs =>
          rw [hlv] at hl
          rw [hrv] at h
          cases hl
          cases h
          exact ⟨lhs, rhs, rfl, rfl, rfl⟩

/-- Recognisable sides of a two-sided text parse: the left pairs and then the negated right pairs
are accumulated from the empty map. -/
theorem parseEquation_of_termValues (rnd : ℚ → ℚ) (equation : Str) (m0 : CoeffMap)
    (lhs rhs : List (ℚ × Int)) (hlen : (split equation '=').length = 2)
    (hl : termValues rnd (sideTerms ((split equation '=').getD 0 [])) = .ok lhs)
    (hr : termValues rnd (sideTerms ((split equation '=').getD 1 [])) = .ok rhs) :
    parseEquation rnd equation m0 =
      .ok (accumulate rnd true rhs (accumulate rnd false lhs [])) := by
  unfold parseEquation
  simp only [hlen, ne_eq, not_true_eq_false, if_false]
  rw [parseSide_eq_parseTerms, parseTerms_eq_accumulate _ _ _ _ (sideTerms_clean _), hl]
  simp only
  rw [parseSide_eq_parseTerms, parseTerms_eq_accumulate _ _ _ _ (sideTerms_clean _), hr]

theorem accumulate_append (rnd : ℚ → ℚ) (isRight : Bool) (b : List (ℚ × Int)) :
    ∀ (a : List (ℚ × Int)) (m : CoeffMap),
      accumulate rnd isRight (a ++ b) m = accumulate rnd isRight b (accumulate rnd isRight a m) := by
  intro a
  induction a with
  | nil => intro m; rfl
  | cons x xs ih => intro m; rw [List.cons_append, accumulate, accumulate, ih]

theorem termValues_snoc (rnd : ℚ → ℚ) (t : Str) (v : ℚ × Int) (hv : termValue rnd t = .ok v) :
    ∀ (a : List Str) (vs : List (ℚ × Int)), termValues rnd a = .ok vs →
      termValues rnd (a ++ [t]) = .ok (vs ++ [v]) := by
  intro a
  induction a with
  | nil =>
    intro vs h
    cases h
    simp only [List.nil_append, termValues, hv]
  | cons x xs ih =>
    intro vs h
    simp only [termValues] at h
    cases hx : termValue rnd x with
    | error e => rw [hx] at h; cases h
    | ok vx =>
      rw [hx] at h
      simp only at h
      cases hxs : termValues rnd xs with
      | error e => rw [hxs] at h; cases h
      | ok vxs =>
        rw [hxs] at h
        cases h
        rw [List.cons_append, termValues, hx]
        simp only
        rw [ih vxs hxs]
        rfl

theorem accumulate_rounded (rnd : ℚ → ℚ) (hidem : ∀ x, rnd (rnd x) = rnd x) (isRight : Bool) :
    ∀ (vs : List (ℚ × Int)) (m : CoeffMap), Rounded rnd m →
      Rounded rnd (accumulate rnd isRight vs m) := by
  intro vs
  induction vs with
  | nil => intro m h; exact h
  | cons t ts ih =>
    intro m h
    rw [accumulate]
    apply ih
    intro k
    rw [get_insert]
    by_cases hk : t.2 = k
    · simp only [hk, if_true, hidem]
    · simp only [hk, if_false, h k]

theorem insert_same (k : Int) (v : ℚ) :
    ∀ m : CoeffMap, Sorted m → find? m k = some v → insert k v m = m := by
  intro m
  induction m with
  | nil => intro _ h; simp [find?] at h
  | cons q rest ih =>
    obtain ⟨k1, v1⟩ := q
    intro hs h
    have hmem := (find?_eq_some_iff_mem k v _ hs).mp h
    unfold Sorted at hs
    rw [List.pairwise_cons] at hs
    simp only [find?] at h
    by_cases h1 : k1 = k
    · subst h1
      simp only [if_true, Option.some.injEq] at h
      subst h
      simp only [insert, lt_self_iff_false, if_false, if_true]
    · simp only [h1, if_false] at h
      have hlt : k1 < k := by
        rcases List.mem_cons.mp hmem with e | e
        · exact absurd (Prod.mk.inj e).1.symm h1
        · exact hs.1 _ e
      have h2 : ¬ k < k1 := not_lt.mpr (le_of_lt hlt)
      have h3 : ¬ k = k1 := fun e => h1 e.symm
      simp only [insert, h2, h3, if_false]
      rw [ih hs.2 h]

theorem insert_get_eq_touch (k : Int) (m : CoeffMap) (hs : Sorted m) :
    insert k (get m k) m = touch m k := by
  unfold get touch
  cases hf : find? m k with
  | none => rfl
  | some v => exact insert_same k v m hs hf

theorem touch_of_find (m : CoeffMap) (k : Int) (v : ℚ) (h : find? m k = some v) :
    touch m k = m := by
  unfold touch
  rw [h]

theorem touch_touch (m : CoeffMap) (k : Int) : touch (touch m k) k = touch m k := by
  have h : ∃ v, find? (touch m k) k = some v := by
    unfold touch
    cases hf : find? m k with
    | some v => exact ⟨v, hf⟩
    | none => exact ⟨0, by simp only [find?_insert, if_true]⟩
  obtain ⟨v, hv⟩ := h
  exact touch_of_find (touch m k) k v hv

/-- Showing a map and showing it after `coefficients[0]` was touched is the same: the first round
of the display loop touches key 0 anyway. -/
theorem displayReducedForm_touch_zero (fuel : Nat) (m : CoeffMap) (hs : Sorted m)
    (hn : NonNegKeys m) : displayReducedForm fuel (touch m 0) = displayReducedForm fuel m := by
  have hd : maxDegree (touch m 0) = maxDegree m :=
    getDegree_congr m (touch m 0) hs hn (touch_sorted m 0 hs)
      (touch_nonNegKeys m 0 (le_refl 0) hn) (fun k => get_touch m 0 k)
  have h0 : (0 : Int) ≤ maxDegree m := getDegree_nonneg m
  unfold displayReducedForm
  simp only [hd]
  cases fuel with
  | zero => rfl
  | succ n =>
    have hb : displayBody 0
        { out := [.str "Reduced form: "], first := true, hasNonZero := false,
          coefficients := touch m 0 } =
      displayBody 0
        { out := [.str "Reduced form: "], first := true, hasNonZero := false,
          coefficients := m } := by
      unfold displayBody
      simp only [get_touch, touch_touch]
    simp only [displayLoop, h0, if_true, hb]

/-- Two equations whose maps differ by a touch of key 0 are solved alike. -/
theorem solve_touch_zero (rnd : ℚ → ℚ) (fuel : Nat) (e1 e2 : Str) (m0 m0' m1 : CoeffMap)
    (h1 : parseEquation rnd e1 m0 = .ok m1)
    (h2 : parseEquation rnd e2 m0' = .ok (touch m1 0)) :
    solve rnd fuel e2 m0' = solve rnd fuel e1 m0 := by
  have hi := parseEquation_invariant rnd e1 m0 m1 h1
  unfold solve
  rw [h1, h2]
  simp only
  rw [displayReducedForm_touch_zero fuel m1 hi.1 hi.2]

/-- In exact arithmetic, recognisable sides of a two-sided text parse to left sum minus right
sum. -/
theorem parseEquation_exact_of_termValues (equation : Str) (m0 : CoeffMap)
    (lhs rhs : List (ℚ × Int)) (hlen : (split equation '=').length = 2)
    (hl : termValues id (sideTerms ((split equation '=').getD 0 [])) = .ok lhs)
    (hr : termValues id (sideTerms ((split equation '=').getD 1 [])) = .ok rhs) :
    ∃ m, parseEquation id equation m0 = .ok m ∧
      ∀ k, get m k = coeffSum lhs k - coeffSum rhs k := by
  refine ⟨accumulate id true rhs (accumulate id false lhs []),
    parseEquation_of_termValues id equation m0 lhs rhs hlen hl hr, ?_⟩
  · intro k
    rw [get_accumulate_exact, get_accumulate_exact]
    simp [get, find?]
    ring

/-! ## The zero polynomial -/

/-- When every coefficient is zero, `solve` prints the placeholder, degree 0 and 'Any real number
is a solution.', with any fuel from 2 on and any rounding. -/
theorem solve_zero_polynomial (rnd : ℚ → ℚ) (equation : Str) (m0 m : CoeffMap)
    (h : parseEquation rnd equation m0 = .ok m) (hz : ∀ k, get m k = 0) (fuel : Nat) :
    solve rnd (2 + fuel) equation m0 =
      some (.ok ([.str "Reduced form: ", .str "0 * X^0", .str " = 0", .endl,
        .str "Polynomial degree: ", .int 0, .endl,
        .str "Any real number is a solution.", .endl], touch (touch m 0) 0)) := by
  have hi := parseEquation_invariant rnd equation m0 m h
  have hd : getDegree m = 0 := (getDegree_spec m hi.1 hi.2).2 hz
  have hd1 : getDegree (touch m 0) = 0 := by
    rw [getDegree_congr m (touch m 0) hi.1 hi.2 (touch_sorted m 0 hi.1)
      (touch_nonNegKeys m 0 (le_refl 0) hi.2) (fun k => get_touch m 0 k)]
    exact hd
  have hmx : maxDegree m = 0 := hd
  have hdisp : displayReducedForm 2 m =
      some ([.str "Reduced form: ", .str "0 * X^0", .str " = 0", .endl], touch m 0) := by
    unfold displayReducedForm
    simp only [hmx, displayLoop, le_refl, if_true, displayBody, hz 0, ne_eq, not_true_eq_false,
      if_false]
    have : ¬ wrapInt32 (0 + 1) ≤ 0 := by decide
    simp only [this, if_false]
    rfl
  have hsolve : solve rnd 2 equation m0 =
      some (.ok ([.str "Reduced form: ", .str "0 * X^0", .str " = 0", .endl,
        .str "Polynomial degree: ", .int 0, .endl,
        .str "Any real number is a solution.", .endl], touch (touch m 0) 0)) := by
    unfold solve
    rw [h]
    simp only
    rw [hdisp]
    simp only [dispatch, hd1, solveDegree0, get_touch, hz 0]
    rfl
  exact solve_mono rnd fuel 2 equation m0 _ hsolve

/-! ## A leading minus -/

theorem strtodRange_zero : strtodRange 0 = false := by decide!

theorem stod_zero (rnd : ℚ → ℚ) : stod rnd ['0'] = .ok (rnd 0) := by
  have h : ((digitsVal ['0'] : ℕ) : ℚ) + mkRat (digitsVal []) (10 ^ ([] : Str).length) = 0 := by
    decide!
  have h1 : stod rnd ['0'] =
      if strtodRange
          (((digitsVal ['0'] : ℕ) : ℚ) + mkRat (digitsVal []) (10 ^ ([] : Str).length)) then
        .error (.outOfRange "stod")
      else
        .ok (rnd (((digitsVal ['0'] : ℕ) : ℚ) + mkRat (digitsVal []) (10 ^ ([] : Str).length))) :=
    rfl
  rw [h1, h, strtodRange_zero]
  rfl

theorem stodDigits_neg (rnd : ℚ → ℚ) (hodd : ∀ x, rnd (-x) = -rnd x) (g : Str) :
    stodDigits rnd true g =
      match stodDigits rnd false g with
      | .ok x => .ok (-x)
      | .error e => .error e := by
  unfold stodDigits
  simp only [if_true, Bool.false_eq_true, if_false]
  split_ifs <;> simp only [hodd]

theorem stod_unsigned (rnd : ℚ → ℚ) (g : Str)
    (hg : ∀ c ∈ g, isspace c = false ∧ c ≠ '+' ∧ c ≠ '-') :
    stod rnd g = stodDigits rnd false g ∧ stod rnd ('-' :: g) = stodDigits rnd true g := by
  cases g with
  | nil => exact ⟨rfl, rfl⟩
  | cons c cs =>
    obtain ⟨h1, h2, h3⟩ := hg c (List.mem_cons_self c cs)
    have e1 : (some c == some '-') = false := by simpa using h3
    have e2 : (some c == some '+') = false := by simpa using h2
    have e3 : isspace '-' = false := by decide
    have e4 : (some '-' == some '-') = true := by decide
    constructor
    · unfold stod
      simp only [List.dropWhile_cons, h1, List.head?_cons, e1, e2, Bool.or_self,
        Bool.false_eq_true, if_false]
    · unfold stod
      simp only [List.dropWhile_cons, e3, List.head?_cons, e4, Bool.true_or,
        Bool.false_eq_true, if_false, if_true, List.tail_cons]

theorem stod_minus (rnd : ℚ → ℚ) (hodd : ∀ x, rnd (-x) = -rnd x) (g : Str)
    (hg : ∀ c ∈ g, isspace c = false ∧ c ≠ '+' ∧ c ≠ '-') :
    stod rnd ('-' :: g) =
      match stod rnd g with
      | .ok x => .ok (-x)
      | .error e => .error e := by
  rw [(stod_unsigned rnd g hg).1, (stod_unsigned rnd g hg).2]
  exact stodDigits_neg rnd hodd g


theorem starSplits_append (p : Char → Bool) :
    ∀ (s : Str) (x : Str × Str), x ∈ starSplits p s → x.1 ++ x.2 = s := by
  intro s
  induction s with
  | nil => intro x hx; simp only [starSplits, List.mem_singleton] at hx; rw [hx]; rfl
  | cons c cs ih =>
    intro x hx
    simp only [starSplits] at hx
    split at hx
    · rcases List.mem_append.mp hx with h | h
      · obtain ⟨y, hy, rfl⟩ := List.mem_map.mp h
        simp only [List.cons_append, ih y hy]
      · simp only [List.mem_singleton] at h; rw [h]; rfl
    · simp only [List.mem_singleton] at hx; rw [hx]; rfl

theorem splits_append (a : Atom) (s : Str) (x : Str × Str) (hx : x ∈ a.splits s) :
    x.1 ++ x.2 = s := by
  cases a with
  | one p =>
    cases s with
    | nil => simp [Atom.splits] at hx
    | cons c cs =>
      simp only [Atom.splits] at hx
      split at hx
      · simp only [List.mem_singleton] at hx; rw [hx]; rfl
      · simp at hx
  | opt p =>
    cases s with
    | nil => simp only [Atom.splits, List.mem_singleton] at hx; rw [hx]; rfl
    | cons c cs =>
      simp only [Atom.splits] at hx
      split at hx
      · simp only [List.mem_cons, List.mem_singleton, List.not_mem_nil, or_false] at hx
        rcases hx with h | h <;> rw [h] <;> rfl
      · simp only [List.mem_singleton] at hx; rw [hx]; rfl
  | star p => exact starSplits_append p s x hx
  | plus p =>
    cases s with
    | nil => simp [Atom.splits] at hx
    | cons c cs =>
      simp only [Atom.splits] at hx
      split at hx
      · obtain ⟨y, hy, rfl⟩ := List.mem_map.mp hx
        simp only [List.cons_append, starSplits_append p cs y hy]
      · simp at hx

/-- The texts consumed by the atoms of a match make up the matched text. -/
theorem matchAtoms_flatten :
    ∀ (atoms : List Atom) (s : Str) (l : List Str), matchAtoms atoms s = some l →
      l.flatten = s := by
  intro atoms
  induction atoms with
  | nil =>
    intro s l h
    simp only [matchAtoms] at h
    split at h
    · cases h
      rename_i hs
      simpa using hs.symm
    · cases h
  | cons a as ih =>
    intro s l h
    simp only [matchAtoms] at h
    obtain ⟨x, hx, hm⟩ := List.exists_of_findSome?_eq_some h
    cases hr : matchAtoms as x.2 with
    | none => rw [hr] at hm; cases hm
    | some l1 =>
      rw [hr] at hm
      cases hm
      rw [List.flatten_cons, ih x.2 l1 hr]
      exact splits_append a s x hx

theorem matchTerm_mem (u g p : Str) (h : matchTerm u = some (g, p)) : ∀ c ∈ g, c ∈ u := by
  unfold matchTerm at h
  cases hm : matchAtoms termRegex u with
  | none => rw [hm] at h; cases h
  | some l =>
    rw [hm] at h
    simp only [Option.map_some', Option.some.injEq, Prod.mk.injEq] at h
    intro c hc
    rw [← matchAtoms_flatten termRegex u l hm, ← List.take_append_drop 5 l, List.flatten_append]
    exact List.mem_append_left _ (by rw [h.1]; exact hc)

theorem matchAtoms_opt_miss (p : Char → Bool) (R : List Atom) (c : Char) (cs : Str)
    (hc : p c = false) :
    matchAtoms (Atom.opt p :: R) (c :: cs) = (matchAtoms R (c :: cs)).map (fun l => [] :: l) := by
  rw [matchAtoms]
  simp only [Atom.splits, hc, Bool.false_eq_true, if_false, List.findSome?]
  cases matchAtoms R (c :: cs) <;> rfl

theorem matchAtoms_opt_hit (p : Char → Bool) (R : List Atom) (c : Char) (cs : Str)
    (hc : p c = true) (hn : matchAtoms R (c :: cs) = none) :
    matchAtoms (Atom.opt p :: R) (c :: cs) = (matchAtoms R cs).map (fun l => [c] :: l) := by
  rw [matchAtoms]
  simp only [Atom.splits, hc, if_true, List.findSome?, hn]
  cases matchAtoms R cs <;> rfl

theorem matchTerm_minus (c : Char) (cs : Str) (hc : isSign c = false) :
    matchTerm ('-' :: c :: cs) = (matchTerm (c :: cs)).map (fun p => ('-' :: p.1, p.2)) := by
  have hn : matchAtoms termRegex.tail ('-' :: c :: cs) = none := rfl
  have h1 : matchAtoms termRegex (c :: cs) =
      (matchAtoms termRegex.tail (c :: cs)).map (fun l => [] :: l) :=
    matchAtoms_opt_miss isSign termRegex.tail c cs hc
  have h2 : matchAtoms termRegex ('-' :: c :: cs) =
      (matchAtoms termRegex.tail (c :: cs)).map (fun l => ['-'] :: l) :=
    matchAtoms_opt_hit isSign termRegex.tail '-' (c :: cs) (by decide) hn
  unfold matchTerm
  rw [h1, h2]
  cases matchAtoms termRegex.tail (c :: cs) with
  | none => rfl
  | some l => rfl

theorem matchConstant_minus (c : Char) (cs : Str) (hc : isSign c = false) :
    (matchAtoms constantRegex ('-' :: c :: cs)).isSome =
      (matchAtoms constantRegex (c :: cs)).isSome := by
  have hn : matchAtoms constantRegex.tail ('-' :: c :: cs) = none := rfl
  have h1 : matchAtoms constantRegex (c :: cs) =
      (matchAtoms constantRegex.tail (c :: cs)).map (fun l => [] :: l) :=
    matchAtoms_opt_miss isSign constantRegex.tail c cs hc
  have h2 : matchAtoms constantRegex ('-' :: c :: cs) =
      (matchAtoms constantRegex.tail (c :: cs)).map (fun l => ['-'] :: l) :=
    matchAtoms_opt_hit isSign constantRegex.tail '-' (c :: cs) (by decide) hn
  rw [h1, h2]
  cases matchAtoms constantRegex.tail (c :: cs) <;> rfl


/-- A recognised term without sign or whitespace is recognised with a leading `-` too, with the
opposite coefficient and the same power (the rounding being odd). -/
theorem termValue_minus (rnd : ℚ → ℚ) (hodd : ∀ x, rnd (-x) = -rnd x) (u : Str)
    (hu : ∀ c ∈ u, isspace c = false ∧ c ≠ '+' ∧ c ≠ '-') (hne : u ≠ []) (v : ℚ × Int)
    (h : termValue rnd u = .ok v) : termValue rnd ('-' :: u) = .ok (-v.1, v.2) := by
  obtain ⟨c, cs, rfl⟩ : ∃ c cs, u = c :: cs := by
    cases u with
    | nil => exact absurd rfl hne
    | cons c cs => exact ⟨c, cs, rfl⟩
  have hc : isSign c = false := by
    have := hu c (List.mem_cons_self c cs)
    simp [isSign, this.2.1, this.2.2]
  unfold termValue at h ⊢
  rw [matchTerm_minus c cs hc]
  cases hm : matchTerm (c :: cs) with
  | none =>
    rw [hm] at h
    simp only [Option.map_none'] at h ⊢
    rw [matchConstant_minus c cs hc]
    split at h
    · rename_i hsome
      rw [if_pos hsome, stod_minus rnd hodd (c :: cs) hu]
      cases hs : stod rnd (c :: cs) with
      | error e => rw [hs] at h; cases h
      | ok x => rw [hs] at h; cases h; rfl
    · cases h
  | some gp =>
    obtain ⟨g, p⟩ := gp
    rw [hm] at h
    simp only [Option.map_some'] at h ⊢
    have hgm := matchTerm_mem (c :: cs) g p hm
    have hg : ∀ x ∈ g, isspace x = false ∧ x ≠ '+' ∧ x ≠ '-' := fun x hx => hu x (hgm x hx)
    cases g with
    | nil =>
      have t1 : trim ([] : Str) = [] := rfl
      have t2 : trim ['-'] = ['-'] := by decide
      rw [t1] at h
      rw [t2]
      simp only [true_or, if_true] at h
      have n1 : ¬ ((['-'] : Str) = [] ∨ (['-'] : Str) = ['+']) := by decide
      simp only [n1, if_false, if_true]
      cases hp : stoi p with
      | error e => rw [hp] at h; cases h
      | ok power => rw [hp] at h; cases h; rfl
    | cons d ds =>
      have hd := hg d (List.mem_cons_self d ds)
      have c1 : Clean (d :: ds) := ⟨by simp, fun x hx => (hg x hx).1⟩
      have c2 : Clean ('-' :: d :: ds) := by
        refine ⟨by simp, fun x hx => ?_⟩
        rcases List.mem_cons.mp hx with e | e
        · rw [e]; decide
        · exact (hg x e).1
      rw [trim_clean _ c1] at h
      rw [trim_clean _ c2]
      have n1 : ¬ (d :: ds = [] ∨ d :: ds = ['+']) := by
        rintro (e | e)
        · cases e
        · exact hd.2.1 (List.cons.inj e).1
      have n2 : ¬ (d :: ds = ['-']) := fun e => hd.2.2 (List.cons.inj e).1
      have n3 : ¬ ('-' :: d :: ds = [] ∨ '-' :: d :: ds = ['+']) := by
        rintro (e | e)
        · cases e
        · exact absurd (List.cons.inj e).1 (by decide)
      have n4 : ¬ ('-' :: d :: ds = ['-']) := fun e => by
        have := (List.cons.inj e).2
        cases this
      simp only [n1, n2, if_false] at h
      simp only [n3, n4, if_false]
      rw [stod_minus rnd hodd (d :: ds) hg]
      cases hs : stod rnd (d :: ds) with
      | error e => rw [hs] at h; cases h
      | ok x =>
        rw [hs] at h
        simp only at h ⊢
        cases hp : stoi p with
        | error e => rw [hp] at h; cases h
        | ok power => rw [hp] at h; cases h; rfl


theorem termValue_zero (rnd : ℚ → ℚ) : termValue rnd ['0'] = .ok (rnd 0, 0) := by
  have h1 : matchTerm ['0'] = none := by decide
  have h2 : (matchAtoms constantRegex ['0']).isSome = true := by decide
  unfold termValue
  rw [h1]
  simp only [h2, if_true, stod_zero]

theorem rnd_zero (rnd : ℚ → ℚ) (hodd : ∀ x, rnd (-x) = -rnd x) : rnd 0 = 0 := by
  have h := hodd 0
  rw [neg_zero] at h
  linarith

/-! ## Sides built by concatenation -/

theorem mem_wordsFrom :
    ∀ (s w w1 : Str), w1 ∈ wordsFrom s w → ∀ c ∈ w1, c ∈ s ∨ c ∈ w := by
  intro s
  induction s with
  | nil =>
    intro w w1 h c hc
    simp only [wordsFrom] at h
    split at h
    · simp at h
    · simp only [List.mem_singleton] at h
      rw [h] at hc
      exact Or.inr hc
  | cons x xs ih =>
    intro w w1 h c hc
    cases hx : isspace x with
    | true =>
      rw [wordsFrom_cons_space x xs w hx] at h
      split at h
      · rcases ih [] w1 h c hc with e | e
        · exact Or.inl (List.mem_cons_of_mem x e)
        · simp at e
      · rcases List.mem_cons.mp h with e | e
        · rw [e] at hc; exact Or.inr hc
        · rcases ih [] w1 e c hc with e1 | e1
          · exact Or.inl (List.mem_cons_of_mem x e1)
          · simp at e1
    | false =>
      rw [wordsFrom_cons_nonspace x xs w hx] at h
      rcases ih (w ++ [x]) w1 h c hc with e | e
      · exact Or.inl (List.mem_cons_of_mem x e)
      · rcases List.mem_append.mp e with e1 | e1
        · exact Or.inr e1
        · simp only [List.mem_singleton] at e1
          rw [e1]
          exact Or.inl (List.mem_cons_self x xs)

theorem termsOf_unsigned :
    ∀ (ws : List Str) (cur : Str), (∀ w ∈ ws, w ≠ ['+'] ∧ w ≠ ['-']) →
      termsOf ws cur = if cur ++ ws.flatten = [] then [] else [cur ++ ws.flatten] := by
  intro ws
  induction ws with
  | nil =>
    intro cur _
    cases cur <;> simp [termsOf]
  | cons w ws ih =>
    intro cur h
    have hw := h w (List.mem_cons_self w ws)
    have hs : (w == ['+'] || w == ['-']) = false := by
      simp [hw.1, hw.2]
    simp only [termsOf, termsStep, hs, Bool.false_eq_true, if_false, List.nil_append]
    rw [ih (cur ++ w) (fun w1 h1 => h w1 (List.mem_cons_of_mem w h1))]
    simp only [List.flatten_cons, List.append_assoc]

theorem termsOf_append_minus (ws : List Str) :
    ∀ (a : List Str) (cur : Str),
      termsOf (a ++ ['-'] :: ws) cur = termsOf a cur ++ termsOf ws ['-'] := by
  intro a
  induction a with
  | nil =>
    intro cur
    simp only [List.nil_append, termsOf, termsStep]
    rfl
  | cons x xs ih =>
    intro cur
    rw [List.cons_append, termsOf, termsOf, ih, List.append_assoc]

/-- The terms of a side without `+` and `-`: its words glued together, if there is any. -/
theorem sideTerms_unsigned (t : Str) (ht : ∀ c ∈ t, c ≠ '+' ∧ c ≠ '-') :
    sideTerms t = if (words t).flatten = [] then [] else [(words t).flatten] := by
  rw [sideTerms_eq, spaced_of_unsigned t ht, termsOf_unsigned (words t) []]
  · rfl
  · intro w hw
    constructor
    · intro e
      rw [e] at hw
      rcases mem_wordsFrom t [] _ hw '+' (List.mem_singleton_self _) with h | h
      · exact (ht '+' h).1 rfl
      · simp at h
    · intro e
      rw [e] at hw
      rcases mem_wordsFrom t [] _ hw '-' (List.mem_singleton_self _) with h | h
      · exact (ht '-' h).2 rfl
      · simp at h

/-- The terms of `L - t` for a side `t` without `+` and `-`: the terms of `L`, then `-` glued to
the words of `t`. -/
theorem sideTerms_minus (L t : Str) (ht : ∀ c ∈ t, c ≠ '+' ∧ c ≠ '-') :
    sideTerms (L ++ [' ', '-', ' '] ++ t ++ [' ']) = sideTerms L ++ ['-' :: (words t).flatten] := by
  have hsp : isspace ' ' = true := by decide
  have hm : isspace '-' = false := by decide
  have hw : words (spaced (L ++ [' ', '-', ' '] ++ t ++ [' '])) =
      words (spaced L) ++ ['-'] :: words t := by
    rw [spaced_append, spaced_append, spaced_append, spaced_of_unsigned t ht]
    have e1 : spaced [' ', '-', ' '] = [' ', ' ', '-', ' ', ' '] := by decide
    have e2 : spaced [' '] = [' '] := by decide
    rw [e1, e2]
    have e3 : spaced L ++ [' ', ' ', '-', ' ', ' '] ++ t ++ [' '] =
        spaced L ++ ' ' :: (' ' :: '-' :: ' ' :: (' ' :: (t ++ [' ']))) := by
      simp
    rw [e3]
    show wordsFrom _ [] = _
    rw [wordsFrom_append_space _ ' ' hsp, words_cons_space ' ' _ hsp]
    show words (spaced L) ++ wordsFrom ('-' :: ' ' :: (' ' :: (t ++ [' ']))) [] = _
    rw [wordsFrom_cons_nonspace '-' _ _ hm, wordsFrom_cons_space ' ' _ _ hsp]
    simp only [List.nil_append, List.isEmpty_cons, Bool.false_eq_true, if_false]
    rw [show wordsFrom (' ' :: (t ++ [' '])) [] = words (t ++ [' ']) from
      words_cons_space ' ' _ hsp]
    rw [show words (t ++ [' ']) = words t from wordsFrom_snoc_space ' ' hsp t []]
  rw [sideTerms_eq, hw, termsOf_append_minus, ← sideTerms_eq, termsOf_unsigned (words t) ['-']]
  · simp
  · intro w hw1
    constructor
    · intro e
      rw [e] at hw1
      rcases mem_wordsFrom t [] _ hw1 '+' (List.mem_singleton_self _) with h | h
      · exact (ht '+' h).1 rfl
      · simp at h
    · intro e
      rw [e] at hw1
      rcases mem_wordsFrom t [] _ hw1 '-' (List.mem_singleton_self _) with h | h
      · exact (ht '-' h).2 rfl
      · simp at h

/-! ## The worked example of the specification -/

/-- C1, refuted as stated: for `5 * X^0 + 4 * X^1 = 4 * X^0` the solver never prints the reduced
form `4 * X^0 + 4 * X^1 = 0` followed by degree 1 and the solution `-1`, whatever the fuel. -/
theorem c1_claimed_output_not_produced :
    ¬ ∃ (fuel : Nat) (m : CoeffMap),
      solve id fuel "5 * X^0 + 4 * X^1 = 4 * X^0".toList [] =
        some (.ok ([.str "Reduced form: ", .dbl 4, .str " * X^", .int 0, .str " + ", .dbl 4,
          .str " * X^", .int 1, .str " = 0", .endl, .str "Polynomial degree: ", .int 1, .endl,
          .str "The solution is:", .endl, .dbl (-1), .endl], m)) := by
  rintro ⟨fuel, m, h⟩
  have h1 := solve_mono id 3 fuel _ _ _ h
  have h2 : solve id 3 "5 * X^0 + 4 * X^1 = 4 * X^0".toList [] =
      some (.ok ([.str "Reduced form: ", .dbl 1, .str " * X^", .int 0, .str " + ", .dbl 4,
          .str " * X^", .int 1, .str " = 0", .endl, .str "Polynomial degree: ", .int 1, .endl,
          .str "The solution is:", .endl, .dbl (-1 / 4), .endl], [(0, 1), (1, 4)])) := by
    decide!
  have h3 := solve_mono id fuel 3 _ _ _ h2
  rw [Nat.add_comm 3 fuel, h1] at h3
  have h4 := (Prod.mk.inj (Except.ok.inj (Option.some.inj h3))).1
  revert h4
  decide!

/-- C1, amended: `5 * X^0 + 4 * X^1 = 4 * X^0` reduces to coefficient 1 at exponent 0 and
coefficient 4 at exponent 1; the solver prints `1 * X^0 + 4 * X^1 = 0`, degree 1 and the solution
`-1/4`, in exact arithmetic and in binary64 alike, with any fuel from 3 on. -/
theorem c1_example_output (fuel : Nat) :
    parseEquation id "5 * X^0 + 4 * X^1 = 4 * X^0".toList [] = .ok [(0, 1), (1, 4)] ∧
    solve id (3 + fuel) "5 * X^0 + 4 * X^1 = 4 * X^0".toList [] =
      some (.ok ([.str "Reduced form: ", .dbl 1, .str " * X^", .int 0, .str " + ", .dbl 4,
          .str " * X^", .int 1, .str " = 0", .endl, .str "Polynomial degree: ", .int 1, .endl,
          .str "The solution is:", .endl, .dbl (-1 / 4), .endl], [(0, 1), (1, 4)])) ∧
    solve binary64 (3 + fuel) "5 * X^0 + 4 * X^1 = 4 * X^0".toList [] =
      solve id (3 + fuel) "5 * X^0 + 4 * X^1 = 4 * X^0".toList [] := by
  have h2 : solve id 3 "5 * X^0 + 4 * X^1 = 4 * X^0".toList [] =
      some (.ok ([.str "Reduced form: ", .dbl 1, .str " * X^", .int 0, .str " + ", .dbl 4,
          .str " * X^", .int 1, .str " = 0", .endl, .str "Polynomial degree: ", .int 1, .endl,
          .str "The solution is:", .endl, .dbl (-1 / 4), .endl], [(0, 1), (1, 4)])) := by
    decide!
  have h3 : solve binary64 3 "5 * X^0 + 4 * X^1 = 4 * X^0".toList [] =
      some (.ok ([.str "Reduced form: ", .dbl 1, .str " * X^", .int 0, .str " + ", .dbl 4,
          .str " * X^", .int 1, .str " = 0", .endl, .str "Polynomial degree: ", .int 1, .endl,
          .str "The solution is:", .endl, .dbl (-1 / 4), .endl], [(0, 1), (1, 4)])) := by
    decide!
  refine ⟨by decide!, solve_mono id fuel 3 _ _ _ h2, ?_⟩
  rw [solve_mono id fuel 3 _ _ _ h2, solve_mono binary64 fuel 3 _ _ _ h3]

/-! ## The split on `=` -/

/-- C2, at the failing inputs: `1=1=` and `5==` hold two `=` characters, yet `parseEquation`
raises nothing and returns a coefficient map, because `getline` yields no token after a final
delimiter. -/
theorem c2_two_equals_accepted :
    split "1=1=".toList '=' = ["1".toList, "1".toList] ∧
    parseEquation id "1=1=".toList [] = .ok [(0, 0)] ∧
    parseEquation binary64 "1=1=".toList [] = .ok [(0, 0)] ∧
    split "5==".toList '=' = ["5".toList, []] ∧
    parseEquation id "5==".toList [] = .ok [(0, 5)] ∧
    parseEquation binary64 "5==".toList [] = .ok [(0, 5)] := by
  decide!

/-- C3, at the failing input: `5 * X^0 =` holds exactly one `=`, yet `parseEquation` raises
'Invalid equation format' (whatever the arithmetic and the map held before), while `= 5 * X^0`
passes the split. -/
theorem c3_empty_right_side_rejected :
    split "5 * X^0 =".toList '=' = ["5 * X^0 ".toList] ∧
    (∀ (rnd : ℚ → ℚ) (m0 : CoeffMap), parseEquation rnd "5 * X^0 =".toList m0 =
      .error (.runtimeError "Invalid equation format")) ∧
    parseEquation id "= 5 * X^0".toList [] = .ok [(0, -5)] ∧
    parseEquation binary64 "= 5 * X^0".toList [] = .ok [(0, -5)] := by
  refine ⟨by decide, ?_, by decide!, by decide!⟩
  intro rnd m0
  have h : split "5 * X^0 =".toList '=' = ["5 * X^0 ".toList] := by decide
  unfold parseEquation
  simp only [h]
  rfl

/-! ## The map is left side minus right side -/

/-- C4: in exact arithmetic, when `parseEquation` succeeds, both sides' terms are recognised by
`parseTerm` (pairs `lhs` and `rhs`), and the coefficient held for each exponent `k`, an absent
key read as 0, is the sum of the left coefficients at `k` minus the sum of the right coefficients
at `k`, whatever map `m0` the solver held before the call. -/
theorem c4_parseEquation_is_lhs_minus_rhs (equation : Str) (m0 m : CoeffMap)
    (h : parseEquation id equation m0 = .ok m) :
    ∃ lhs rhs : List (ℚ × Int),
      termValues id (sideTerms ((split equation '=').getD 0 [])) = .ok lhs ∧
      termValues id (sideTerms ((split equation '=').getD 1 [])) = .ok rhs ∧
      ∀ k : Int, get m k = coeffSum lhs k - coeffSum rhs k := by
  obtain ⟨_, lhs, rhs, hl, hr, hm⟩ := parseEquation_ok id equation m0 m h
  refine ⟨lhs, rhs, hl, hr, ?_⟩
  intro k
  rw [hm, get_accumulate_exact, get_accumulate_exact]
  have h0 : get [] k = 0 := rfl
  rw [h0]
  simp only [Bool.false_eq_true, if_false, if_true]
  ring

/-- Witness for C4: `5 * X^0 + 4 * X^1 = 4 * X^0`, parsed over a solver that held `7 * X^3`. -/
theorem c4_parseEquation_is_lhs_minus_rhs_witness :
    parseEquation id "5 * X^0 + 4 * X^1 = 4 * X^0".toList [(3, 7)] = .ok [(0, 1), (1, 4)] ∧
    ∃ lhs rhs : List (ℚ × Int),
      termValues id
        (sideTerms ((split "5 * X^0 + 4 * X^1 = 4 * X^0".toList '=').getD 0 [])) = .ok lhs ∧
      termValues id
        (sideTerms ((split "5 * X^0 + 4 * X^1 = 4 * X^0".toList '=').getD 1 [])) = .ok rhs ∧
      ∀ k : Int, get [(0, 1), (1, 4)] k = coeffSum lhs k - coeffSum rhs k :=
  ⟨by decide!, c4_parseEquation_is_lhs_minus_rhs _ [(3, 7)] _ (by decide!)⟩

/-! ## Order of the terms -/

/-- C5, refuted as stated: in binary64 the sides `0.3 + 0.2 + 0.1` and `0.1 + 0.2 + 0.3` hold
the same terms in another order, both equations parse, and the coefficients at exponent 0
differ (`0.6` against `0.6000000000000001`). -/
theorem c5_binary64_order_matters :
    ¬ ∀ (e1 e2 : Str) (m1 m2 : CoeffMap),
      parseEquation binary64 e1 [] = .ok m1 → parseEquation binary64 e2 [] = .ok m2 →
      (sideTerms ((split e2 '=').getD 0 [])).Perm (sideTerms ((split e1 '=').getD 0 [])) →
      (sideTerms ((split e2 '=').getD 1 [])).Perm (sideTerms ((split e1 '=').getD 1 [])) →
      ∀ k, get m2 k = get m1 k := by
  intro h
  have h1 : parseEquation binary64 "0.1 + 0.2 + 0.3 = 0".toList [] =
      .ok [(0, 5404319552844596 / 9007199254740992)] := by decide!
  have h2 : parseEquation binary64 "0.3 + 0.2 + 0.1 = 0".toList [] =
      .ok [(0, 5404319552844595 / 9007199254740992)] := by decide!
  have hl : (sideTerms ((split "0.3 + 0.2 + 0.1 = 0".toList '=').getD 0 [])).Perm
      (sideTerms ((split "0.1 + 0.2 + 0.3 = 0".toList '=').getD 0 [])) := by
    have e1 : sideTerms ((split "0.3 + 0.2 + 0.1 = 0".toList '=').getD 0 []) =
        ["0.3".toList, "0.2".toList, "0.1".toList] := by decide
    have e2 : sideTerms ((split "0.1 + 0.2 + 0.3 = 0".toList '=').getD 0 []) =
        ["0.1".toList, "0.2".toList, "0.3".toList] := by decide
    rw [e1, e2]
    exact (List.reverse_perm ["0.1".toList, "0.2".toList, "0.3".toList])
  have hr : (sideTerms ((split "0.3 + 0.2 + 0.1 = 0".toList '=').getD 1 [])).Perm
      (sideTerms ((split "0.1 + 0.2 + 0.3 = 0".toList '=').getD 1 [])) := by
    have e1 : sideTerms ((split "0.3 + 0.2 + 0.1 = 0".toList '=').getD 1 []) =
        ["0".toList] := by decide
    have e2 : sideTerms ((split "0.1 + 0.2 + 0.3 = 0".toList '=').getD 1 []) =
        ["0".toList] := by decide
    rw [e1, e2]
  have := h _ _ _ _ h1 h2 hl hr 0
  revert this
  decide!

/-- C5, amended: in exact arithmetic, if an equation parses and a second two-sided text has, on
each side, a permutation of the first one's terms, then the second parses too and holds the same
coefficient at every exponent; equal exponents accumulate: `X^2 + X^2 = 0` gives coefficient 2 at
exponent 2 and 0 everywhere else. -/
theorem c5_exact_order_independent (e1 e2 : Str) (m0 m0' m1 : CoeffMap)
    (h1 : parseEquation id e1 m0 = .ok m1)
    (h2 : (split e2 '=').length = 2)
    (hl : (sideTerms ((split e2 '=').getD 0 [])).Perm (sideTerms ((split e1 '=').getD 0 [])))
    (hr : (sideTerms ((split e2 '=').getD 1 [])).Perm (sideTerms ((split e1 '=').getD 1 []))) :
    (∃ m2, parseEquation id e2 m0' = .ok m2 ∧ ∀ k, get m2 k = get m1 k) ∧
    (parseEquation id "X^2 + X^2 = 0".toList [] = .ok [(0, 0), (2, 2)] ∧
      ∀ k, get [(0, 0), (2, 2)] k = if k = 2 then 2 else 0) := by
  refine ⟨?_, by decide!, ?_⟩
  · obtain ⟨_, lhs, rhs, hlv, hrv, hm⟩ := parseEquation_ok id e1 m0 m1 h1
    have hget : ∀ k, get m1 k = coeffSum lhs k - coeffSum rhs k := by
      intro k
      rw [hm, get_accumulate_exact, get_accumulate_exact]
      have h0 : get [] k = 0 := rfl
      rw [h0]
      simp only [Bool.false_eq_true, if_false, if_true]
      ring
    obtain ⟨lhs2, hl2, hls⟩ := termValues_perm id _ _ lhs hl hlv
    obtain ⟨rhs2, hr2, hrs⟩ := termValues_perm id _ _ rhs hr hrv
    obtain ⟨m2, hm2, hg2⟩ := parseEquation_exact_of_termValues e2 m0' lhs2 rhs2 h2 hl2 hr2
    exact ⟨m2, hm2, fun k => by rw [hg2, hget, hls, hrs]⟩
  · intro k
    simp only [get, find?]
    by_cases h0 : (0 : Int) = k
    · subst h0; simp
    · by_cases h2 : (2 : Int) = k
      · subst h2; simp
      · have : ¬ k = 2 := fun e => h2 e.symm
        simp [h0, h2, this]

/-- Witness for C5: `X^2 - 5 + 3 * X^2 = 1` and its rearrangement `3 * X^2 + X^2 - 5 = 1`. -/
theorem c5_exact_order_independent_witness :
    parseEquation id "X^2 - 5 + 3 * X^2 = 1".toList [] = .ok [(0, -6), (2, 4)] ∧
    ((∃ m2, parseEquation id "3 * X^2 + X^2 - 5 = 1".toList [(1, 1)] = .ok m2 ∧
        ∀ k, get m2 k = get [(0, -6), (2, 4)] k) ∧
    (parseEquation id "X^2 + X^2 = 0".toList [] = .ok [(0, 0), (2, 2)] ∧
      ∀ k, get [(0, 0), (2, 2)] k = if k = 2 then 2 else 0)) :=
  ⟨by decide!,
    c5_exact_order_independent "X^2 - 5 + 3 * X^2 = 1".toList "3 * X^2 + X^2 - 5 = 1".toList
      [] [(1, 1)] [(0, -6), (2, 4)] (by decide!) (by decide)
      (by
        have e1 : sideTerms ((split "3 * X^2 + X^2 - 5 = 1".toList '=').getD 0 []) =
            ["3*X^2".toList, "X^2".toList, "-5".toList] := by decide
        have e2 : sideTerms ((split "X^2 - 5 + 3 * X^2 = 1".toList '=').getD 0 []) =
            ["X^2".toList, "-5".toList, "3*X^2".toList] := by decide
        rw [e1, e2]
        exact @List.perm_append_comm _ ["3*X^2".toList] ["X^2".toList, "-5".toList])
      (by
        have e1 : sideTerms ((split "3 * X^2 + X^2 - 5 = 1".toList '=').getD 1 []) =
            ["1".toList] := by decide
        have e2 : sideTerms ((split "X^2 - 5 + 3 * X^2 = 1".toList '=').getD 1 []) =
            ["1".toList] := by decide
        rw [e1, e2])⟩

/-! ## A term moved across the `=` -/

/-- C6: for any rounding that is odd and idempotent (exact arithmetic is, and so is `binary64`:
`binary64_odd`, `binary64_idem`), every left side `L` without `=` that parses and every term `t` without `+`, `-` and `=` that
parses: `L = t` and `L - t = 0` both parse, to maps that hold the same coefficient at every
exponent (the second is the first with key 0 touched), with the same degree, and `solve` prints
the same on both, with any fuel. -/
theorem c6_right_term_is_subtracted (rnd : ℚ → ℚ) (hodd : ∀ x, rnd (-x) = -rnd x)
    (hidem : ∀ x, rnd (rnd x) = rnd x) (L t : Str) (m0 m0' mL mt : CoeffMap)
    (hLeq : '=' ∉ L) (ht : ∀ c ∈ t, c ≠ '+' ∧ c ≠ '-' ∧ c ≠ '=')
    (hne : sideTerms t ≠ [])
    (hL : parseSide rnd L false [] = .ok mL) (htp : parseSide rnd t false [] = .ok mt) :
    ∃ m1 m2, parseEquation rnd (L ++ " = ".toList ++ t) m0 = .ok m1 ∧
      parseEquation rnd (L ++ " - ".toList ++ t ++ " = 0".toList) m0' = .ok m2 ∧
      (∀ k, get m2 k = get m1 k) ∧ getDegree m2 = getDegree m1 ∧
      ∀ fuel, solve rnd fuel (L ++ " - ".toList ++ t ++ " = 0".toList) m0' =
        solve rnd fuel (L ++ " = ".toList ++ t) m0 := by
  have htu : ∀ c ∈ t, c ≠ '+' ∧ c ≠ '-' := fun c hc => ⟨(ht c hc).1, (ht c hc).2.1⟩
  have hteq : '=' ∉ t := fun h => (ht '=' h).2.2 rfl
  -- the single term of `t`
  have hst := sideTerms_unsigned t htu
  have hune : (words t).flatten ≠ [] := by
    intro e
    rw [e] at hst
    exact hne hst
  rw [if_neg hune] at hst
  have hclean : Clean (words t).flatten :=
    sideTerms_clean t _ (by rw [hst]; exact List.mem_singleton_self _)
  have hu : ∀ c ∈ (words t).flatten, isspace c = false ∧ c ≠ '+' ∧ c ≠ '-' := by
    intro c hc
    refine ⟨hclean.2 c hc, ?_⟩
    obtain ⟨w, hw, hcw⟩ := List.mem_flatten.mp hc
    rcases mem_wordsFrom t [] w hw c hcw with h | h
    · exact htu c h
    · simp at h
  -- what the two hypotheses on parsing give
  rw [parseSide_eq_parseTerms, parseTerms_eq_accumulate _ _ _ _ (sideTerms_clean _)] at hL htp
  cases hvL : termValues rnd (sideTerms L) with
  | error e => rw [hvL] at hL; cases hL
  | ok vsL =>
    rw [hst] at htp
    simp only [termValues] at htp
    cases hv : termValue rnd (words t).flatten with
    | error e => rw [hv] at htp; cases htp
    | ok v =>
      have hvt : termValues rnd [(words t).flatten] = .ok [v] := by
        simp only [termValues, hv]
      have hvm : termValues rnd (sideTerms L ++ ['-' :: (words t).flatten]) =
          .ok (vsL ++ [(-v.1, v.2)]) :=
        termValues_snoc rnd _ _ (termValue_minus rnd hodd _ hu hune v hv) _ _ hvL
      have hv0 : termValues rnd [['0']] = .ok [(rnd 0, 0)] := by
        simp only [termValues, termValue_zero]
      -- the split of both texts
      have heq1 : L ++ " = ".toList ++ t = (L ++ [' ']) ++ '=' :: (' ' :: t) := by
        show L ++ [' ', '=', ' '] ++ t = _
        simp
      have heq2 : L ++ " - ".toList ++ t ++ " = 0".toList =
          (L ++ [' ', '-', ' '] ++ t ++ [' ']) ++ '=' :: [' ', '0'] := by
        show L ++ [' ', '-', ' '] ++ t ++ [' ', '=', ' ', '0'] = _
        simp
      have hs1 : split (L ++ " = ".toList ++ t) '=' = [L ++ [' '], ' ' :: t] := by
        rw [heq1]
        refine split_two_sides _ _ ?_ ?_ (by simp)
        · intro hmem
          rcases List.mem_append.mp hmem with e | e
          · exact hLeq e
          · simp at e
        · intro hmem
          rcases List.mem_cons.mp hmem with e | e
          · exact absurd e (by decide)
          · exact hteq e
      have hs2 : split (L ++ " - ".toList ++ t ++ " = 0".toList) '=' =
          [L ++ [' ', '-', ' '] ++ t ++ [' '], [' ', '0']] := by
        rw [heq2]
        refine split_two_sides _ _ ?_ (by decide) (by simp)
        intro hmem
        simp only [List.mem_append, List.mem_cons, List.mem_singleton, List.not_mem_nil,
          or_false] at hmem
        rcases hmem with ((e | e) | e) | e
        · exact hLeq e
        · rcases e with e | e | e <;> exact absurd e (by decide)
        · exact hteq e
        · exact absurd e (by decide)
      have hz : sideTerms [' ', '0'] = [['0']] := by decide
      -- both parse
      have hp1 := parseEquation_of_termValues rnd (L ++ " = ".toList ++ t) m0 vsL [v]
        (by rw [hs1]; rfl)
        (by rw [hs1]; show termValues rnd (sideTerms (L ++ [' '])) = _
            rw [sideTerms_snoc_space]; exact hvL)
        (by rw [hs1]; show termValues rnd (sideTerms (' ' :: t)) = _
            rw [sideTerms_cons_space, hst]; exact hvt)
      have hp2 := parseEquation_of_termValues rnd (L ++ " - ".toList ++ t ++ " = 0".toList) m0'
        (vsL ++ [(-v.1, v.2)]) [(rnd 0, 0)]
        (by rw [hs2]; rfl)
        (by rw [hs2]; show termValues rnd (sideTerms (L ++ [' ', '-', ' '] ++ t ++ [' '])) = _
            rw [sideTerms_minus L t htu]; exact hvm)
        (by rw [hs2]; show termValues rnd (sideTerms [' ', '0']) = _
            rw [hz]; exact hv0)
      -- the second map is the first with key 0 touched
      have hi := parseEquation_invariant rnd _ m0 _ hp1
      have hr : Rounded rnd (accumulate rnd true [v] (accumulate rnd false vsL [])) :=
        accumulate_rounded rnd hidem true _ _
          (accumulate_rounded rnd hidem false _ _ (fun k => rnd_zero rnd hodd))
      have hm : accumulate rnd true [(rnd 0, 0)]
          (accumulate rnd false (vsL ++ [(-v.1, v.2)]) []) =
          touch (accumulate rnd true [v] (accumulate rnd false vsL [])) 0 := by
        have e1 : accumulate rnd false (vsL ++ [(-v.1, v.2)]) [] =
            accumulate rnd true [v] (accumulate rnd false vsL []) := by
          rw [accumulate_append]
          simp only [accumulate, Bool.false_eq_true, if_false, if_true]
        rw [e1]
        generalize accumulate rnd true [v] (accumulate rnd false vsL []) = M at hr hi ⊢
        simp only [accumulate, if_true, rnd_zero rnd hodd, neg_zero, add_zero]
        rw [hr 0]
        exact insert_get_eq_touch 0 M hi.1
      rw [hm] at hp2
      refine ⟨_, _, hp1, hp2, fun k => get_touch _ 0 k, ?_, ?_⟩
      · exact getDegree_congr _ _ hi.1 hi.2 (touch_sorted _ 0 hi.1)
          (touch_nonNegKeys _ 0 (le_refl 0) hi.2) (fun k => get_touch _ 0 k)
      · intro fuel
        exact solve_touch_zero rnd fuel _ _ m0 m0' _ hp1 hp2

/-- Witness for C6: binary64, which is odd and idempotent; `L` is `0.1 * X^1 + 0.2` and `t` is
`0.3`, so `0.1 * X^1 + 0.2 = 0.3` against `0.1 * X^1 + 0.2 - 0.3 = 0`. -/
theorem c6_right_term_is_subtracted_witness :
    '=' ∉ "0.1 * X^1 + 0.2".toList ∧
    (∀ c ∈ "0.3".toList, c ≠ '+' ∧ c ≠ '-' ∧ c ≠ '=') ∧
    sideTerms "0.3".toList ≠ [] ∧
    parseSide binary64 "0.1 * X^1 + 0.2".toList false [] =
      .ok [(0, 3602879701896397 / 18014398509481984),
           (1, 3602879701896397 / 36028797018963968)] ∧
    parseSide binary64 "0.3".toList false [] = .ok [(0, 5404319552844595 / 18014398509481984)] ∧
    ∃ m1 m2,
      parseEquation binary64 ("0.1 * X^1 + 0.2".toList ++ " = ".toList ++ "0.3".toList) [] =
        .ok m1 ∧
      parseEquation binary64
        ("0.1 * X^1 + 0.2".toList ++ " - ".toList ++ "0.3".toList ++ " = 0".toList) [] =
        .ok m2 ∧
      (∀ k, get m2 k = get m1 k) ∧ getDegree m2 = getDegree m1 ∧
      ∀ fuel,
        solve binary64 fuel
          ("0.1 * X^1 + 0.2".toList ++ " - ".toList ++ "0.3".toList ++ " = 0".toList) [] =
        solve binary64 fuel ("0.1 * X^1 + 0.2".toList ++ " = ".toList ++ "0.3".toList) [] :=
  ⟨by decide, by decide, by decide, by decide!, by decide!,
    c6_right_term_is_subtracted binary64 binary64_odd binary64_idem
      "0.1 * X^1 + 0.2".toList "0.3".toList [] []
      [(0, 3602879701896397 / 18014398509481984), (1, 3602879701896397 / 36028797018963968)]
      [(0, 5404319552844595 / 18014398509481984)]
      (by decide) (by decide) (by decide) (by decide!) (by decide!)⟩

/-! ## The degree of a parsed map -/

/-- C7: for every map produced by `parseEquation` (any rounding), `getDegree` is the greatest
exponent whose coefficient is non-zero and 0 when every coefficient is zero; the `maxDegree` of
`displayReducedForm` is the same value; and `0 * X^3 + X^1 + 1 = 0` has degree 1. -/
theorem c7_getDegree_greatest_nonzero (rnd : ℚ → ℚ) (equation : Str) (m0 m : CoeffMap)
    (h : parseEquation rnd equation m0 = .ok m) :
    ((∃ k, get m k ≠ 0) →
      get m (getDegree m) ≠ 0 ∧ ∀ k, get m k ≠ 0 → k ≤ getDegree m) ∧
    ((∀ k, get m k = 0) → getDegree m = 0) ∧
    maxDegree m = getDegree m ∧
    (parseEquation id "0 * X^3 + X^1 + 1 = 0".toList [] = .ok [(0, 1), (1, 1), (3, 0)] ∧
      getDegree [(0, 1), (1, 1), (3, 0)] = 1) := by
  have hi := parseEquation_invariant rnd equation m0 m h
  have hd := getDegree_spec m hi.1 hi.2
  exact ⟨hd.1, hd.2, rfl, by decide!, by decide!⟩

/-- Witness for C7: the equation `0 * X^3 + X^1 + 1 = 0` in binary64. -/
theorem c7_getDegree_greatest_nonzero_witness :
    parseEquation binary64 "0 * X^3 + X^1 + 1 = 0".toList [] = .ok [(0, 1), (1, 1), (3, 0)] ∧
    (((∃ k, get [(0, 1), (1, 1), (3, 0)] k ≠ 0) →
      get [(0, 1), (1, 1), (3, 0)] (getDegree [(0, 1), (1, 1), (3, 0)]) ≠ 0 ∧
        ∀ k, get [(0, 1), (1, 1), (3, 0)] k ≠ 0 → k ≤ getDegree [(0, 1), (1, 1), (3, 0)]) ∧
    ((∀ k, get [(0, 1), (1, 1), (3, 0)] k = 0) → getDegree [(0, 1), (1, 1), (3, 0)] = 0) ∧
    maxDegree [(0, 1), (1, 1), (3, 0)] = getDegree [(0, 1), (1, 1), (3, 0)] ∧
    (parseEquation id "0 * X^3 + X^1 + 1 = 0".toList [] = .ok [(0, 1), (1, 1), (3, 0)] ∧
      getDegree [(0, 1), (1, 1), (3, 0)] = 1)) :=
  ⟨by decide!,
    c7_getDegree_greatest_nonzero binary64 "0 * X^3 + X^1 + 1 = 0".toList [] _ (by decide!)⟩

/-! ## An equation with equal sides -/

/-- C8, refuted as stated: in binary64 the side `0.1 + 0.2 + 0.3` parses, but
`0.1 + 0.2 + 0.3 = 0.1 + 0.2 + 0.3` leaves the coefficient `2^-53` at exponent 0; the reduced form
is not the placeholder and the outcome is 'No solution.'. -/
theorem c8_binary64_residue :
    parseSide binary64 "0.1 + 0.2 + 0.3".toList false [] =
      .ok [(0, 5404319552844596 / 9007199254740992)] ∧
    parseEquation binary64 "0.1 + 0.2 + 0.3 = 0.1 + 0.2 + 0.3".toList [] =
      .ok [(0, 1 / 9007199254740992)] ∧
    solve binary64 2 "0.1 + 0.2 + 0.3 = 0.1 + 0.2 + 0.3".toList [] =
      some (.ok ([.str "Reduced form: ", .dbl (1 / 9007199254740992), .str " * X^", .int 0,
        .str " = 0", .endl, .str "Polynomial degree: ", .int 0, .endl,
        .str "No solution.", .endl], [(0, 1 / 9007199254740992)])) := by
  decide!

/-- C8, amended: in exact arithmetic, for every side text `S` without `=` that parses, the
equation `S = S` parses to the zero polynomial: every coefficient is 0, the degree is 0, and
`solve` prints the placeholder `0 * X^0 = 0`, degree 0 and 'Any real number is a solution.'
with any fuel from 2 on. -/
theorem c8_exact_equal_sides_cancel (S : Str) (m0 mS : CoeffMap) (hS : '=' ∉ S)
    (hp : parseSide id S false [] = .ok mS) :
    ∃ m, parseEquation id (S ++ " = ".toList ++ S) m0 = .ok m ∧
      (∀ k, get m k = 0) ∧ getDegree m = 0 ∧
      ∀ fuel, ∃ m1, solve id (2 + fuel) (S ++ " = ".toList ++ S) m0 =
        some (.ok ([.str "Reduced form: ", .str "0 * X^0", .str " = 0", .endl,
          .str "Polynomial degree: ", .int 0, .endl,
          .str "Any real number is a solution.", .endl], m1)) := by
  have heq : S ++ " = ".toList ++ S = (S ++ [' ']) ++ '=' :: (' ' :: S) := by
    show S ++ [' ', '=', ' '] ++ S = _
    simp
  have hsplit : split (S ++ " = ".toList ++ S) '=' = [S ++ [' '], ' ' :: S] := by
    rw [heq]
    refine split_two_sides _ _ ?_ ?_ (by simp)
    · intro hmem
      rcases List.mem_append.mp hmem with e | e
      · exact hS e
      · simp at e
    · intro hmem
      rcases List.mem_cons.mp hmem with e | e
      · exact absurd e (by decide)
      · exact hS e
  rw [parseSide_eq_parseTerms, parseTerms_eq_accumulate _ _ _ _ (sideTerms_clean _)] at hp
  cases hv : termValues id (sideTerms S) with
  | error e => rw [hv] at hp; cases hp
  | ok vs =>
    obtain ⟨m, hm, hg⟩ := parseEquation_exact_of_termValues (S ++ " = ".toList ++ S) m0 vs vs
      (by rw [hsplit]; rfl)
      (by rw [hsplit]; show termValues id (sideTerms (S ++ [' '])) = _
          rw [sideTerms_snoc_space]; exact hv)
      (by rw [hsplit]; show termValues id (sideTerms (' ' :: S)) = _
          rw [sideTerms_cons_space]; exact hv)
    have hz : ∀ k, get m k = 0 := fun k => by rw [hg k]; ring
    have hi := parseEquation_invariant id _ m0 m hm
    exact ⟨m, hm, hz, (getDegree_spec m hi.1 hi.2).2 hz,
      fun fuel => ⟨_, solve_zero_polynomial id _ m0 m hm hz fuel⟩⟩

/-- Witness for C8: the side `8 * X^0`, the example of the specification. -/
theorem c8_exact_equal_sides_cancel_witness :
    '=' ∉ "8 * X^0".toList ∧ parseSide id "8 * X^0".toList false [] = .ok [(0, 8)] ∧
    ∃ m, parseEquation id ("8 * X^0".toList ++ " = ".toList ++ "8 * X^0".toList) [] = .ok m ∧
      (∀ k, get m k = 0) ∧ getDegree m = 0 ∧
      ∀ fuel, ∃ m1,
        solve id (2 + fuel) ("8 * X^0".toList ++ " = ".toList ++ "8 * X^0".toList) [] =
        some (.ok ([.str "Reduced form: ", .str "0 * X^0", .str " = 0", .endl,
          .str "Polynomial degree: ", .int 0, .endl,
          .str "Any real number is a solution.", .endl], m1)) :=
  ⟨by decide, by decide!,
    c8_exact_equal_sides_cancel "8 * X^0".toList [] [(0, 8)] (by decide) (by decide!)⟩

/-! ## Degree above 2 -/

/-- C9, at the failing input: `X^2147483647 = 0` parses, its degree is `INT_MAX > 2`, and `solve`
never completes, whatever the fuel: the display loop `for (int i = 0; i <= maxDegree; i++)` has no
exit when `maxDegree` is `INT_MAX`. -/
theorem c9_solve_never_returns_at_int_max (fuel : Nat) :
    parseEquation id "X^2147483647 = 0".toList [] = .ok [(0, 0), (2147483647, 1)] ∧
    parseEquation binary64 "X^2147483647 = 0".toList [] = .ok [(0, 0), (2147483647, 1)] ∧
    getDegree [(0, 0), (2147483647, 1)] = 2147483647 ∧
    solve id fuel "X^2147483647 = 0".toList [] = none ∧
    solve binary64 fuel "X^2147483647 = 0".toList [] = none := by
  have hp : parseEquation id "X^2147483647 = 0".toList [] = .ok [(0, 0), (2147483647, 1)] := by
    decide!
  have hb : parseEquation binary64 "X^2147483647 = 0".toList [] =
      .ok [(0, 0), (2147483647, 1)] := by
    decide!
  have hm : maxDegree [(0, 0), (2147483647, 1)] = 2147483647 := by decide!
  refine ⟨hp, hb, by decide!, ?_, ?_⟩
  · unfold solve
    rw [hp]
    simp only
    unfold displayReducedForm
    simp only
    rw [hm, displayLoop_int_max fuel 0 _ (by decide)]
  · unfold solve
    rw [hb]
    simp only
    unfold displayReducedForm
    simp only
    rw [hm, displayLoop_int_max fuel 0 _ (by decide)]

/-! ## Degree 1 -/

/-- C10: in exact arithmetic, when the coefficient `a` of `X^1` is non-zero, `solveDegree1`
prints exactly one value, `-b / a` with `b` the coefficient of `X^0`, and that value is the
unique solution of `a * x + b = 0`. -/
theorem c10_solveDegree1_unique_solution (m : CoeffMap) (ha : get m 1 ≠ 0) :
    (solveDegree1 id m).1 =
      [.str "The solution is:", .endl, .dbl (-(get m 0) / get m 1), .endl] ∧
    get m 1 * (-(get m 0) / get m 1) + get m 0 = 0 ∧
    ∀ y : ℚ, get m 1 * y + get m 0 = 0 → y = -(get m 0) / get m 1 := by
  refine ⟨?_, ?_, ?_⟩
  · unfold solveDegree1
    simp only [get_touch, id, if_neg ha]
  · field_simp
    ring
  · intro y hy
    field_simp
    linarith

/-- Witness for C10: the map of `5 * X^0 + 4 * X^1 = 4 * X^0`, with `a = 4` and `b = 1`. -/
theorem c10_solveDegree1_unique_solution_witness :
    get [(0, 1), (1, 4)] 1 ≠ 0 ∧
    (solveDegree1 id [(0, 1), (1, 4)]).1 =
      [.str "The solution is:", .endl,
       .dbl (-(get [(0, 1), (1, 4)] 0) / get [(0, 1), (1, 4)] 1), .endl] ∧
    get [(0, 1), (1, 4)] 1 * (-(get [(0, 1), (1, 4)] 0) / get [(0, 1), (1, 4)] 1)
      + get [(0, 1), (1, 4)] 0 = 0 ∧
    ∀ y : ℚ, get [(0, 1), (1, 4)] 1 * y + get [(0, 1), (1, 4)] 0 = 0 →
      y = -(get [(0, 1), (1, 4)] 0) / get [(0, 1), (1, 4)] 1 :=
  ⟨by decide!, c10_solveDegree1_unique_solution [(0, 1), (1, 4)] (by decide!)⟩

/-! ## The square root -/

/-- The loop of `sqrt` started at iterate `k` returns the first iterate at which the test
holds, when the fuel reaches it. -/
theorem sqrtLoop_eq_iter (rnd : ℚ → ℚ) (x : ℚ) :
    ∀ (n k fuel : Nat), (∀ j, k ≤ j → j < k + n → ¬ sqrtStop rnd x j) → sqrtStop rnd x (k + n) →
      n < fuel → sqrtLoop rnd x fuel (sqrtIter rnd x k) = some (sqrtIter rnd x (k + n)) := by
  intro n
  induction n with
  | zero =>
    intro k fuel _ hstop hf
    obtain ⟨f, rfl⟩ : ∃ f, fuel = f + 1 := ⟨fuel - 1, by omega⟩
    have h : |rnd (rnd (1 / 2 * rnd (sqrtIter rnd x k + rnd (x / sqrtIter rnd x k)))
        - sqrtIter rnd x k)| < rnd (1 / 10 ^ 10) := hstop
    simp only [sqrtLoop, if_pos h, Nat.add_zero]
  | succ n ih =>
    intro k fuel hno hstop hf
    obtain ⟨f, rfl⟩ : ∃ f, fuel = f + 1 := ⟨fuel - 1, by omega⟩
    have h : ¬ |rnd (rnd (1 / 2 * rnd (sqrtIter rnd x k + rnd (x / sqrtIter rnd x k)))
        - sqrtIter rnd x k)| < rnd (1 / 10 ^ 10) := hno k le_rfl (by omega)
    simp only [sqrtLoop, if_neg h]
    have e : k + (n + 1) = (k + 1) + n := by omega
    rw [e]
    exact ih (k + 1) f (fun j h1 h2 => hno j (by omega) (by omega)) (by rw [← e]; exact hstop)
      (by omega)

theorem sqrtIter_pos (x : ℚ) (hx : 0 < x) : ∀ n, 0 < sqrtIter id x n := by
  intro n
  induction n with
  | zero => exact hx
  | succ n ih =>
    simp only [sqrtIter, id]
    have : 0 < x / sqrtIter id x n := div_pos hx ih
    linarith

theorem sqrtIter_sq_ge (x : ℚ) (hx : 0 < x) (n : Nat) :
    x ≤ sqrtIter id x (n + 1) * sqrtIter id x (n + 1) := by
  have hr := sqrtIter_pos x hx n
  simp only [sqrtIter, id]
  have h : 1 / 2 * (sqrtIter id x n + x / sqrtIter id x n) *
      (1 / 2 * (sqrtIter id x n + x / sqrtIter id x n)) - x =
      (1 / 2 * (sqrtIter id x n - x / sqrtIter id x n)) ^ 2 := by
    field_simp
    ring
  nlinarith [sq_nonneg (1 / 2 * (sqrtIter id x n - x / sqrtIter id x n))]

theorem sqrtIter_step (x : ℚ) (hx : 0 < x) (n : Nat) :
    sqrtIter id x n - sqrtIter id x (n + 1) =
      (sqrtIter id x n * sqrtIter id x n - x) / (2 * sqrtIter id x n) := by
  have hr := sqrtIter_pos x hx n
  simp only [sqrtIter, id]
  field_simp
  ring

theorem sqrtIter_antitone (x : ℚ) (hx : 0 < x) (n : Nat) :
    sqrtIter id x (n + 2) ≤ sqrtIter id x (n + 1) := by
  have h := sqrtIter_step x hx (n + 1)
  have hr := sqrtIter_pos x hx (n + 1)
  have hs := sqrtIter_sq_ge x hx n
  have : 0 ≤ (sqrtIter id x (n + 1) * sqrtIter id x (n + 1) - x) / (2 * sqrtIter id x (n + 1)) :=
    div_nonneg (by linarith) (by linarith)
  linarith

/-- In exact arithmetic the test of `sqrt` holds in some pass of the loop. -/
theorem sqrtStop_exists (x : ℚ) (hx : 0 < x) : ∃ n, sqrtStop id x n := by
  by_contra hno
  push_neg at hno
  have hdec : ∀ k : Nat, sqrtIter id x (k + 1) ≤ sqrtIter id x 1 - k * (1 / 10 ^ 10) := by
    intro k
    induction k with
    | zero => simp
    | succ k ih =>
      have h1 := hno (k + 1)
      have h2 := sqrtIter_antitone x hx k
      unfold sqrtStop at h1
      simp only [id] at h1
      rw [abs_sub_comm, abs_of_nonneg (by linarith)] at h1
      push_cast
      linarith
  obtain ⟨k, hk⟩ := exists_nat_gt (sqrtIter id x 1 * 10 ^ 10)
  have h1 := hdec k
  have h2 := sqrtIter_pos x hx (k + 1)
  have h3 : (k : ℚ) * (1 / 10 ^ 10) > sqrtIter id x 1 := by
    rw [gt_iff_lt, mul_one_div, lt_div_iff₀ (by positivity)]
    exact hk
  linarith

/-- In exact arithmetic `sqrt` returns, on every positive argument, the first iterate at which
the test holds, as soon as the fuel exceeds its index. -/
theorem sqrt_exact_terminates (x : ℚ) (hx : 0 < x) :
    ∃ n, sqrtStop id x n ∧ (∀ j, j < n → ¬ sqrtStop id x j) ∧
      ∀ fuel, n < fuel → sqrt id fuel x = some (sqrtIter id x n) := by
  classical
  have hex := sqrtStop_exists x hx
  refine ⟨Nat.find hex, Nat.find_spec hex, fun j hj => Nat.find_min hex hj, ?_⟩
  intro fuel hf
  unfold sqrt
  rw [if_neg (by linarith), if_neg (by linarith)]
  have h := sqrtLoop_eq_iter id x (Nat.find hex) 0 fuel
    (fun j _ h2 => Nat.find_min hex (by omega)) (by rw [Nat.zero_add]; exact Nat.find_spec hex) hf
  rw [Nat.zero_add] at h
  exact h

/-- In exact arithmetic the value `sqrt` returns misses the square root by less than
`2 * r * epsilon` in the square. -/
theorem sqrtIter_error (x : ℚ) (hx : 0 < x) (n : Nat) (h : sqrtStop id x n) :
    |sqrtIter id x n * sqrtIter id x n - x| < 2 * sqrtIter id x n * (1 / 10 ^ 10) := by
  have hs := sqrtIter_step x hx n
  have hr := sqrtIter_pos x hx n
  unfold sqrtStop at h
  simp only [id] at h
  rw [abs_sub_comm, hs, abs_div, abs_of_pos (show (0 : ℚ) < 2 * sqrtIter id x n by linarith),
    div_lt_iff₀ (by linarith)] at h
  linarith

/-! ## The accuracy of the square root -/

/-- C15: in exact arithmetic, for every `x > 0`, every iterate of the Newton iteration of
`sqrt` is strictly positive and the stopping test holds after finitely many updates: there is a
first pass `n` whose test `|r' - r| < 1e-10` holds, and with any fuel above `n` the function
returns the iterate `r` of that pass. -/
theorem c15_sqrt_terminates_exact (x : ℚ) (hx : 0 < x) :
    (∀ n, 0 < sqrtIter id x n) ∧
    ∃ n, sqrtStop id x n ∧ (∀ j, j < n → ¬ sqrtStop id x j) ∧
      ∀ fuel, n < fuel → sqrt id fuel x = some (sqrtIter id x n) :=
  ⟨sqrtIter_pos x hx, sqrt_exact_terminates x hx⟩

/-- Witness for C15: the argument 16, the discriminant of `X^2 - 4 = 0`. -/
theorem c15_sqrt_terminates_exact_witness :
    (0 : ℚ) < 16 ∧ (∀ n, 0 < sqrtIter id 16 n) ∧
    ∃ n, sqrtStop id 16 n ∧ (∀ j, j < n → ¬ sqrtStop id 16 j) ∧
      ∀ fuel, n < fuel → sqrt id fuel 16 = some (sqrtIter id 16 n) :=
  ⟨by decide!, c15_sqrt_terminates_exact 16 (by decide!)⟩

theorem exists_of_any (o : Option ℚ) (p : ℚ → Bool) (h : o.any p = true) :
    ∃ r, o = some r ∧ p r = true := by
  cases o with
  | none => simp at h
  | some r => exact ⟨r, rfl, by simpa using h⟩

/-- C14, counterexample: in exact arithmetic `sqrt(97)` returns a value `r` with
`|r * r - 97| ≥ 1e-9`; in binary64 `sqrt(1000000)` returns `1000.0000000000118`, whose square
misses `1000000` by more than `2e-8`. -/
theorem c14_error_exceeds_bound :
    (∃ r, sqrt id 8 97 = some r ∧ 1 / 10 ^ 9 ≤ |r * r - 97|) ∧
    sqrt binary64 15 1000000 = some (1099511627776013 / 1099511627776) ∧
    (2 : ℚ) / 10 ^ 8 ≤
      |(1099511627776013 / 1099511627776 : ℚ) * (1099511627776013 / 1099511627776) - 1000000| := by
  refine ⟨?_, by decide!, by norm_num [abs_of_pos]⟩
  obtain ⟨r, h1, h2⟩ := exists_of_any (sqrt id 8 97)
    (fun r => decide (1 / 10 ^ 9 ≤ |r * r - 97|)) (by decide!)
  exact ⟨r, h1, of_decide_eq_true h2⟩

/-- C14, amended: in exact arithmetic, for every `x ≥ 0` the function `sqrt` returns (with
enough fuel) a value `r ≥ 0` with `|r * r - x| ≤ 2 * r * 1e-10`; the error is below `1e-9`
whenever `r ≤ 5`. -/
theorem c14_sqrt_error_bound (x : ℚ) (hx : 0 ≤ x) :
    ∃ n, ∀ fuel, n < fuel → ∃ r, sqrt id fuel x = some r ∧ 0 ≤ r ∧
      |r * r - x| ≤ 2 * r * (1 / 10 ^ 10) ∧ (r ≤ 5 → |r * r - x| < 1 / 10 ^ 9) := by
  rcases hx.lt_or_eq with hpos | hzero
  · obtain ⟨n, hstop, _, hf⟩ := sqrt_exact_terminates x hpos
    refine ⟨n, fun fuel h => ⟨sqrtIter id x n, hf fuel h, (sqrtIter_pos x hpos n).le, ?_, ?_⟩⟩
    · exact (sqrtIter_error x hpos n hstop).le
    · intro h5
      have := sqrtIter_error x hpos n hstop
      have h0 := sqrtIter_pos x hpos n
      calc |sqrtIter id x n * sqrtIter id x n - x| < 2 * sqrtIter id x n * (1 / 10 ^ 10) := this
        _ ≤ 1 / 10 ^ 9 := by norm_num; linarith
  · subst hzero
    refine ⟨0, fun fuel _ => ⟨0, ?_, le_rfl, ?_, ?_⟩⟩
    · unfold sqrt
      rw [if_neg (by decide!), if_pos rfl]
    · norm_num
    · intro _
      norm_num

/-- Witness for C14, amended: the argument 97. -/
theorem c14_sqrt_error_bound_witness :
    (0 : ℚ) ≤ 97 ∧
    ∃ n, ∀ fuel, n < fuel → ∃ r, sqrt id fuel 97 = some r ∧ 0 ≤ r ∧
      |r * r - 97| ≤ 2 * r * (1 / 10 ^ 10) ∧ (r ≤ 5 → |r * r - 97| < 1 / 10 ^ 9) :=
  ⟨by decide!, c14_sqrt_error_bound 97 (by decide!)⟩

/-! ## Degree 2 -/

theorem toInt_eq_iff (x : ℚ) : ((toInt x : Int) : ℚ) = x ↔ isInt32 x = true := by
  unfold isInt32 toInt
  simp only [decide_eq_true_eq, INT_MAX]
  constructor
  · intro h
    have hd : x.den = 1 := by rw [← h]; exact Rat.den_intCast _
    have hn : (x.num : ℚ) = x := Rat.coe_int_num_of_den_eq_one hd
    rw [hd] at h
    simp only [Nat.cast_one, Int.tdiv_one] at h
    refine ⟨hd, ?_⟩
    split at h
    · assumption
    · rw [← hn] at h
      have := Int.cast_injective h
      omega
  · rintro ⟨hd, h1, h2⟩
    have hn : (x.num : ℚ) = x := Rat.coe_int_num_of_den_eq_one hd
    rw [hd]
    simp only [Nat.cast_one, Int.tdiv_one]
    rw [if_pos ⟨h1, h2⟩]
    exact hn

theorem toInt_of_isInt32 (x : ℚ) (h : isInt32 x = true) : toInt x = x.num := by
  have h1 := (toInt_eq_iff x).2 h
  unfold isInt32 at h
  simp only [decide_eq_true_eq] at h
  have hn : (x.num : ℚ) = x := Rat.coe_int_num_of_den_eq_one h.1
  exact Int.cast_injective (h1.trans hn.symm)

/-- The result of `solveDegree2` in the branch of a positive discriminant. -/
theorem solveDegree2_positive (rnd : ℚ → ℚ) (fuel : Nat) (m : CoeffMap) (s : ℚ)
    (ha : get m 2 ≠ 0)
    (hd : 0 < rnd (rnd (get m 1 * get m 1) - rnd (rnd (4 * get m 2) * get m 0)))
    (hs : sqrt rnd fuel (rnd (rnd (get m 1 * get m 1) - rnd (rnd (4 * get m 2) * get m 0)))
      = some s) :
    solveDegree2 rnd fuel m =
      some ([.str "Discriminant is strictly positive, the two solutions are:", .endl,
             .dbl (rnd (rnd (-(get m 1) + s) / rnd (2 * get m 2))), .endl,
             .dbl (rnd (rnd (-(get m 1) - s) / rnd (2 * get m 2))), .endl],
            touch (touch (touch m 2) 1) 0) := by
  unfold solveDegree2
  simp only [get_touch, if_neg ha, gt_iff_lt, if_pos hd, hs]

/-- C12: in exact arithmetic, for every map with `a ≠ 0` and `b * b - 4 * a * c = 0`,
`solveDegree2` takes the branch "Discriminant is zero", prints exactly one value,
`x = -b / (2 * a)`, and this `x` is a root: `a * x * x + b * x + c = 0`. -/
theorem c12_zero_discriminant (fuel : Nat) (m : CoeffMap) (ha : get m 2 ≠ 0)
    (hd : get m 1 * get m 1 - 4 * get m 2 * get m 0 = 0) :
    solveDegree2 id fuel m =
      some ([.str "Discriminant is zero, the solution is:", .endl,
             .dbl (-(get m 1) / (2 * get m 2)), .endl], touch (touch (touch m 2) 1) 0) ∧
    get m 2 * (-(get m 1) / (2 * get m 2)) * (-(get m 1) / (2 * get m 2))
      + get m 1 * (-(get m 1) / (2 * get m 2)) + get m 0 = 0 := by
  constructor
  · unfold solveDegree2
    simp only [get_touch, if_neg ha, id, hd, gt_iff_lt, lt_self_iff_false, if_false, if_true]
  · have h : get m 2 * (-(get m 1) / (2 * get m 2)) * (-(get m 1) / (2 * get m 2))
        + get m 1 * (-(get m 1) / (2 * get m 2)) + get m 0
        = -(get m 1 * get m 1 - 4 * get m 2 * get m 0) / (4 * get m 2) := by
      field_simp
      ring
    rw [h, hd, neg_zero, zero_div]

/-- Witness for C12: the map of `X^2 + 2 * X^1 + 1 = 0`, with the double root `-1`. -/
theorem c12_zero_discriminant_witness :
    get [(0, 1), (1, 2), (2, 1)] 2 ≠ 0 ∧
    get [(0, 1), (1, 2), (2, 1)] 1 * get [(0, 1), (1, 2), (2, 1)] 1
      - 4 * get [(0, 1), (1, 2), (2, 1)] 2 * get [(0, 1), (1, 2), (2, 1)] 0 = 0 ∧
    solveDegree2 id 0 [(0, 1), (1, 2), (2, 1)] =
      some ([.str "Discriminant is zero, the solution is:", .endl,
             .dbl (-(get [(0, 1), (1, 2), (2, 1)] 1) / (2 * get [(0, 1), (1, 2), (2, 1)] 2)),
             .endl], touch (touch (touch [(0, 1), (1, 2), (2, 1)] 2) 1) 0) :=
  ⟨by decide!, by decide!,
    (c12_zero_discriminant 0 [(0, 1), (1, 2), (2, 1)] (by decide!) (by decide!)).1⟩

/-- C11, counterexample: in binary64 the equation
`X^2 + 1.00000000186264514923095703125*X^1 + 0.250000000931322574615478515625 = 0` has the
coefficients `a = 1`, `b = 1 + 2^-29` and `c = 1/4 + 2^-30`, all doubles, with
`b * b - 4 * a * c = 2^-58 > 0`; the product `b * b` is rounded to `1 + 2^-28`, the discriminant
computed is 0, and `solveDegree2` takes the branch "Discriminant is zero" and prints the single
value `-0.5`. -/
theorem c11_rounded_discriminant_is_zero :
    parseEquation binary64
      "X^2 + 1.00000000186264514923095703125*X^1 + 0.250000000931322574615478515625 = 0".toList
      [] = .ok [(0, 268435457 / 1073741824), (1, 536870913 / 536870912), (2, 1)] ∧
    get [(0, 268435457 / 1073741824), (1, 536870913 / 536870912), (2, 1)] 2 ≠ 0 ∧
    0 < get [(0, 268435457 / 1073741824), (1, 536870913 / 536870912), (2, 1)] 1
          * get [(0, 268435457 / 1073741824), (1, 536870913 / 536870912), (2, 1)] 1
        - 4 * get [(0, 268435457 / 1073741824), (1, 536870913 / 536870912), (2, 1)] 2
          * get [(0, 268435457 / 1073741824), (1, 536870913 / 536870912), (2, 1)] 0 ∧
    solve binary64 4
      "X^2 + 1.00000000186264514923095703125*X^1 + 0.250000000931322574615478515625 = 0".toList
      [] =
      some (.ok ([.str "Reduced form: ", .dbl (268435457 / 1073741824), .str " * X^", .int 0,
                  .str " + ", .dbl (536870913 / 536870912), .str " * X^", .int 1,
                  .str " + ", .dbl 1, .str " * X^", .int 2, .str " = 0", .endl,
                  .str "Polynomial degree: ", .int 2, .endl,
                  .str "Discriminant is zero, the solution is:", .endl,
                  .dbl (-536870913 / 1073741824), .endl],
                 [(0, 268435457 / 1073741824), (1, 536870913 / 536870912), (2, 1)])) ∧
    shown (-536870913 / 1073741824) = -1 / 2 := by
  refine ⟨by decide!, by decide!, by decide!, by decide!, by decide!⟩

/-- C11, amended: in exact arithmetic, for every map with `a ≠ 0` and
`b * b - 4 * a * c > 0`, `solveDegree2` takes the branch of two real solutions and prints
`(-b + s) / (2 * a)` first and `(-b - s) / (2 * a)` second, `s` being the value `sqrt` returns
for the discriminant, which it does with enough fuel.  For `X^2 - 4 = 0` the degree is 2, the
discriminant is 16, and the two values printed read `2` and `-2` at the six significant digits
of the output stream, in exact arithmetic and in binary64. -/
theorem c11_two_real_solutions :
    (∀ m : CoeffMap, get m 2 ≠ 0 → 0 < get m 1 * get m 1 - 4 * get m 2 * get m 0 →
      ∃ n, ∀ fuel, n < fuel → ∃ s,
        sqrt id fuel (get m 1 * get m 1 - 4 * get m 2 * get m 0) = some s ∧
        solveDegree2 id fuel m =
          some ([.str "Discriminant is strictly positive, the two solutions are:", .endl,
                 .dbl ((-(get m 1) + s) / (2 * get m 2)), .endl,
                 .dbl ((-(get m 1) - s) / (2 * get m 2)), .endl],
                touch (touch (touch m 2) 1) 0)) ∧
    (parseEquation binary64 "X^2 - 4 = 0".toList [] = .ok [(0, -4), (2, 1)] ∧
     parseEquation id "X^2 - 4 = 0".toList [] = .ok [(0, -4), (2, 1)] ∧
     getDegree [(0, -4), (2, 1)] = 2 ∧
     get [(0, -4), (2, 1)] 1 * get [(0, -4), (2, 1)] 1
       - 4 * get [(0, -4), (2, 1)] 2 * get [(0, -4), (2, 1)] 0 = 16 ∧
     binary64 (binary64 (get [(0, -4), (2, 1)] 1 * get [(0, -4), (2, 1)] 1)
       - binary64 (binary64 (4 * get [(0, -4), (2, 1)] 2) * get [(0, -4), (2, 1)] 0)) = 16 ∧
     solve binary64 10 "X^2 - 4 = 0".toList [] =
       some (.ok ([.str "Reduced form: ", .str "-", .dbl 4, .str " * X^", .int 0, .str " + ",
                   .dbl 1, .str " * X^", .int 2, .str " = 0", .endl,
                   .str "Polynomial degree: ", .int 2, .endl,
                   .str "Discriminant is strictly positive, the two solutions are:", .endl,
                   .dbl (4503599627370553 / 2251799813685248), .endl,
                   .dbl (-4503599627370553 / 2251799813685248), .endl],
                  [(0, -4), (1, 0), (2, 1)])) ∧
     shown (4503599627370553 / 2251799813685248) = 2 ∧
     shown (-4503599627370553 / 2251799813685248) = -2 ∧
     solve id 10 "X^2 - 4 = 0".toList [] =
       some (.ok ([.str "Reduced form: ", .str "-", .dbl 4, .str " * X^", .int 0, .str " + ",
                   .dbl 1, .str " * X^", .int 2, .str " = 0", .endl,
                   .str "Polynomial degree: ", .int 2, .endl,
                   .str "Discriminant is strictly positive, the two solutions are:", .endl,
                   .dbl (271050543121377825343773346473727756780989953
                     / 135525271560687195829976526980621549465950336), .endl,
                   .dbl (-271050543121377825343773346473727756780989953
                     / 135525271560687195829976526980621549465950336), .endl],
                  [(0, -4), (1, 0), (2, 1)])) ∧
     shown (271050543121377825343773346473727756780989953
       / 135525271560687195829976526980621549465950336) = 2 ∧
     shown (-271050543121377825343773346473727756780989953
       / 135525271560687195829976526980621549465950336) = -2) := by
  refine ⟨?_, by decide!, by decide!, by decide!, by decide!, by decide!, by decide!,
    by decide!, by decide!, by decide!, by decide!, by decide!⟩
  intro m ha hd
  obtain ⟨n, _, _, hf⟩ := sqrt_exact_terminates _ hd
  refine ⟨n, fun fuel h => ⟨_, hf fuel h, ?_⟩⟩
  exact solveDegree2_positive id fuel m _ ha hd (hf fuel h)

/-- Witness for C11, amended: the map of `X^2 - 4 = 0`. -/
theorem c11_two_real_solutions_witness :
    ∃ n, ∀ fuel, n < fuel → ∃ s,
      sqrt id fuel (get [(0, -4), (2, 1)] 1 * get [(0, -4), (2, 1)] 1
        - 4 * get [(0, -4), (2, 1)] 2 * get [(0, -4), (2, 1)] 0) = some s ∧
      solveDegree2 id fuel [(0, -4), (2, 1)] =
        some ([.str "Discriminant is strictly positive, the two solutions are:", .endl,
               .dbl ((-(get [(0, -4), (2, 1)] 1) + s) / (2 * get [(0, -4), (2, 1)] 2)), .endl,
               .dbl ((-(get [(0, -4), (2, 1)] 1) - s) / (2 * get [(0, -4), (2, 1)] 2)), .endl],
              touch (touch (touch [(0, -4), (2, 1)] 2) 1) 0) :=
  c11_two_real_solutions.1 [(0, -4), (2, 1)] (by decide!) (by decide!)

/-- The result of `solveDegree2` in the branch of a negative discriminant. -/
theorem solveDegree2_negative (rnd : ℚ → ℚ) (fuel : Nat) (m : CoeffMap) (s : ℚ)
    (ha : get m 2 ≠ 0)
    (hd : rnd (rnd (get m 1 * get m 1) - rnd (rnd (4 * get m 2) * get m 0)) < 0)
    (hs : sqrt rnd fuel (-rnd (rnd (get m 1 * get m 1) - rnd (rnd (4 * get m 2) * get m 0)))
      = some s) :
    solveDegree2 rnd fuel m =
      some ([.str "Discriminant is strictly negative, the two complex solutions are:", .endl] ++
        (if get m 2 ≠ 1 ∧ isInt32 (get m 2) = true ∧ isInt32 (get m 1) = true
            ∧ isInt32 s = true then
          [.str "-", .int (get m 1).num, .str "/", .int (wrapInt32 (2 * (get m 2).num)),
           .str " + ", .int s.num, .str "i/", .int (wrapInt32 (2 * (get m 2).num)), .endl,
           .str "-", .int (get m 1).num, .str "/", .int (wrapInt32 (2 * (get m 2).num)),
           .str " - ", .int s.num, .str "i/", .int (wrapInt32 (2 * (get m 2).num)), .endl]
        else
          [.dbl (rnd (-(get m 1) / rnd (2 * get m 2))), .str " + ",
           .dbl (rnd (s / rnd (2 * get m 2))), .str "i", .endl,
           .dbl (rnd (-(get m 1) / rnd (2 * get m 2))), .str " - ",
           .dbl (rnd (s / rnd (2 * get m 2))), .str "i", .endl]),
        touch (touch (touch m 2) 1) 0) := by
  unfold solveDegree2
  simp only [get_touch, if_neg ha, gt_iff_lt, if_neg (not_lt.2 hd.le), if_neg hd.ne, hs,
    toInt_eq_iff]
  by_cases h1 : get m 2 = 1
  · rw [if_pos h1, if_neg (by simp [h1])]
  · rw [if_neg h1]
    by_cases h2 : isInt32 (get m 1) = true ∧ isInt32 (get m 2) = true ∧ isInt32 s = true
    · rw [if_pos h2, if_pos ⟨h1, h2.2.1, h2.1, h2.2.2⟩, toInt_of_isInt32 _ h2.1,
        toInt_of_isInt32 _ h2.2.1, toInt_of_isInt32 _ h2.2.2]
    · rw [if_neg h2, if_neg (fun h => h2 ⟨h.2.2.1, h.2.1, h.2.2.2⟩)]

/-- C13, counterexample: `X^2 + 1 = 0` is printed in decimal form, `0 + 1.0000000000000011i`
and `0 - 1.0000000000000011i`, not as `-0/2 + 2i/2`; so is `X^2 + 100 = 0`, where `a = 1`,
`b = 0` and the value `sqrt` returns for 400, exactly 20, are all integers. -/
theorem c13_unit_leading_coefficient_prints_decimal :
    solve binary64 10 "X^2 + 1 = 0".toList [] =
      some (.ok ([.str "Reduced form: ", .dbl 1, .str " * X^", .int 0, .str " + ",
                  .dbl 1, .str " * X^", .int 2, .str " = 0", .endl,
                  .str "Polynomial degree: ", .int 2, .endl,
                  .str "Discriminant is strictly negative, the two complex solutions are:",
                  .endl,
                  .dbl 0, .str " + ", .dbl (4503599627370501 / 4503599627370496), .str "i",
                  .endl,
                  .dbl 0, .str " - ", .dbl (4503599627370501 / 4503599627370496), .str "i",
                  .endl],
                 [(0, 1), (1, 0), (2, 1)])) ∧
    sqrt binary64 10 400 = some 20 ∧
    solve binary64 10 "X^2 + 100 = 0".toList [] =
      some (.ok ([.str "Reduced form: ", .dbl 100, .str " * X^", .int 0, .str " + ",
                  .dbl 1, .str " * X^", .int 2, .str " = 0", .endl,
                  .str "Polynomial degree: ", .int 2, .endl,
                  .str "Discriminant is strictly negative, the two complex solutions are:",
                  .endl,
                  .dbl 0, .str " + ", .dbl 10, .str "i", .endl,
                  .dbl 0, .str " - ", .dbl 10, .str "i", .endl],
                 [(0, 100), (1, 0), (2, 1)])) := by
  refine ⟨by decide!, by decide!, by decide!⟩

/-- C13, amended: in exact arithmetic, with `a ≠ 0` and `b * b - 4 * a * c < 0`, `sqrt`
returns a value `s` for the negated discriminant and `solveDegree2` prints the two complex
roots in decimal form `re ± im i` whenever `a = 1`; when `a ≠ 1` it prints them in the integer
fraction form `-b/(2a) ± s i/(2a)` exactly when `a`, `b` and `s` are integers in the range of
`int`, and in decimal form otherwise.  In binary64 `X^2 + 1 = 0` is printed in decimal form,
with an imaginary part that reads `1`, and `5*X^2 + 20 = 0`, where `sqrt` returns exactly 20,
in the fraction form `-0/10 + 20i/10` and `-0/10 - 20i/10`. -/
theorem c13_complex_rendering :
    (∀ m : CoeffMap, get m 2 ≠ 0 → get m 1 * get m 1 - 4 * get m 2 * get m 0 < 0 →
      ∃ n, ∀ fuel, n < fuel → ∃ s,
        sqrt id fuel (-(get m 1 * get m 1 - 4 * get m 2 * get m 0)) = some s ∧
        solveDegree2 id fuel m =
          some ([.str "Discriminant is strictly negative, the two complex solutions are:",
                 .endl] ++
            (if get m 2 ≠ 1 ∧ isInt32 (get m 2) = true ∧ isInt32 (get m 1) = true
                ∧ isInt32 s = true then
              [.str "-", .int (get m 1).num, .str "/", .int (wrapInt32 (2 * (get m 2).num)),
               .str " + ", .int s.num, .str "i/", .int (wrapInt32 (2 * (get m 2).num)), .endl,
               .str "-", .int (get m 1).num, .str "/", .int (wrapInt32 (2 * (get m 2).num)),
               .str " - ", .int s.num, .str "i/", .int (wrapInt32 (2 * (get m 2).num)), .endl]
            else
              [.dbl (-(get m 1) / (2 * get m 2)), .str " + ", .dbl (s / (2 * get m 2)),
               .str "i", .endl,
               .dbl (-(get m 1) / (2 * get m 2)), .str " - ", .dbl (s / (2 * get m 2)),
               .str "i", .endl]),
            touch (touch (touch m 2) 1) 0)) ∧
    (solve binary64 10 "X^2 + 1 = 0".toList [] =
       some (.ok ([.str "Reduced form: ", .dbl 1, .str " * X^", .int 0, .str " + ",
                   .dbl 1, .str " * X^", .int 2, .str " = 0", .endl,
                   .str "Polynomial degree: ", .int 2, .endl,
                   .str "Discriminant is strictly negative, the two complex solutions are:",
                   .endl,
                   .dbl 0, .str " + ", .dbl (4503599627370501 / 4503599627370496), .str "i",
                   .endl,
                   .dbl 0, .str " - ", .dbl (4503599627370501 / 4503599627370496), .str "i",
                   .endl],
                  [(0, 1), (1, 0), (2, 1)])) ∧
     shown (4503599627370501 / 4503599627370496) = 1 ∧
     sqrt binary64 10 400 = some 20 ∧
     solve binary64 10 "5*X^2 + 20 = 0".toList [] =
       some (.ok ([.str "Reduced form: ", .dbl 20, .str " * X^", .int 0, .str " + ",
                   .dbl 5, .str " * X^", .int 2, .str " = 0", .endl,
                   .str "Polynomial degree: ", .int 2, .endl,
                   .str "Discriminant is strictly negative, the two complex solutions are:",
                   .endl,
                   .str "-", .int 0, .str "/", .int 10, .str " + ", .int 20, .str "i/",
                   .int 10, .endl,
                   .str "-", .int 0, .str "/", .int 10, .str " - ", .int 20, .str "i/",
                   .int 10, .endl],
                  [(0, 20), (1, 0), (2, 5)]))) := by
  refine ⟨?_, by decide!, by decide!, by decide!, by decide!⟩
  intro m ha hd
  obtain ⟨n, _, _, hf⟩ :=
    sqrt_exact_terminates (-(get m 1 * get m 1 - 4 * get m 2 * get m 0)) (by linarith)
  refine ⟨n, fun fuel h => ⟨_, hf fuel h, ?_⟩⟩
  exact solveDegree2_negative id fuel m _ ha hd (hf fuel h)

/-- Witness for C13, amended: the map of `2*X^2 + X^1 + 0.25 = 0`, with the discriminant `-1`,
for which `sqrt` returns exactly 1 and the roots are printed as `-1/4 + 1i/4` and
`-1/4 - 1i/4`. -/
theorem c13_complex_rendering_witness :
    (∃ n, ∀ fuel, n < fuel → ∃ s,
      sqrt id fuel (-(get [(0, 1 / 4), (1, 1), (2, 2)] 1 * get [(0, 1 / 4), (1, 1), (2, 2)] 1
        - 4 * get [(0, 1 / 4), (1, 1), (2, 2)] 2 * get [(0, 1 / 4), (1, 1), (2, 2)] 0))
        = some s ∧
      solveDegree2 id fuel [(0, 1 / 4), (1, 1), (2, 2)] =
        some ([.str "Discriminant is strictly negative, the two complex solutions are:",
               .endl] ++
          (if get [(0, 1 / 4), (1, 1), (2, 2)] 2 ≠ 1
              ∧ isInt32 (get [(0, 1 / 4), (1, 1), (2, 2)] 2) = true
              ∧ isInt32 (get [(0, 1 / 4), (1, 1), (2, 2)] 1) = true ∧ isInt32 s = true then
            [.str "-", .int (get [(0, 1 / 4), (1, 1), (2, 2)] 1).num, .str "/",
             .int (wrapInt32 (2 * (get [(0, 1 / 4), (1, 1), (2, 2)] 2).num)),
             .str " + ", .int s.num, .str "i/",
             .int (wrapInt32 (2 * (get [(0, 1 / 4), (1, 1), (2, 2)] 2).num)), .endl,
             .str "-", .int (get [(0, 1 / 4), (1, 1), (2, 2)] 1).num, .str "/",
             .int (wrapInt32 (2 * (get [(0, 1 / 4), (1, 1), (2, 2)] 2).num)),
             .str " - ", .int s.num, .str "i/",
             .int (wrapInt32 (2 * (get [(0, 1 / 4), (1, 1), (2, 2)] 2).num)), .endl]
          else
            [.dbl (-(get [(0, 1 / 4), (1, 1), (2, 2)] 1)
               / (2 * get [(0, 1 / 4), (1, 1), (2, 2)] 2)), .str " + ",
             .dbl (s / (2 * get [(0, 1 / 4), (1, 1), (2, 2)] 2)), .str "i", .endl,
             .dbl (-(get [(0, 1 / 4), (1, 1), (2, 2)] 1)
               / (2 * get [(0, 1 / 4), (1, 1), (2, 2)] 2)), .str " - ",
             .dbl (s / (2 * get [(0, 1 / 4), (1, 1), (2, 2)] 2)), .str "i", .endl]),
          touch (touch (touch [(0, 1 / 4), (1, 1), (2, 2)] 2) 1) 0)) ∧
    solveDegree2 id 1 [(0, 1 / 4), (1, 1), (2, 2)] =
      some ([.str "Discriminant is strictly negative, the two complex solutions are:", .endl,
             .str "-", .int 1, .str "/", .int 4, .str " + ", .int 1, .str "i/", .int 4, .endl,
             .str "-", .int 1, .str "/", .int 4, .str " - ", .int 1, .str "i/", .int 4, .endl],
            [(0, 1 / 4), (1, 1), (2, 2)]) :=
  ⟨c13_complex_rendering.1 [(0, 1 / 4), (1, 1), (2, 2)] (by decide!) (by decide!), by decide!⟩

/-! ## The reduced form -/

theorem displayBody_spec (m : CoeffMap) (i : Int) (st : DisplayState)
    (hg : ∀ k, get st.coefficients k = get m k) :
    (displayBody i st).out = st.out ++ renderTerms m st.first ([i].filter (fun k => get m k ≠ 0)) ∧
    (displayBody i st).first = (st.first && ([i].filter (fun k => get m k ≠ 0)).isEmpty) ∧
    (displayBody i st).hasNonZero
      = (st.hasNonZero || !([i].filter (fun k => get m k ≠ 0)).isEmpty) ∧
    (∀ k, get (displayBody i st).coefficients k = get m k) := by
  have hc : ∀ k, get (displayBody i st).coefficients k = get m k := by
    intro k
    rw [displayBody_coefficients, get_touch, hg]
  refine ⟨?_, ?_, ?_, hc⟩
  all_goals
    unfold displayBody
    simp only [hg]
    by_cases h0 : get m i = 0
    · simp [h0, renderTerms]
    · have hf : [i].filter (fun k => get m k ≠ 0) = [i] := by simp [h0]
      simp only [hf, if_pos h0, ne_eq, h0, not_false_eq_true, if_true, renderTerms, termText,
        List.append_nil, List.isEmpty_cons, Bool.and_false, Bool.not_false, Bool.or_true]
      try
        rcases lt_or_gt_of_ne h0 with hneg | hpos
        · cases st.first <;>
            simp [hneg, not_lt.2 hneg.le, abs_of_neg hneg]
        · cases st.first <;>
            simp [hpos, not_lt.2 hpos.le, abs_of_pos hpos]

theorem isEmpty_append_eq (l1 l2 : List Int) :
    (l1 ++ l2).isEmpty = (l1.isEmpty && l2.isEmpty) := by
  cases l1 <;> simp

theorem renderTerms_append (m : CoeffMap) :
    ∀ (l1 l2 : List Int) (b : Bool),
      renderTerms m b (l1 ++ l2) = renderTerms m b l1 ++ renderTerms m (b && l1.isEmpty) l2 := by
  intro l1
  induction l1 with
  | nil => intro l2 b; simp [renderTerms]
  | cons k ks ih =>
    intro l2 b
    show termText m b k ++ renderTerms m false (ks ++ l2) =
      (termText m b k ++ renderTerms m false ks) ++ renderTerms m (b && false) l2
    rw [ih l2 false, Bool.false_and, Bool.and_false, List.append_assoc]

/-- Below `INT_MAX` the display loop ends and prints, for the exponents it runs through, the
terms of those with a non-zero coefficient. -/
theorem displayLoop_spec (m : CoeffMap) (md : Int) (hmd : md < 2147483647) :
    ∀ (n fuel : Nat) (i : Int) (st : DisplayState), 0 ≤ i → i + n = md + 1 → n < fuel →
      (∀ k, get st.coefficients k = get m k) →
      ∃ st1, displayLoop md fuel i st = some st1 ∧
        st1.out = st.out ++
          renderTerms m st.first ((exponentsFrom i n).filter (fun k => get m k ≠ 0)) ∧
        st1.first = (st.first && ((exponentsFrom i n).filter (fun k => get m k ≠ 0)).isEmpty) ∧
        st1.hasNonZero =
          (st.hasNonZero || !((exponentsFrom i n).filter (fun k => get m k ≠ 0)).isEmpty) ∧
        (∀ k, get st1.coefficients k = get m k) := by
  intro n
  induction n with
  | zero =>
    intro fuel i st _ h1 h2 hg
    obtain ⟨f, rfl⟩ : ∃ f, fuel = f + 1 := ⟨fuel - 1, by omega⟩
    have : ¬ i ≤ md := by omega
    refine ⟨st, by simp only [displayLoop, if_neg this], ?_, ?_, ?_, hg⟩ <;>
      simp [exponentsFrom, renderTerms]
  | succ n ih =>
    intro fuel i st h0 h1 h2 hg
    obtain ⟨f, rfl⟩ : ∃ f, fuel = f + 1 := ⟨fuel - 1, by omega⟩
    have hi : i ≤ md := by omega
    obtain ⟨b1, b2, b3, b4⟩ := displayBody_spec m i st hg
    obtain ⟨st1, e, c1, c2, c3, c4⟩ :=
      ih f (i + 1) (displayBody i st) (by omega) (by push_cast at h1 ⊢; omega) (by omega) b4
    refine ⟨st1, ?_, ?_, ?_, ?_, c4⟩
    · simp only [displayLoop, if_pos hi]
      rw [wrapInt32_succ i h0 (by omega)]
      exact e
    · have hl : (exponentsFrom i (n + 1)).filter (fun k => get m k ≠ 0) =
          [i].filter (fun k => get m k ≠ 0) ++
            (exponentsFrom (i + 1) n).filter (fun k => get m k ≠ 0) := by
        rw [exponentsFrom, ← List.filter_append]
        rfl
      rw [c1, b1, b2, hl, renderTerms_append, List.append_assoc]
    · have hl : (exponentsFrom i (n + 1)).filter (fun k => get m k ≠ 0) =
          [i].filter (fun k => get m k ≠ 0) ++
            (exponentsFrom (i + 1) n).filter (fun k => get m k ≠ 0) := by
        rw [exponentsFrom, ← List.filter_append]
        rfl
      rw [c2, b2, hl, isEmpty_append_eq, Bool.and_assoc]
    · have hl : (exponentsFrom i (n + 1)).filter (fun k => get m k ≠ 0) =
          [i].filter (fun k => get m k ≠ 0) ++
            (exponentsFrom (i + 1) n).filter (fun k => get m k ≠ 0) := by
        rw [exponentsFrom, ← List.filter_append]
        rfl
      rw [c3, b3, hl, isEmpty_append_eq, Bool.or_assoc, Bool.not_and]

theorem maxDegree_nonneg (m : CoeffMap) : 0 ≤ maxDegree m := getDegree_nonneg m

/-- Below `INT_MAX`, `displayReducedForm` prints the line the specification describes and
changes no coefficient. -/
theorem displayReducedForm_spec (m : CoeffMap) (hmd : maxDegree m < 2147483647) :
    ∃ m1, displayReducedForm ((maxDegree m).toNat + 2) m = some (reducedFormSpec m, m1) ∧
      ∀ k, get m1 k = get m k := by
  have h0 := maxDegree_nonneg m
  obtain ⟨st1, e, c1, c2, c3, c4⟩ :=
    displayLoop_spec m (maxDegree m) hmd ((maxDegree m).toNat + 1) ((maxDegree m).toNat + 2) 0
      { out := [.str "Reduced form: "], first := true, hasNonZero := false, coefficients := m }
      (le_refl 0) (by push_cast; omega) (by omega) (fun _ => rfl)
  refine ⟨st1.coefficients, ?_, c4⟩
  unfold displayReducedForm
  simp only
  rw [e]
  simp only [c1, c3, Bool.false_or, Bool.not_not]
  unfold reducedFormSpec shownExponents
  cases h : ((exponentsFrom 0 ((maxDegree m).toNat + 1)).filter (fun k => get m k ≠ 0)).isEmpty
  · simp
  · have hnil := List.isEmpty_iff.1 h
    rw [hnil]
    rfl

theorem mem_exponentsFrom (k : Int) :
    ∀ (n : Nat) (i : Int), k ∈ exponentsFrom i n ↔ i ≤ k ∧ k < i + n := by
  intro n
  induction n with
  | zero => intro i; simp only [exponentsFrom, List.not_mem_nil, false_iff]; push_cast; omega
  | succ n ih =>
    intro i
    simp only [exponentsFrom, List.mem_cons, ih]
    push_cast
    omega

theorem exponentsFrom_sorted : ∀ (n : Nat) (i : Int), (exponentsFrom i n).Pairwise (· < ·) := by
  intro n
  induction n with
  | zero => intro i; exact List.Pairwise.nil
  | succ n ih =>
    intro i
    rw [exponentsFrom, List.pairwise_cons]
    refine ⟨fun k hk => ?_, ih (i + 1)⟩
    have := (mem_exponentsFrom k n (i + 1)).1 hk
    omega

/-- The exponents of the reduced form are those of `0..maxDegree` with a non-zero coefficient,
each once, in strictly ascending order. -/
theorem shownExponents_spec (m : CoeffMap) :
    (∀ k, k ∈ shownExponents m ↔ 0 ≤ k ∧ k ≤ maxDegree m ∧ get m k ≠ 0) ∧
    (shownExponents m).Pairwise (· < ·) := by
  have h0 := maxDegree_nonneg m
  constructor
  · intro k
    unfold shownExponents
    simp only [List.mem_filter, mem_exponentsFrom, decide_eq_true_eq]
    push_cast
    rw [Int.toNat_of_nonneg h0]
    constructor
    · rintro ⟨⟨a, b⟩, c⟩
      exact ⟨a, by omega, c⟩
    · rintro ⟨a, b, c⟩
      exact ⟨⟨a, by omega⟩, c⟩
  · exact (exponentsFrom_sorted _ _).sublist (List.filter_sublist _)

/-- On a sorted map with non-negative keys the reduced form has a term for every non-zero
coefficient, and the placeholder exactly when there is none. -/
theorem shownExponents_of_invariant (m : CoeffMap) (hs : Sorted m) (hn : NonNegKeys m) :
    (∀ k, k ∈ shownExponents m ↔ get m k ≠ 0) ∧
    ((shownExponents m).isEmpty = true ↔ ∀ k, get m k = 0) := by
  have hmem : ∀ k, k ∈ shownExponents m ↔ get m k ≠ 0 := by
    intro k
    rw [(shownExponents_spec m).1 k]
    constructor
    · exact fun h => h.2.2
    · intro h
      refine ⟨?_, ((getDegree_spec m hs hn).1 ⟨k, h⟩).2 k h, h⟩
      obtain ⟨v, hv⟩ : ∃ v, find? m k = some v := by
        cases hf : find? m k with
        | none => exact absurd (by unfold get; rw [hf]; rfl) h
        | some v => exact ⟨v, rfl⟩
      exact hn _ ((find?_eq_some_iff_mem k v m hs).1 hv)
  refine ⟨hmem, ?_⟩
  rw [List.isEmpty_iff]
  constructor
  · intro h k
    by_contra hk
    have := (hmem k).2 hk
    rw [h] at this
    exact absurd this (List.not_mem_nil k)
  · intro h
    apply List.eq_nil_iff_forall_not_mem.2
    intro k hk
    exact (hmem k).1 hk (h k)

/-- With `maxDegree` at or above `INT_MAX` the test `i <= maxDegree` holds for every `int`. -/
theorem displayLoop_none_of_ge (md : Int) (hmd : 2147483647 ≤ md) :
    ∀ (fuel : Nat) (i : Int) (st : DisplayState), i ≤ 2147483647 →
      displayLoop md fuel i st = none := by
  intro fuel
  induction fuel with
  | zero => intro i st _; rfl
  | succ n ih =>
    intro i st hi
    simp only [displayLoop, if_pos (le_trans hi hmd)]
    exact ih _ _ (wrapInt32_le _)

/-- Whenever `displayReducedForm` returns, on a sorted map with non-negative keys, the degree is
below `INT_MAX`, the line printed is the one the specification describes, and the map left has
the same coefficients and the same invariants. -/
theorem displayReducedForm_result (m : CoeffMap) (hs : Sorted m) (hn : NonNegKeys m)
    (fuel : Nat) (out : List Out) (m1 : CoeffMap)
    (hd : displayReducedForm fuel m = some (out, m1)) :
    getDegree m < 2147483647 ∧ out = reducedFormSpec m ∧ (∀ k, get m1 k = get m k) ∧
      Sorted m1 ∧ NonNegKeys m1 := by
  have hmx : maxDegree m = getDegree m := rfl
  by_cases h : getDegree m < 2147483647
  · obtain ⟨out0, m0, e0, hg, hs0, hn0⟩ := displayReducedForm_terminates m h hs hn
    obtain ⟨m2, e2, _⟩ := displayReducedForm_spec m (by rw [hmx]; exact h)
    rw [hmx, e0] at e2
    have a := displayReducedForm_mono fuel _ m _ e0
    have b := displayReducedForm_mono ((getDegree m).toNat + 2) _ m _ hd
    rw [Nat.add_comm, a] at b
    have hb := Option.some.inj b
    have ho : out0 = out := (Prod.mk.inj hb).1
    have hm : m0 = m1 := (Prod.mk.inj hb).2
    have ho2 : out0 = reducedFormSpec m := (Prod.mk.inj (Option.some.inj e2)).1
    subst ho hm
    exact ⟨h, ho2, hg, hs0, hn0⟩
  · exfalso
    unfold displayReducedForm at hd
    simp only at hd
    rw [hmx, displayLoop_none_of_ge _ (not_lt.1 h) fuel 0 _ (by decide)] at hd
    cases hd

/-! ## Doubles away from zero -/

theorem roundHalfEven_pos (N D : Nat) (hD : 0 < D) (h : D ≤ N) : 0 < roundHalfEven N D := by
  have hq : 0 < N / D := Nat.div_pos h hD
  unfold roundHalfEven
  simp only
  split_ifs <;> omega

theorem mantissa_pos (n d : Nat) (hd : 0 < d) (s : Int)
    (h : (2 : ℚ) ^ s ≤ (n : ℚ) / d) : 0 < mantissa n d s := by
  have hdq : (0 : ℚ) < d := by exact_mod_cast hd
  unfold mantissa
  by_cases hs : 0 ≤ s
  · obtain ⟨k, rfl⟩ := Int.eq_ofNat_of_zero_le hs
    simp only [hs, if_true, Int.toNat_ofNat]
    rw [zpow_natCast, le_div_iff₀ hdq] at h
    apply roundHalfEven_pos _ _ (by positivity)
    have : ((d * 2 ^ k : ℕ) : ℚ) ≤ ((n : ℕ) : ℚ) := by push_cast; linarith
    exact_mod_cast this
  · obtain ⟨k, hk⟩ := Int.eq_ofNat_of_zero_le (by omega : 0 ≤ -s)
    have he : s = -(k : Int) := by omega
    simp only [hs, if_false, hk, Int.toNat_ofNat]
    rw [he, zpow_neg, zpow_natCast, le_div_iff₀ hdq] at h
    have hp : (0 : ℚ) < 2 ^ k := by positivity
    apply roundHalfEven_pos _ _ hd
    have : ((d : ℕ) : ℚ) ≤ ((n * 2 ^ k : ℕ) : ℚ) := by
      push_cast
      have h2 : (2 ^ k : ℚ)⁻¹ * d * 2 ^ k ≤ (n : ℚ) * 2 ^ k :=
        mul_le_mul_of_nonneg_right h (le_of_lt hp)
      have h3 : (2 ^ k : ℚ)⁻¹ * d * 2 ^ k = d := by field_simp
      linarith
    exact_mod_cast this

/-- A double is zero or at least the least subnormal in magnitude. -/
theorem roundMag_ge (n d : Nat) :
    roundMag n d = 0 ∨ (2 : ℚ) ^ (-1074 : Int) ≤ roundMag n d := by
  have hy : roundMag n d =
      (mantissa n d (ulpExponent n d) : ℚ) * (2 : ℚ) ^ ulpExponent n d := scale_eq _ _
  rcases Nat.eq_zero_or_pos (mantissa n d (ulpExponent n d)) with h | h
  · left
    rw [hy, h]
    simp
  · right
    have h1 : (1 : ℚ) ≤ (mantissa n d (ulpExponent n d) : ℚ) := by exact_mod_cast h
    have h2 : (2 : ℚ) ^ (-1074 : Int) ≤ (2 : ℚ) ^ ulpExponent n d :=
      zpow_le_zpow_right₀ (by norm_num) (by unfold ulpExponent; exact le_max_right _ _)
    have h3 : (0 : ℚ) < (2 : ℚ) ^ ulpExponent n d := by positivity
    rw [hy]
    nlinarith

/-- A rational at least the least subnormal does not round to zero. -/
theorem roundMag_pos_of_ge (n d : Nat) (hn : 0 < n) (hd : 0 < d)
    (h : (2 : ℚ) ^ (-1074 : Int) ≤ (n : ℚ) / d) : 0 < roundMag n d := by
  have hy : roundMag n d =
      (mantissa n d (ulpExponent n d) : ℚ) * (2 : ℚ) ^ ulpExponent n d := scale_eq _ _
  obtain ⟨elo, _⟩ := exponentOf_spec n d hn hd
  have hs : (2 : ℚ) ^ ulpExponent n d ≤ (n : ℚ) / d := by
    unfold ulpExponent
    rcases max_cases (exponentOf n d - 52) (-1074) with ⟨e, _⟩ | ⟨e, _⟩
    · rw [e]
      exact le_trans (zpow_le_zpow_right₀ (by norm_num) (by omega)) elo
    · rw [e]
      exact h
  have hm := mantissa_pos n d hd _ hs
  have h1 : (0 : ℚ) < (mantissa n d (ulpExponent n d) : ℚ) := by exact_mod_cast hm
  rw [hy]
  positivity

theorem binary64_two_mul_pos (a : ℚ) (hr : binary64 a = a) (ha : 0 < a) :
    0 < binary64 (2 * a) := by
  have hnum : 0 < a.num := Rat.num_pos.mpr ha
  have hge : (2 : ℚ) ^ (-1074 : Int) ≤ a := by
    rw [binary64_of_pos a ha] at hr
    rcases roundMag_ge a.num.natAbs a.den with h | h
    · rw [h] at hr
      linarith
    · rw [hr] at h
      exact h
  have h2 : 0 < 2 * a := by linarith
  have hnum2 : 0 < (2 * a).num := Rat.num_pos.mpr h2
  rw [binary64_of_pos _ h2]
  apply roundMag_pos_of_ge _ _ (Int.natAbs_pos.2 (ne_of_gt hnum2)) (2 * a).den_pos
  have hc : (((2 * a).num.natAbs : Nat) : ℚ) = ((2 * a).num : ℚ) := by
    rw [Nat.cast_natAbs, abs_of_pos hnum2]
  rw [hc, Rat.num_div_den]
  linarith

/-- Twice a non-zero double is not rounded to zero. -/
theorem binary64_two_mul_ne_zero (a : ℚ) (hr : binary64 a = a) (ha : a ≠ 0) :
    binary64 (2 * a) ≠ 0 := by
  rcases lt_or_gt_of_ne ha with h | h
  · have h1 : binary64 (-a) = -a := by rw [binary64_odd, hr]
    have h2 := binary64_two_mul_pos (-a) h1 (by linarith)
    have h3 : 2 * -a = -(2 * a) := by ring
    rw [h3, binary64_odd] at h2
    linarith
  · exact ne_of_gt (binary64_two_mul_pos a hr h)

/-- The map `parseEquation` builds holds values of the floating-point format only. -/
theorem parseEquation_rounded (rnd : ℚ → ℚ) (hidem : ∀ x, rnd (rnd x) = rnd x)
    (h0 : rnd 0 = 0) (equation : Str) (m0 m : CoeffMap)
    (h : parseEquation rnd equation m0 = .ok m) : Rounded rnd m := by
  obtain ⟨_, lhs, rhs, _, _, e⟩ := parseEquation_ok rnd equation m0 m h
  rw [e]
  apply accumulate_rounded rnd hidem
  apply accumulate_rounded rnd hidem
  intro k
  exact h0

/-! ## The fallbacks of the solvers -/

/-- C17: on the map `parseEquation` built, whenever `displayReducedForm` returns, the entries
it inserted change no coefficient and leave the degree unchanged; when `getDegree` then returns
2 the coefficient of `X^2` that `solveDegree2` reads is not zero, and neither is the divisor
`2 * a`, in exact arithmetic and in binary64; when it returns 1 the coefficient of `X^1` that
`solveDegree1` reads is not zero and `solveDegree1` prints the solution `-b / a`, not the
fallback to `solveDegree0`. -/
theorem c17_fallbacks_unreachable (rnd : ℚ → ℚ) (equation : Str) (m0 m : CoeffMap)
    (fuel : Nat) (out : List Out) (m1 : CoeffMap)
    (hp : parseEquation rnd equation m0 = .ok m)
    (hd : displayReducedForm fuel m = some (out, m1)) :
    (∀ k, get m1 k = get m k) ∧ getDegree m1 = getDegree m ∧
    (getDegree m1 = 2 → get m1 2 ≠ 0 ∧ 2 * get m1 2 ≠ 0 ∧
      (rnd = binary64 → binary64 (2 * get m1 2) ≠ 0)) ∧
    (getDegree m1 = 1 → get m1 1 ≠ 0 ∧
      solveDegree1 rnd m1 =
        ([.str "The solution is:", .endl, .dbl (rnd (-(get m1 0) / get m1 1)), .endl],
         touch (touch m1 1) 0)) := by
  have hi := parseEquation_invariant rnd equation m0 m hp
  obtain ⟨_, _, hg, hs1, hn1⟩ := displayReducedForm_result m hi.1 hi.2 fuel out m1 hd
  have hdeg : getDegree m1 = getDegree m := getDegree_congr m m1 hi.1 hi.2 hs1 hn1 hg
  have hnz : getDegree m1 ≠ 0 → get m1 (getDegree m1) ≠ 0 := by
    intro h
    have hsp := getDegree_spec m1 hs1 hn1
    by_cases hex : ∃ k, get m1 k ≠ 0
    · exact (hsp.1 hex).1
    · push_neg at hex
      exact absurd (hsp.2 hex) h
  refine ⟨hg, hdeg, ?_, ?_⟩
  · intro h2
    have ha : get m1 2 ≠ 0 := by
      have := hnz (by rw [h2]; decide)
      rw [h2] at this
      exact this
    refine ⟨ha, by simpa using ha, ?_⟩
    intro hb
    subst hb
    have hr := parseEquation_rounded binary64 binary64_idem binary64_zero equation m0 m hp
    apply binary64_two_mul_ne_zero _ _ ha
    rw [hg]
    exact hr 2
  · intro h1
    have ha : get m1 1 ≠ 0 := by
      have := hnz (by rw [h1]; decide)
      rw [h1] at this
      exact this
    refine ⟨ha, ?_⟩
    unfold solveDegree1
    simp only [get_touch, if_neg ha]

/-- Witness for C17: `X^2 - 4 = 0` in binary64, where the display inserts a zero entry for
`X^1`. -/
theorem c17_fallbacks_unreachable_witness :
    parseEquation binary64 "X^2 - 4 = 0".toList [] = .ok [(0, -4), (2, 1)] ∧
    displayReducedForm 4 [(0, -4), (2, 1)] =
      some ([.str "Reduced form: ", .str "-", .dbl 4, .str " * X^", .int 0, .str " + ",
             .dbl 1, .str " * X^", .int 2, .str " = 0", .endl],
            [(0, -4), (1, 0), (2, 1)]) ∧
    getDegree [(0, -4), (1, 0), (2, 1)] = getDegree [(0, -4), (2, 1)] ∧
    (getDegree [(0, -4), (1, 0), (2, 1)] = 2 → get [(0, -4), (1, 0), (2, 1)] 2 ≠ 0 ∧
      2 * get [(0, -4), (1, 0), (2, 1)] 2 ≠ 0 ∧
      (binary64 = binary64 → binary64 (2 * get [(0, -4), (1, 0), (2, 1)] 2) ≠ 0)) :=
  ⟨by decide!, by decide!,
   (c17_fallbacks_unreachable binary64 "X^2 - 4 = 0".toList [] [(0, -4), (2, 1)] 4
      [.str "Reduced form: ", .str "-", .dbl 4, .str " * X^", .int 0, .str " + ",
       .dbl 1, .str " * X^", .int 2, .str " = 0", .endl]
      [(0, -4), (1, 0), (2, 1)] (by decide!) (by decide!)).2.1,
   (c17_fallbacks_unreachable binary64 "X^2 - 4 = 0".toList [] [(0, -4), (2, 1)] 4
      [.str "Reduced form: ", .str "-", .dbl 4, .str " * X^", .int 0, .str " + ",
       .dbl 1, .str " * X^", .int 2, .str " = 0", .endl]
      [(0, -4), (1, 0), (2, 1)] (by decide!) (by decide!)).2.2.1⟩

/-! ## The line of the reduced form -/

/-- C18, at the failing input: the equation `X^2147483647 = 0` parses to the map with the
entries `0 ↦ 0` and `2147483647 ↦ 1`, and on that map `displayReducedForm` does not return,
whatever the fuel: the loop `for (int i = 0; i <= maxDegree; i++)` has no exit when `maxDegree`
is `INT_MAX`, so the line is never ended by ` = 0`. -/
theorem c18_display_never_ends_at_int_max (fuel : Nat) :
    parseEquation binary64 "X^2147483647 = 0".toList [] = .ok [(0, 0), (2147483647, 1)] ∧
    maxDegree [(0, 0), (2147483647, 1)] = 2147483647 ∧
    displayReducedForm fuel [(0, 0), (2147483647, 1)] = none := by
  have hm : maxDegree [(0, 0), (2147483647, 1)] = 2147483647 := by decide!
  refine ⟨by decide!, hm, ?_⟩
  unfold displayReducedForm
  simp only
  rw [hm, displayLoop_int_max fuel 0 _ (by decide)]

/-! ## Whitespace in a side -/

theorem termsStep_unsigned (w cur : Str) (hw : ∀ c ∈ w, c ≠ '+' ∧ c ≠ '-') :
    termsStep w cur = ([], cur ++ w) := by
  unfold termsStep
  have h1 : (w == ['+']) = false := by
    cases h : w == ['+'] with
    | false => rfl
    | true =>
      have := eq_of_beq h
      subst this
      exact absurd rfl (hw '+' (List.mem_singleton_self _)).1
  have h2 : (w == ['-']) = false := by
    cases h : w == ['-'] with
    | false => rfl
    | true =>
      have := eq_of_beq h
      subst this
      exact absurd rfl (hw '-' (List.mem_singleton_self _)).2
  simp [h1, h2]

theorem termsOf_cons_unsigned (w : Str) (rest : List Str) (cur : Str)
    (hw : ∀ c ∈ w, c ≠ '+' ∧ c ≠ '-') :
    termsOf (w :: rest) cur = termsOf rest (cur ++ w) := by
  rw [termsOf, termsStep_unsigned w cur hw]
  rfl

theorem termsOf_cons_sign (c : Char) (rest : List Str) (cur : Str) (hc : c = '+' ∨ c = '-') :
    termsOf ([c] :: rest) cur =
      (if !cur.isEmpty then [cur] else []) ++ termsOf rest (if c = '-' then ['-'] else []) := by
  rw [termsOf]
  rcases hc with h | h <;> subst h <;> rfl

/-- The terms of a side depend on its characters only through `termsOfChars`. -/
theorem termsOf_wordsFrom_spaced :
    ∀ (s w cur : Str), (∀ c ∈ w, c ≠ '+' ∧ c ≠ '-') →
      termsOf (wordsFrom (spaced s) w) cur = termsOfChars s (cur ++ w) := by
  intro s
  induction s with
  | nil =>
    intro w cur hw
    show termsOf (wordsFrom [] w) cur = termsOfChars [] (cur ++ w)
    rw [wordsFrom]
    cases w with
    | nil => simp [termsOf, termsOfChars]
    | cons x xs =>
      simp only [List.isEmpty_cons, Bool.false_eq_true, if_false]
      rw [termsOf_cons_unsigned _ _ _ hw]
      rfl
  | cons c cs ih =>
    intro w cur hw
    have hsp : isspace ' ' = true := by decide
    by_cases hc : isspace c = true
    · have hns : ¬ (c = '+' ∨ c = '-') := by
        rintro (h | h) <;> subst h <;> revert hc <;> decide
      have e : spaced (c :: cs) = c :: spaced cs := by simp [spaced, hns]
      rw [e, wordsFrom_cons_space c _ w hc]
      have r : termsOfChars (c :: cs) (cur ++ w) = termsOfChars cs (cur ++ w) := by
        rw [termsOfChars, if_pos hc]
      rw [r]
      cases w with
      | nil =>
        simp only [List.isEmpty_nil, if_true]
        exact ih [] cur (by simp)
      | cons x xs =>
        simp only [List.isEmpty_cons, Bool.false_eq_true, if_false]
        rw [termsOf_cons_unsigned _ _ _ hw, ih [] (cur ++ x :: xs) (by simp), List.append_nil]
    · have hc' : isspace c = false := by simpa using hc
      by_cases hsg : c = '+' ∨ c = '-'
      · have e : spaced (c :: cs) = ' ' :: c :: ' ' :: spaced cs := by simp [spaced, hsg]
        have r : termsOfChars (c :: cs) (cur ++ w) =
            (if !(cur ++ w).isEmpty then [cur ++ w] else [])
              ++ termsOfChars cs (if c = '-' then ['-'] else []) := by
          rw [termsOfChars, if_neg hc, if_pos hsg]
        have t : wordsFrom (c :: ' ' :: spaced cs) [] = [c] :: wordsFrom (spaced cs) [] := by
          rw [wordsFrom_cons_nonspace c _ [] hc', wordsFrom_cons_space ' ' _ _ hsp]
          rfl
        rw [e, r, wordsFrom_cons_space ' ' _ w hsp, t]
        cases w with
        | nil =>
          simp only [List.isEmpty_nil, if_true, List.append_nil]
          rw [termsOf_cons_sign c _ _ hsg, ih [] _ (by simp), List.append_nil]
        | cons x xs =>
          simp only [List.isEmpty_cons, Bool.false_eq_true, if_false]
          rw [termsOf_cons_unsigned _ _ _ hw, termsOf_cons_sign c _ _ hsg, ih [] _ (by simp),
            List.append_nil]
      · have e : spaced (c :: cs) = c :: spaced cs := by simp [spaced, hsg]
        have r : termsOfChars (c :: cs) (cur ++ w) = termsOfChars cs ((cur ++ w) ++ [c]) := by
          rw [termsOfChars, if_neg hc, if_neg hsg]
        rw [e, r, wordsFrom_cons_nonspace c _ w hc', ih (w ++ [c]) cur, List.append_assoc]
        intro x hx
        rcases List.mem_append.1 hx with h | h
        · exact hw x h
        · rw [List.mem_singleton] at h
          subst h
          exact ⟨fun h => hsg (Or.inl h), fun h => hsg (Or.inr h)⟩

theorem sideTerms_eq_termsOfChars (side : Str) : sideTerms side = termsOfChars side [] := by
  rw [sideTerms_eq]
  exact termsOf_wordsFrom_spaced side [] [] (by simp)

theorem termsOfChars_filter :
    ∀ (s cur : Str), termsOfChars s cur = termsOfChars (s.filter (fun c => !isspace c)) cur := by
  intro s
  induction s with
  | nil => intro cur; rfl
  | cons c cs ih =>
    intro cur
    by_cases hc : isspace c = true
    · rw [termsOfChars, if_pos hc, List.filter_cons_of_neg (by simp [hc])]
      exact ih cur
    · rw [List.filter_cons_of_pos (by simpa using hc), termsOfChars, termsOfChars, if_neg hc,
        if_neg hc, ih, ih]

/-- C20: two side texts that differ only in whitespace (space, tab, newline, vertical tab, form
feed, carriage return), inserted or deleted at any positions, give `parseSide` the same
sequence of terms, hence the same (coefficient, exponent) pairs or the same exception and the
same result; the terms are those cut at the `+` and `-` characters alone. -/
theorem c20_whitespace_insensitive (rnd : ℚ → ℚ) (s1 s2 : Str) (isRight : Bool) (m : CoeffMap)
    (h : s1.filter (fun c => !isspace c) = s2.filter (fun c => !isspace c)) :
    sideTerms s1 = sideTerms s2 ∧
    termValues rnd (sideTerms s1) = termValues rnd (sideTerms s2) ∧
    parseSide rnd s1 isRight m = parseSide rnd s2 isRight m ∧
    sideTerms s1 = termsOfChars (s1.filter (fun c => !isspace c)) [] := by
  have e : sideTerms s1 = sideTerms s2 := by
    rw [sideTerms_eq_termsOfChars, sideTerms_eq_termsOfChars, termsOfChars_filter s1,
      termsOfChars_filter s2, h]
  refine ⟨e, by rw [e], ?_, ?_⟩
  · rw [parseSide_eq_parseTerms, parseSide_eq_parseTerms, e]
  · rw [sideTerms_eq_termsOfChars, ← termsOfChars_filter]

/-- Witness for C20: `5 * X^0 + 4 * X^1 - 9.3 * X^2` with its blanks removed and others set
inside the terms, between digits too. -/
theorem c20_whitespace_insensitive_witness :
    "5 * X^0 + 4 * X^1 - 9.3 * X^2".toList.filter (fun c => !isspace c)
      = "5*X ^0+4*X^1-9 . 3*X^ 2 ".toList.filter (fun c => !isspace c) ∧
    sideTerms "5 * X^0 + 4 * X^1 - 9.3 * X^2".toList = sideTerms "5*X ^0+4*X^1-9 . 3*X^ 2 ".toList ∧
    parseSide binary64 "5 * X^0 + 4 * X^1 - 9.3 * X^2".toList false []
      = parseSide binary64 "5*X ^0+4*X^1-9 . 3*X^ 2 ".toList false [] :=
  ⟨by decide,
   (c20_whitespace_insensitive binary64 "5 * X^0 + 4 * X^1 - 9.3 * X^2".toList
      "5*X ^0+4*X^1-9 . 3*X^ 2 ".toList false [] (by decide)).1,
   (c20_whitespace_insensitive binary64 "5 * X^0 + 4 * X^1 - 9.3 * X^2".toList
      "5*X ^0+4*X^1-9 . 3*X^ 2 ".toList false [] (by decide)).2.2.1⟩

/-! ## The regular expressions, as languages -/

theorem Dbl.add_nan_left (y : Dbl) : Dbl.add .nan y = .nan := by
  cases y <;> rfl

theorem Dbl.mul_nan_right (x : Dbl) : Dbl.mul x .nan = .nan := by
  cases x <;> rfl

theorem Dbl.lt_nan_left (y : Dbl) : Dbl.lt .nan y = false := by
  cases y <;> rfl

/-- Once `result` is NaN the test of the loop fails in every pass. -/
theorem sqrtLoopD_nan (x : Dbl) : ∀ fuel : Nat, sqrtLoopD x fuel .nan = none := by
  intro fuel
  induction fuel with
  | zero => rfl
  | succ n ih =>
    have h1 : Dbl.mul (.fin (1 / 2)) (Dbl.add .nan (Dbl.div x .nan)) = .nan := by
      rw [Dbl.add_nan_left, Dbl.mul_nan_right]
    have h2 : Dbl.lt (Dbl.abs (Dbl.sub .nan .nan)) (Dbl.ofExact (1 / 10 ^ 10)) = false := by
      have : Dbl.abs (Dbl.sub .nan .nan) = .nan := rfl
      rw [this, Dbl.lt_nan_left]
    simp only [sqrtLoopD, h1, h2, Bool.false_eq_true, if_false]
    exact ih

/-- The call `sqrt(NaN)` does not return: both guards fail and the loop has no exit. -/
theorem sqrtD_nan (fuel : Nat) : sqrtD fuel .nan = none := by
  unfold sqrtD
  have h1 : Dbl.lt .nan (.fin 0) = false := rfl
  have h2 : Dbl.eq .nan (.fin 0) = false := rfl
  simp only [h1, h2, Bool.false_eq_true, if_false]
  exact sqrtLoopD_nan _ fuel

/-- The call `sqrt(+inf)` does not return: `inf / inf` is NaN, so `result` is NaN from the
first pass on. -/
theorem sqrtD_inf (fuel : Nat) : sqrtD fuel (.inf false) = none := by
  unfold sqrtD
  have h1 : Dbl.lt (.inf false) (.fin 0) = false := rfl
  have h2 : Dbl.eq (.inf false) (.fin 0) = false := rfl
  simp only [h1, h2, Bool.false_eq_true, if_false]
  cases fuel with
  | zero => rfl
  | succ n =>
    have h3 : Dbl.mul (.fin (1 / 2)) (Dbl.add (.inf false) (Dbl.div (.inf false) (.inf false)))
        = .nan := rfl
    have h4 : Dbl.lt (Dbl.abs (Dbl.sub .nan (.inf false))) (Dbl.ofExact (1 / 10 ^ 10))
        = false := by
      have : Dbl.abs (Dbl.sub .nan (.inf false)) = .nan := rfl
      rw [this, Dbl.lt_nan_left]
    simp only [sqrtLoopD, h3, h4, Bool.false_eq_true, if_false]
    exact sqrtLoopD_nan _ n

/-- A discriminant that is not `> 0` and not `== 0` has a negation that is `> 0` or NaN. -/
theorem Dbl.neg_pos_or_nan (d : Dbl) (h1 : Dbl.lt (.fin 0) d = false)
    (h2 : Dbl.eq d (.fin 0) = false) :
    Dbl.lt (.fin 0) (Dbl.neg d) = true ∨ Dbl.neg d = .nan := by
  cases d with
  | fin x =>
    left
    simp only [Dbl.lt, Dbl.eq, decide_eq_false_iff_not, not_lt] at h1 h2
    simp only [Dbl.neg, Dbl.lt, decide_eq_true_eq]
    have : x < 0 := lt_of_le_of_ne h1 h2
    linarith
  | inf s =>
    left
    cases s with
    | true => rfl
    | false => simp [Dbl.lt] at h1
  | nan => right; rfl

/-- The guards `x < 0` and `x == 0` of `sqrt` fail on an argument that is `> 0` or NaN. -/
theorem sqrtD_eq_loop (fuel : Nat) (x : Dbl)
    (hx : Dbl.lt (.fin 0) x = true ∨ x = .nan) : sqrtD fuel x = sqrtLoopD x fuel x := by
  unfold sqrtD
  have h1 : Dbl.lt x (.fin 0) = false := by
    rcases hx with h | h
    · cases x with
      | fin q =>
        simp only [Dbl.lt, decide_eq_true_eq] at h
        simp only [Dbl.lt, decide_eq_false_iff_not, not_lt]
        exact h.le
      | inf s =>
        cases s with
        | true => simp [Dbl.lt] at h
        | false => rfl
      | nan => rfl
    · subst h; rfl
  have h2 : Dbl.eq x (.fin 0) = false := by
    rcases hx with h | h
    · cases x with
      | fin q =>
        simp only [Dbl.lt, decide_eq_true_eq] at h
        simp only [Dbl.eq, decide_eq_false_iff_not]
        exact ne_of_gt h
      | inf s => rfl
      | nan => rfl
    · subst h; rfl
  simp only [h1, h2, Bool.false_eq_true, if_false]

/-- The result of `solveDegree2` depends on `sqrt` only through its values on the arguments
that are `> 0` or NaN. -/
theorem solveDegree2D_congr (f g : Dbl → Option Dbl) (a b c : Dbl)
    (h : ∀ x, Dbl.lt (.fin 0) x = true ∨ x = .nan → f x = g x) :
    solveDegree2D f a b c = solveDegree2D g a b c := by
  unfold solveDegree2D
  simp only
  cases h0 : Dbl.eq a (.fin 0) with
  | true => simp only [if_true]
  | false =>
    simp only [Bool.false_eq_true, if_false]
    cases h1 : Dbl.lt (.fin 0) (discriminantD a b c) with
    | true => simp only [if_true, h _ (Or.inl h1)]
    | false =>
      simp only [Bool.false_eq_true, if_false]
      cases h2 : Dbl.eq (discriminantD a b c) (.fin 0) with
      | true => simp only [if_true]
      | false =>
        simp only [Bool.false_eq_true, if_false, h _ (Dbl.neg_pos_or_nan _ h1 h2)]

/-- A discriminant that is an infinity or NaN: `solveDegree2` does not return, whatever the
fuel, because its call of `sqrt` does not. -/
theorem solveDegree2D_not_finite (a b c : Dbl) (ha : Dbl.eq a (.fin 0) = false)
    (hd : ∀ x, discriminantD a b c ≠ .fin x) (fuel : Nat) :
    solveDegree2D (sqrtD fuel) a b c = none := by
  unfold solveDegree2D
  simp only [ha, Bool.false_eq_true, if_false]
  cases hdisc : discriminantD a b c with
  | fin x => exact absurd hdisc (hd x)
  | inf s =>
    cases s with
    | false =>
      have h1 : Dbl.lt (.fin 0) (.inf false) = true := rfl
      simp only [h1, if_true, sqrtD_inf]
    | true =>
      have h1 : Dbl.lt (.fin 0) (.inf true) = false := rfl
      have h2 : Dbl.eq (.inf true) (.fin 0) = false := rfl
      have h3 : Dbl.neg (.inf true) = .inf false := rfl
      simp only [h1, h2, h3, Bool.false_eq_true, if_false, sqrtD_inf]
  | nan =>
    have h1 : Dbl.lt (.fin 0) .nan = false := rfl
    have h2 : Dbl.eq .nan (.fin 0) = false := rfl
    have h3 : Dbl.neg .nan = .nan := rfl
    simp only [h1, h2, h3, Bool.false_eq_true, if_false, sqrtD_nan]

/-- Overflow in the discriminant: with `a = 1`, `b = 1e200`, `c = 1` the product `b * b` is
`+inf`, and with `a = 1`, `b = 0`, `c = 1e308` the product `4 * a * c` is `+inf`; in both cases
`solveDegree2` does not return. -/
theorem solveDegree2D_overflow (fuel : Nat) :
    discriminantD (.fin 1) (.fin (binary64 (10 ^ 200))) (.fin 1) = .inf false ∧
    solveDegree2D (sqrtD fuel) (.fin 1) (.fin (binary64 (10 ^ 200))) (.fin 1) = none ∧
    discriminantD (.fin 1) (.fin 0) (.fin (binary64 (10 ^ 308))) = .inf true ∧
    solveDegree2D (sqrtD fuel) (.fin 1) (.fin 0) (.fin (binary64 (10 ^ 308))) = none := by
  have d1 : discriminantD (.fin 1) (.fin (binary64 (10 ^ 200))) (.fin 1) = .inf false := by
    decide!
  have d2 : discriminantD (.fin 1) (.fin 0) (.fin (binary64 (10 ^ 308))) = .inf true := by
    decide!
  refine ⟨d1, ?_, d2, ?_⟩
  · exact solveDegree2D_not_finite _ _ _ (by decide!) (by rw [d1]; intro x h; cases h) fuel
  · exact solveDegree2D_not_finite _ _ _ (by decide!) (by rw [d2]; intro x h; cases h) fuel

/-! ## The arguments of `sqrt` -/

/-- C16, counterexample: the equation with `1e200`, written out in digits, as the coefficient
of `X^2`, `X^1` and `X^0` parses to finite doubles; in `solveDegree2` both products overflow,
the discriminant `inf - inf` is NaN, neither `discriminant > 0` nor `discriminant == 0` holds,
and the last branch calls `sqrt` on NaN, which is not a strictly positive value: a function
that answers on NaN alone makes `solveDegree2` return, and with `sqrt` itself it does not
return. -/
theorem c16_sqrt_called_with_nan :
    parseEquation binary64
      ('1' :: List.replicate 200 '0' ++ "*X^2 + ".toList ++ ('1' :: List.replicate 200 '0')
        ++ "*X^1 + ".toList ++ ('1' :: List.replicate 200 '0') ++ "*X^0 = 0".toList) []
      = .ok [(0, binary64 (10 ^ 200)), (1, binary64 (10 ^ 200)), (2, binary64 (10 ^ 200))] ∧
    Dbl.ofExact (10 ^ 200) = .fin (binary64 (10 ^ 200)) ∧
    discriminantD (.fin (binary64 (10 ^ 200))) (.fin (binary64 (10 ^ 200)))
      (.fin (binary64 (10 ^ 200))) = .nan ∧
    Dbl.lt (.fin 0) .nan = false ∧
    (solveDegree2D (fun x => if x = .nan then some (.fin 1) else none)
      (.fin (binary64 (10 ^ 200))) (.fin (binary64 (10 ^ 200)))
      (.fin (binary64 (10 ^ 200)))).isSome = true ∧
    solveDegree2D (fun _ => none)
      (.fin (binary64 (10 ^ 200))) (.fin (binary64 (10 ^ 200)))
      (.fin (binary64 (10 ^ 200))) = none ∧
    ∀ fuel, solveDegree2D (sqrtD fuel)
      (.fin (binary64 (10 ^ 200))) (.fin (binary64 (10 ^ 200)))
      (.fin (binary64 (10 ^ 200))) = none := by
  have d : discriminantD (.fin (binary64 (10 ^ 200))) (.fin (binary64 (10 ^ 200)))
      (.fin (binary64 (10 ^ 200))) = .nan := by decide!
  refine ⟨by decide!, by decide!, d, rfl, by decide!, by decide!, fun fuel => ?_⟩
  exact solveDegree2D_not_finite _ _ _ (by decide!) (by rw [d]; intro x h; cases h) fuel

/-- C16, amended: over the doubles with infinities and NaN, every call of `sqrt` in
`solveDegree2` is on the discriminant where it is `> 0` and on its negation where it is neither
`> 0` nor `== 0`, hence on an argument that is strictly positive, possibly `+inf`, or NaN, never
on a negative number or on zero: the result of `solveDegree2` is the same with any two functions
that agree on those arguments, in particular with the loop of `sqrt` alone, without the guards
`x < 0`, which returns `-1`, and `x == 0`. -/
theorem c16_sqrt_argument_positive_or_nan (a b c : Dbl) (f g : Dbl → Option Dbl)
    (h : ∀ x, Dbl.lt (.fin 0) x = true ∨ x = .nan → f x = g x) :
    solveDegree2D f a b c = solveDegree2D g a b c ∧
    ∀ fuel, solveDegree2D (sqrtD fuel) a b c = solveDegree2D (fun x => sqrtLoopD x fuel x) a b c :=
  ⟨solveDegree2D_congr f g a b c h,
   fun fuel => solveDegree2D_congr _ _ a b c (fun x hx => sqrtD_eq_loop fuel x hx)⟩

/-- Witness for C16, amended: the coefficients of `X^2 - 4 = 0` and a function that has no
value outside the arguments that are strictly positive or NaN. -/
theorem c16_sqrt_argument_positive_or_nan_witness :
    (∀ x, Dbl.lt (.fin 0) x = true ∨ x = .nan →
      (fun x => if Dbl.lt (.fin 0) x = true ∨ x = .nan then sqrtD 10 x else none) x
        = sqrtD 10 x) ∧
    solveDegree2D (fun x => if Dbl.lt (.fin 0) x = true ∨ x = .nan then sqrtD 10 x else none)
      (.fin 1) (.fin 0) (.fin (-4)) = solveDegree2D (sqrtD 10) (.fin 1) (.fin 0) (.fin (-4)) ∧
    solveDegree2D (sqrtD 10) (.fin 1) (.fin 0) (.fin (-4)) =
      some [.str "Discriminant is strictly positive, the two solutions are:", .endl,
            .dbl (.fin (4503599627370553 / 2251799813685248)), .endl,
            .dbl (.fin (-4503599627370553 / 2251799813685248)), .endl] :=
  ⟨fun _ hx => if_pos hx,
   (c16_sqrt_argument_positive_or_nan (.fin 1) (.fin 0) (.fin (-4))
      (fun x => if Dbl.lt (.fin 0) x = true ∨ x = .nan then sqrtD 10 x else none) (sqrtD 10)
      (fun _ hx => if_pos hx)).1,
   by decide!⟩

end PolynomialSolver
